import Mathlib

/-!
Controller convergence loops of talos: a shallow embedding.

The development embeds, as pure state-passing functions over an abstract
world `W`, the two reference controllers

* `files.EtcFileController` (`internal/app/machined/pkg/controllers/files/etcfile.go`),
  with its helpers `createBindMountFile`, `UpdateFile` and `UpdateFileFs`;
* `cluster.KubernetesPullController`
  (`internal/app/machined/pkg/controllers/cluster/kubernetes_pull.go`).

Every call that leaves the function (resource store, filesystem, mount
table, SELinux, Kubernetes registry) is a field of an environment record:
it maps a world to a result and a new world, so a world can carry any
failure schedule.  Every such call is also written to a trace of `Event`s
together with its result, which is what the temporal statements are
about.
-/

namespace Talos

/-! ## Errors, results, resources -/

/-- Go `error` values.  `notExist` stands for `os.ErrNotExist`, `notFound`
for the store's not-found error, `canceled` for `context.Canceled`;
`wrap` is `fmt.Errorf("...: %w", err)`. -/
inductive Err where
  | notExist
  | notFound
  | canceled
  | other (msg : String)
  | wrap (ctx : String) (inner : Err)
deriving DecidableEq, Repr

/-- The predicate `errors.Is(err, os.ErrNotExist)`: looks through `%w` wrapping. -/
def Err.isNotExist : Err → Bool
  | .notExist => true
  | .wrap _ e => e.isNotExist
  | _ => false

/-- The predicate `state.IsNotFoundError(err)`. -/
def Err.isNotFound : Err → Bool
  | .notFound => true
  | .wrap _ e => e.isNotFound
  | _ => false

/-- A Go `(value, error)` pair. -/
inductive Res (α : Type) where
  | ok (a : α)
  | err (e : Err)
deriving DecidableEq, Repr

/-- Resource ids (`resource.ID`). -/
abbrev ID := String

/-- File contents (`[]byte`), one number per byte. -/
abbrev Bytes := List Nat

/-- File modes (`os.FileMode`). -/
abbrev FileMode := Nat

/-- Resource phases (`resource.Phase`). -/
inductive Phase where
  | running
  | tearingDown
deriving DecidableEq, Repr

/-- An `EtcFileSpec` resource as the controller reads it: metadata id, phase
and version, and the typed spec (contents, mode, SELinux label). -/
structure EtcFileSpec where
  id : ID
  phase : Phase
  version : String
  contents : Bytes
  mode : FileMode
  selinuxLabel : String
deriving DecidableEq, Repr

/-- An `EtcFileStatus` resource: id and the spec version it reports. -/
structure EtcFileStatus where
  id : ID
  specVersion : String
deriving DecidableEq, Repr

/-- The discovery config (`cluster.Config`), as far as the controller reads it. -/
structure DiscoveryConfig where
  registryKubernetesEnabled : Bool
deriving DecidableEq, Repr

/-- An affiliate spec returned by the Kubernetes registry: the node id the
controller reads, and the remaining payload it copies. -/
structure AffiliateSpec where
  nodeID : String
  payload : String
deriving DecidableEq, Repr

/-- An `Affiliate` resource of the raw namespace as listed from the store. -/
structure Affiliate where
  id : ID
  owner : String
  spec : AffiliateSpec
deriving DecidableEq, Repr

/-- The kind of a controller input (`controller.InputKind`). -/
inductive InputKind where
  | weak
  | strong
deriving DecidableEq, Repr

/-- A controller input (`controller.Input`): namespace, type, optional id, kind. -/
structure Input where
  namespace_ : String
  type : String
  id : Option ID
  kind : InputKind
deriving DecidableEq, Repr

/-- What a controller receives at a blocking `select`. -/
inductive Wake where
  | done
  | event
  | notify
deriving DecidableEq, Repr

/-- Calls observable in a run, each with its arguments and its result. -/
inductive Event where
  | wake (k : Wake)
  | listSpecs (r : Res (List EtcFileSpec))
  | addFinalizer (id : ID) (name : String) (r : Option Err)
  | removeFinalizer (id : ID) (name : String) (r : Option Err)
  | unmount (dst : String) (r : Option Err)
  | osRemove (path : String) (r : Option Err)
  | mkdirAll (path : String) (mode : FileMode) (r : Option Err)
  | openFile (path : String) (mode : FileMode) (r : Option Err)
  | closeFile (path : String) (r : Option Err)
  | bindReadonly (src dst : String) (r : Option Err)
  | xfsReadFile (path : String) (r : Res Bytes)
  | xfsWriteFile (path : String) (contents : Bytes) (mode : FileMode) (r : Option Err)
  | osReadFile (path : String) (r : Res Bytes)
  | osWriteFile (path : String) (contents : Bytes) (mode : FileMode) (r : Option Err)
  | setLabel (path : String) (label : String) (r : Option Err)
  | modifyStatus (id : ID) (specVersion : String) (r : Option Err)
  | listStatuses (r : Res (List EtcFileStatus))
  | destroyStatus (id : ID) (r : Option Err)
  | resetRestartBackoff
  | getConfig (r : Res DiscoveryConfig)
  | waitKubeconfig (r : Option Err)
  | getNodename (r : Res String)
  | newClient (r : Option Err)
  | newRegistry
  | watch (r : Option Err)
  | registryList (nodename : String) (r : Res (List AffiliateSpec))
  | modifyAffiliate (id : ID) (spec : AffiliateSpec) (r : Option Err)
  | listAffiliates (r : Res (List Affiliate))
  | destroyAffiliate (id : ID) (r : Option Err)
  | watchCtxCancel
  | notifyCloser
  | clientClose
  | updateInputs (inputs : List Input) (r : Option Err)
  | getDevicesStatus (r : Res Bool)
  | queueReconcile
  | openTree (rootfd : Int) (root : String) (flags : Nat) (r : Res Int)
deriving DecidableEq, Repr

/-- The outcome of a piece of code: the error it returns (`none` is Go `nil`),
the state it leaves, and the calls it made, in order. -/
structure Out (σ : Type) where
  err : Option Err
  st : σ
  events : List Event

/-- How a `Run` invocation ends on a finite stream of wake-ups: it returns,
or it is still blocked at a wait when the stream is exhausted. -/
inductive RunResult where
  | returned (err : Option Err)
  | blocked
deriving DecidableEq, Repr

/-- The result of `Run` on a stream of wake-ups. -/
structure RunOut (σ : Type) where
  result : RunResult
  st : σ
  events : List Event

/-! ## File helpers: `UpdateFile`, `UpdateFileFs`, `createBindMountFile` -/

/-- The calls `etcfile.go` makes outside the resource store. -/
structure FileEnv (W : Type) where
  /-- Plain `filepath.Join` of two elements. -/
  join : String → String → String
  /-- Plain `filepath.Dir`. -/
  dir : String → String
  /-- The mount point of the anonymous filesystem. -/
  mountPoint : String
  unmount : String → W → Option Err × W
  osRemove : String → W → Option Err × W
  mkdirAll : String → FileMode → W → Option Err × W
  openFile : String → FileMode → W → Option Err × W
  closeFile : String → W → Option Err × W
  bindReadonly : String → String → W → Option Err × W
  xfsReadFile : String → W → Res Bytes × W
  xfsWriteFile : String → Bytes → FileMode → W → Option Err × W
  osReadFile : String → W → Res Bytes × W
  osWriteFile : String → Bytes → FileMode → W → Option Err × W
  setLabel : String → String → W → Option Err × W

variable {W : Type}

/-- Embedding of `UpdateFile` (etcfile.go:210). -/
def UpdateFile (env : FileEnv W) (filename : String) (contents : Bytes) (mode : FileMode)
    (selinuxLabel : String) (w : W) : Out W :=
  let rd := env.osReadFile filename w
  if rd.1 = Res.ok contents then
    let sl := env.setLabel filename selinuxLabel rd.2
    ⟨sl.1, sl.2, [.osReadFile filename rd.1, .setLabel filename selinuxLabel sl.1]⟩
  else
    let wr := env.osWriteFile filename contents mode rd.2
    match wr.1 with
    | some e => ⟨some e, wr.2, [.osReadFile filename rd.1, .osWriteFile filename contents mode (some e)]⟩
    | none =>
      let sl := env.setLabel filename selinuxLabel wr.2
      ⟨sl.1, sl.2, [.osReadFile filename rd.1, .osWriteFile filename contents mode none,
        .setLabel filename selinuxLabel sl.1]⟩

/-- Embedding of `UpdateFileFs` (etcfile.go:226): the read and the write go to
the anonymous filesystem, the label is set through the plain path. -/
def UpdateFileFs (env : FileEnv W) (filename : String) (contents : Bytes) (mode : FileMode)
    (selinuxLabel : String) (w : W) : Out W :=
  let rd := env.xfsReadFile filename w
  if rd.1 = Res.ok contents then
    let sl := env.setLabel filename selinuxLabel rd.2
    ⟨sl.1, sl.2, [.xfsReadFile filename rd.1, .setLabel filename selinuxLabel sl.1]⟩
  else
    let wr := env.xfsWriteFile filename contents mode rd.2
    match wr.1 with
    | some e => ⟨some e, wr.2, [.xfsReadFile filename rd.1, .xfsWriteFile filename contents mode (some e)]⟩
    | none =>
      let sl := env.setLabel filename selinuxLabel wr.2
      ⟨sl.1, sl.2, [.xfsReadFile filename rd.1, .xfsWriteFile filename contents mode none,
        .setLabel filename selinuxLabel sl.1]⟩

/-- Embedding of `createBindMountFile` (etcfile.go:178): `MkdirAll` of the
parent directory with mode 0o755, `OpenFile` with `O_WRONLY|O_CREATE`,
`Close`, then `mount.BindReadonly`; the first error is returned. -/
def createBindMountFile (env : FileEnv W) (src dst : String) (mode : FileMode) (w : W) : Out W :=
  let mk := env.mkdirAll (env.dir src) 0o755 w
  match mk.1 with
  | some e => ⟨some e, mk.2, [.mkdirAll (env.dir src) 0o755 (some e)]⟩
  | none =>
    let op := env.openFile src mode mk.2
    match op.1 with
    | some e => ⟨some e, op.2, [.mkdirAll (env.dir src) 0o755 none, .openFile src mode (some e)]⟩
    | none =>
      let cl := env.closeFile src op.2
      match cl.1 with
      | some e => ⟨some e, cl.2, [.mkdirAll (env.dir src) 0o755 none, .openFile src mode none,
          .closeFile src (some e)]⟩
      | none =>
        let bm := env.bindReadonly (env.join env.mountPoint src) dst cl.2
        ⟨bm.1, bm.2, [.mkdirAll (env.dir src) 0o755 none, .openFile src mode none,
          .closeFile src none, .bindReadonly (env.join env.mountPoint src) dst bm.1]⟩

/-! ## Sequencing of fallible steps -/

/-- Run `f` on the state `o` leaves, unless `o` already returned an error
(Go: `if err != nil { return err }` between two statements). -/
def Out.andThen {σ : Type} (o : Out σ) (f : σ → Out σ) : Out σ :=
  match o.err with
  | some _ => o
  | none => ⟨(f o.st).err, (f o.st).st, o.events ++ (f o.st).events⟩

/-- A Go `for x := range xs` whose body returns from the function on error. -/
def forEach {α σ : Type} (body : α → σ → Out σ) : List α → σ → Out σ
  | [], s => ⟨none, s, []⟩
  | x :: xs, s => (body x s).andThen (forEach body xs)

/-- The test `err != nil && !errors.Is(err, os.ErrNotExist)`: the error that
makes the teardown return, if any. -/
def fatalNotExist (r : Option Err) : Option Err :=
  match r with
  | some e => if e.isNotExist then none else some e
  | none => none

/-! ## `EtcFileController` -/

/-- The calls `EtcFileController.Run` makes: the file calls and the
controller runtime (resource store, backoff). -/
structure EtcEnv (W : Type) extends FileEnv W where
  listSpecs : W → Res (List EtcFileSpec) × W
  addFinalizer : ID → String → W → Option Err × W
  removeFinalizer : ID → String → W → Option Err × W
  modifyStatus : ID → String → W → Option Err × W
  listStatuses : W → Res (List EtcFileStatus) × W
  destroyStatus : ID → W → Option Err × W
  resetRestartBackoff : W → W

/-- The state `Run` works on: the controller's `bindMounts` cache (a set of
file names), the `touchedIDs` set of the current pass, and the world. -/
structure EtcState (W : Type) where
  bindMounts : List String
  touchedIDs : List ID
  world : W

namespace EtcFileController

/-- The method `Name()`. -/
def Name : String := "files.EtcFileController"

/-- Body of the first loop (etcfile.go:87-95): add the finalizer to a
resource in phase Running. -/
def addFinalizerStep (env : EtcEnv W) (res : EtcFileSpec) (s : EtcState W) : Out (EtcState W) :=
  if res.phase ≠ Phase.running then ⟨none, s, []⟩
  else
    let r := env.addFinalizer res.id Name s.world
    ⟨r.1.map (Err.wrap "error adding finalizer"), { s with world := r.2 },
      [.addFinalizer res.id Name r.1]⟩

/-- Lines 108-116: unmount the bind mount when one is cached, then drop the
cache entry. -/
def unmountStep (env : EtcEnv W) (filename dst : String) (s : EtcState W) : Out (EtcState W) :=
  if filename ∈ s.bindMounts then
    let r := env.unmount dst s.world
    match fatalNotExist r.1 with
    | some e => ⟨some (.wrap "failed to unmount bind mount" e), { s with world := r.2 },
        [.unmount dst r.1]⟩
    | none => ⟨none, { s with bindMounts := s.bindMounts.filter (fun f => f ≠ filename), world := r.2 },
        [.unmount dst r.1]⟩
  else ⟨none, s, []⟩

/-- Lines 120-122: `os.Remove(src)`. -/
def removeStep (env : EtcEnv W) (src : String) (s : EtcState W) : Out (EtcState W) :=
  let r := env.osRemove src s.world
  ⟨(fatalNotExist r.1).map (Err.wrap "failed to remove"), { s with world := r.2 }, [.osRemove src r.1]⟩

/-- Lines 125-127: `r.RemoveFinalizer`. -/
def removeFinalizerStep (env : EtcEnv W) (filename : String) (s : EtcState W) : Out (EtcState W) :=
  let r := env.removeFinalizer filename Name s.world
  ⟨r.1.map (Err.wrap "error removing finalizer"), { s with world := r.2 },
    [.removeFinalizer filename Name r.1]⟩

/-- Lines 129-137: create the bind mount unless one is cached, then cache it. -/
def createStep (env : EtcEnv W) (filename src dst : String) (mode : FileMode) (s : EtcState W) :
    Out (EtcState W) :=
  if filename ∈ s.bindMounts then ⟨none, s, []⟩
  else
    let o := createBindMountFile env.toFileEnv src dst mode s.world
    match o.err with
    | some e => ⟨some (.wrap "failed to create shadow bind mount" e), { s with world := o.st }, o.events⟩
    | none => ⟨none, { s with bindMounts := filename :: s.bindMounts, world := o.st }, o.events⟩

/-- Lines 141-143: `UpdateFileFs`. -/
def updateStep (env : EtcEnv W) (src : String) (spec : EtcFileSpec) (s : EtcState W) :
    Out (EtcState W) :=
  let o := UpdateFileFs env.toFileEnv src spec.contents spec.mode spec.selinuxLabel s.world
  ⟨o.err.map (Err.wrap "error updating"), { s with world := o.st }, o.events⟩

/-- Lines 145-153: upsert the status with the spec version, then record the
id in `touchedIDs`. -/
def statusStep (env : EtcEnv W) (filename : String) (spec : EtcFileSpec) (s : EtcState W) :
    Out (EtcState W) :=
  let r := env.modifyStatus filename spec.version s.world
  match r.1 with
  | some e => ⟨some (.wrap "error updating status" e), { s with world := r.2 },
      [.modifyStatus filename spec.version r.1]⟩
  | none => ⟨none, { s with touchedIDs := filename :: s.touchedIDs, world := r.2 },
      [.modifyStatus filename spec.version r.1]⟩

/-- Body of the second loop (etcfile.go:99-155): the switch on the phase. -/
def applySpec (env : EtcEnv W) (etcPath : String) (spec : EtcFileSpec) (s : EtcState W) :
    Out (EtcState W) :=
  let filename := spec.id
  let dst := env.join etcPath filename
  let src := dst
  match spec.phase with
  | .tearingDown =>
    ((unmountStep env filename dst s).andThen (removeStep env src)).andThen
      (removeFinalizerStep env filename)
  | .running =>
    ((createStep env filename src dst spec.mode s).andThen (updateStep env src spec)).andThen
      (statusStep env filename spec)

/-- Body of the cleanup loop (etcfile.go:163-169). -/
def destroyStep (env : EtcEnv W) (res : EtcFileStatus) (s : EtcState W) : Out (EtcState W) :=
  if res.id ∈ s.touchedIDs then ⟨none, s, []⟩
  else
    let r := env.destroyStatus res.id s.world
    ⟨r.1.map (Err.wrap "error cleaning up specs"), { s with world := r.2 }, [.destroyStatus res.id r.1]⟩

/-- Lines 157-171: list the statuses, destroy those not touched, reset the
restart backoff. -/
def cleanup (env : EtcEnv W) (s : EtcState W) : Out (EtcState W) :=
  let l := env.listStatuses s.world
  match l.1 with
  | .err e => ⟨some (.wrap "error listing resources" e), { s with world := l.2 }, [.listStatuses l.1]⟩
  | .ok statuses =>
    (Out.andThen ⟨none, { s with world := l.2 }, [.listStatuses l.1]⟩ (forEach (destroyStep env) statuses)).andThen
      fun s3 => ⟨none, { s3 with world := env.resetRestartBackoff s3.world }, [.resetRestartBackoff]⟩

/-- What a pass does once the spec list is read (etcfile.go:86-171). -/
def passOn (env : EtcEnv W) (etcPath : String) (list : List EtcFileSpec) (s : EtcState W) :
    Out (EtcState W) :=
  ((forEach (addFinalizerStep env) list s).andThen
    fun s1 => forEach (applySpec env etcPath) list { s1 with touchedIDs := [] }).andThen
    (cleanup env)

/-- One pass: the body of the `for` loop after the `select` (etcfile.go:81-171). -/
def pass (env : EtcEnv W) (etcPath : String) (s : EtcState W) : Out (EtcState W) :=
  let l := env.listSpecs s.world
  match l.1 with
  | .err e => ⟨some (.wrap "error listing specs" e), { s with world := l.2 }, [.listSpecs l.1]⟩
  | .ok list =>
    Out.andThen ⟨none, { s with world := l.2 }, [.listSpecs l.1]⟩ (passOn env etcPath list)

/-- Embedding of `EtcFileController.Run` (etcfile.go:69) on a finite stream of
wake-ups: `done` is `ctx.Done()`, `event` is `r.EventCh()`; the select has
no other case, so a `notify` is never received.  A nil `bindMounts` map is
the empty list. -/
def Run (env : EtcEnv W) (etcPath : String) : List Wake → EtcState W → RunOut (EtcState W)
  | [], s => ⟨.blocked, s, []⟩
  | .done :: _, s => ⟨.returned none, s, [.wake .done]⟩
  | .notify :: ws, s => Run env etcPath ws s
  | .event :: ws, s =>
    let o := pass env etcPath s
    match o.err with
    | some e => ⟨.returned (some e), o.st, .wake .event :: o.events⟩
    | none =>
      let r := Run env etcPath ws o.st
      ⟨r.result, r.st, .wake .event :: (o.events ++ r.events)⟩

end EtcFileController

/-! ## `KubernetesPullController` -/

/-- What `registry.Kubernetes.Watch` returns: whether the channel and the
closer are non-nil, and the error. -/
structure WatchResult where
  notifyCh : Bool
  notifyCloser : Bool
  err : Option Err

/-- The calls `KubernetesPullController.Run` makes. -/
structure PullEnv (W : Type) where
  getConfig : W → Res DiscoveryConfig × W
  waitKubeconfig : W → Option Err × W
  getNodename : W → Res String × W
  newClient : W → Option Err × W
  watch : W → WatchResult × W
  registryList : String → W → Res (List AffiliateSpec) × W
  modifyAffiliate : ID → AffiliateSpec → W → Option Err × W
  listAffiliates : W → Res (List Affiliate) × W
  destroyAffiliate : ID → W → Option Err × W
  resetRestartBackoff : W → W
  watchCtxCancel : W → W
  notifyCloser : W → W
  clientClose : W → W

/-- The local variables of `Run` (each handle is `true` when non-nil), the
`touchedIDs` set of the current pass, and the world. -/
structure PullState (W : Type) where
  kubernetesClient : Bool
  kubernetesRegistry : Bool
  watchCtxCancel : Bool
  notifyCh : Bool
  notifyCloser : Bool
  touchedIDs : List ID
  world : W

namespace KubernetesPullController

/-- The method `Name()`. -/
def Name : String := "cluster.KubernetesPullController"

/-- Body of the loop of `cleanupAffiliates`. -/
def destroyStep (env : PullEnv W) (ctrlName : String) (touchedIDs : List ID) (res : Affiliate)
    (s : PullState W) : Out (PullState W) :=
  if res.owner ≠ ctrlName then ⟨none, s, []⟩
  else if res.id ∈ touchedIDs then ⟨none, s, []⟩
  else
    let r := env.destroyAffiliate res.id s.world
    ⟨r.1.map (Err.wrap "error cleaning up specs"), { s with world := r.2 },
      [.destroyAffiliate res.id r.1]⟩

/-- Modelled from the spec: `cleanupAffiliates` is called by `Run` but is not
among the sources.  The spec (4.3 step 5) has the cleanup list the
previously created derived resources and destroy every one whose id is
absent from the touched-set; the output is Shared (3), so the controller
owns only the Affiliates it wrote itself, which the model reads off the
owner of each listed resource of the raw namespace. -/
def cleanupAffiliates (env : PullEnv W) (ctrlName : String) (touchedIDs : List ID)
    (s : PullState W) : Out (PullState W) :=
  let l := env.listAffiliates s.world
  match l.1 with
  | .err e => ⟨some (.wrap "error listing resources" e), { s with world := l.2 }, [.listAffiliates l.1]⟩
  | .ok items =>
    Out.andThen ⟨none, { s with world := l.2 }, [.listAffiliates l.1]⟩
      (forEach (destroyStep env ctrlName touchedIDs) items)

/-- Lines 128-133: build the Kubernetes client once. -/
def ensureClient (env : PullEnv W) (s : PullState W) : Out (PullState W) :=
  if s.kubernetesClient then ⟨none, s, []⟩
  else
    let r := env.newClient s.world
    match r.1 with
    | some e => ⟨some (.wrap "error building kubernetes client" e), { s with world := r.2 },
        [.newClient r.1]⟩
    | none => ⟨none, { s with kubernetesClient := true, world := r.2 }, [.newClient r.1]⟩

/-- Lines 135-137: build the registry once. -/
def ensureRegistry (s : PullState W) : Out (PullState W) :=
  if s.kubernetesRegistry then ⟨none, s, []⟩
  else ⟨none, { s with kubernetesRegistry := true }, [.newRegistry]⟩

/-- Lines 139-148: set up the registry watch while `notifyCh` is nil. -/
def ensureWatch (env : PullEnv W) (s : PullState W) : Out (PullState W) :=
  if s.notifyCh then ⟨none, s, []⟩
  else
    let r := env.watch s.world
    ⟨r.1.err.map (Err.wrap "error setting up registry watcher"),
      { s with watchCtxCancel := true, notifyCh := r.1.notifyCh, notifyCloser := r.1.notifyCloser,
               world := r.2 },
      [.watch r.1.err]⟩

/-- Body of the loop over the listed affiliate specs (lines 157-169). -/
def upsertStep (env : PullEnv W) (affiliateSpec : AffiliateSpec) (s : PullState W) :
    Out (PullState W) :=
  let id := "k8s/" ++ affiliateSpec.nodeID
  let r := env.modifyAffiliate id affiliateSpec s.world
  match r.1 with
  | some e => ⟨some e, { s with world := r.2 }, [.modifyAffiliate id affiliateSpec r.1]⟩
  | none => ⟨none, { s with touchedIDs := id :: s.touchedIDs, world := r.2 },
      [.modifyAffiliate id affiliateSpec r.1]⟩

/-- Lines 150-175: list the registry, upsert, clean up, reset the backoff. -/
def pull (env : PullEnv W) (nodename : String) (s : PullState W) : Out (PullState W) :=
  let l := env.registryList nodename s.world
  match l.1 with
  | .err e => ⟨some (.wrap "error listing affiliates" e), { s with world := l.2 },
      [.registryList nodename l.1]⟩
  | .ok affiliateSpecs =>
    ((Out.andThen ⟨none, { s with touchedIDs := [], world := l.2 }, [.registryList nodename l.1]⟩
        (forEach (upsertStep env) affiliateSpecs)).andThen
      fun s1 => cleanupAffiliates env Name s1.touchedIDs s1).andThen
      fun s2 => ⟨none, { s2 with world := env.resetRestartBackoff s2.world }, [.resetRestartBackoff]⟩

/-- Lines 119-175: read the nodename (`continue` on NotFound), then the
handles and the pull. -/
def afterWait (env : PullEnv W) (s : PullState W) : Out (PullState W) :=
  let n := env.getNodename s.world
  match n.1 with
  | .err e =>
    if e.isNotFound then ⟨none, { s with world := n.2 }, [.getNodename n.1]⟩
    else ⟨some (.wrap "error getting nodename" e), { s with world := n.2 }, [.getNodename n.1]⟩
  | .ok nodename =>
    (((Out.andThen ⟨none, { s with world := n.2 }, [.getNodename n.1]⟩ (ensureClient env)).andThen
        ensureRegistry).andThen (ensureWatch env)).andThen (pull env nodename)

/-- Lines 115-117: the blocking wait for the kubelet kubeconfig; its error is
returned as it is. -/
def waitStep (env : PullEnv W) (s : PullState W) : Out (PullState W) :=
  let r := env.waitKubeconfig s.world
  ⟨r.1, { s with world := r.2 }, [.waitKubeconfig r.1]⟩

/-- One pass: the body of the `for` loop after the `select`
(kubernetes_pull.go:97-175).  A `continue` ends the pass with no error. -/
def pass (env : PullEnv W) (s : PullState W) : Out (PullState W) :=
  let c := env.getConfig s.world
  match c.1 with
  | .err e =>
    if e.isNotFound then ⟨none, { s with world := c.2 }, [.getConfig c.1]⟩
    else ⟨some (.wrap "error getting discovery config" e), { s with world := c.2 }, [.getConfig c.1]⟩
  | .ok discoveryConfig =>
    if discoveryConfig.registryKubernetesEnabled then
      (Out.andThen ⟨none, { s with world := c.2 }, [.getConfig c.1]⟩ (waitStep env)).andThen
        (afterWait env)
    else
      Out.andThen ⟨none, { s with world := c.2 }, [.getConfig c.1]⟩ (cleanupAffiliates env Name [])

/-- The deferred function of `Run` (lines 75-87), run on every return. -/
def deferred (env : PullEnv W) (s : PullState W) : PullState W × List Event :=
  let s1 : PullState W × List Event :=
    if s.watchCtxCancel then ({ s with world := env.watchCtxCancel s.world }, [.watchCtxCancel])
    else (s, [])
  let s2 : PullState W × List Event :=
    if s.notifyCloser then ({ s1.1 with world := env.notifyCloser s1.1.world }, s1.2 ++ [.notifyCloser])
    else s1
  if s.kubernetesClient then ({ s2.1 with world := env.clientClose s2.1.world }, s2.2 ++ [.clientClose])
  else s2

/-- Embedding of `KubernetesPullController.Run` (kubernetes_pull.go:66) on a
finite stream of wake-ups: `done` is `ctx.Done()`, `event` is
`r.EventCh()`, `notify` is `notifyCh`, which cannot be received from while
it is nil. -/
def Run (env : PullEnv W) : List Wake → PullState W → RunOut (PullState W)
  | [], s => ⟨.blocked, s, []⟩
  | k :: ws, s =>
    if k = Wake.done then
      ⟨.returned none, (deferred env s).1, .wake .done :: (deferred env s).2⟩
    else if k = Wake.notify ∧ s.notifyCh = false then Run env ws s
    else
      let o := pass env s
      match o.err with
      | some e => ⟨.returned (some e), (deferred env o.st).1, .wake k :: (o.events ++ (deferred env o.st).2)⟩
      | none =>
        let r := Run env ws o.st
        ⟨r.result, r.st, .wake k :: (o.events ++ r.events)⟩

end KubernetesPullController

/-! ## Classes of events -/

/-- Whether a result is a success or "does not exist": the negation of the
test `err != nil && !errors.Is(err, os.ErrNotExist)`. -/
def undone (r : Option Err) : Bool :=
  match r with
  | none => true
  | some e => e.isNotExist

/-- The calls of a pass that change something outside the controller other
than adding a finalizer: mounts, files, labels, statuses, finalizer removal. -/
def Event.isSideEffect : Event → Bool
  | .removeFinalizer _ _ _ => true
  | .unmount _ _ => true
  | .osRemove _ _ => true
  | .mkdirAll _ _ _ => true
  | .openFile _ _ _ => true
  | .closeFile _ _ => true
  | .bindReadonly _ _ _ => true
  | .xfsWriteFile _ _ _ _ => true
  | .osWriteFile _ _ _ _ => true
  | .setLabel _ _ _ => true
  | .modifyStatus _ _ _ => true
  | .destroyStatus _ _ => true
  | _ => false

/-- The calls of `createBindMountFile`. -/
def Event.isCreateBindMount : Event → Bool
  | .mkdirAll _ _ _ => true
  | .openFile _ _ _ => true
  | .closeFile _ _ => true
  | .bindReadonly _ _ _ => true
  | _ => false

/-- File writes (`xfs.WriteFile`, `os.WriteFile`). -/
def Event.isWrite : Event → Bool
  | .xfsWriteFile _ _ _ _ => true
  | .osWriteFile _ _ _ _ => true
  | _ => false

/-- Receptions at the top-of-pass `select`. -/
def Event.isWake : Event → Bool
  | .wake _ => true
  | _ => false

/-- The id and result of a status destruction. -/
def Event.destroyed : Event → Option (ID × Option Err)
  | .destroyStatus id r => some (id, r)
  | _ => none

/-- The id and result of an affiliate destruction. -/
def Event.destroyedAffiliate : Event → Option (ID × Option Err)
  | .destroyAffiliate id r => some (id, r)
  | _ => none

/-- `P` happens before `Q` in a trace: every occurrence of a `Q` call has a
`P` call somewhere before it. -/
def Before (P Q : Event → Prop) (l : List Event) : Prop :=
  ∀ pre x post, l = pre ++ x :: post → Q x → ∃ y ∈ pre, P y

/-- The paths the listed specs are applied to. -/
def specPaths (env : EtcEnv W) (etcPath : String) (list : List EtcFileSpec) : List String :=
  list.map fun spec => env.join etcPath spec.id

/-! ## A reference world

A small deterministic world in which the calls have their usual meaning.
It is used to run the controllers on concrete inputs. -/

/-- A file of the reference world. -/
structure RefFile where
  contents : Bytes
  mode : FileMode
deriving DecidableEq, Repr

/-- The reference world: the resource store (specs, finalizers, statuses),
the anonymous filesystem, the root filesystem, the SELinux labels, the
bind mounts, and the number of backoff resets. -/
structure RefWorld where
  specs : List EtcFileSpec
  finalizers : List ID
  statuses : List EtcFileStatus
  anonFiles : List (String × RefFile)
  rootFiles : List (String × RefFile)
  labels : List (String × String)
  mounts : List String
  resets : Nat
deriving DecidableEq, Repr

/-- Look a path up in a list of files. -/
def lookupFile (p : String) : List (String × RefFile) → Option RefFile
  | [] => none
  | (q, f) :: rest => if q = p then some f else lookupFile p rest

/-- Read a file: its contents, or "does not exist". -/
def refRead (p : String) (fs : List (String × RefFile)) : Res Bytes :=
  match lookupFile p fs with
  | some f => .ok f.contents
  | none => .err .notExist

/-- Write a file the way `os.WriteFile` does: an existing file gets the new
contents and keeps its mode, a missing file is created with the mode. -/
def refWrite (p : String) (c : Bytes) (m : FileMode) : List (String × RefFile) → List (String × RefFile)
  | [] => [(p, ⟨c, m⟩)]
  | (q, f) :: rest => if q = p then (q, ⟨c, f.mode⟩) :: rest else (q, f) :: refWrite p c m rest

/-- Open with `O_WRONLY|O_CREATE`: an existing file is left as it is, a
missing one is created empty with the mode. -/
def refCreate (p : String) (m : FileMode) (fs : List (String × RefFile)) : List (String × RefFile) :=
  match lookupFile p fs with
  | some _ => fs
  | none => fs ++ [(p, ⟨[], m⟩)]

/-- The directory part of a slash-separated path. -/
def refDir (p : String) : String :=
  String.mk ((p.data.reverse.dropWhile fun c => c != '/').drop 1).reverse

/-- The file calls of the reference world. -/
def refFileEnv : FileEnv RefWorld where
  join := fun a b => a ++ "/" ++ b
  dir := refDir
  mountPoint := "/anon"
  unmount := fun dst w =>
    if dst ∈ w.mounts then (none, { w with mounts := w.mounts.filter fun m => m ≠ dst })
    else (some (.other "EINVAL"), w)
  osRemove := fun path w =>
    match lookupFile path w.rootFiles with
    | some _ => (none, { w with rootFiles := w.rootFiles.filter fun f => f.1 ≠ path })
    | none => (some .notExist, w)
  mkdirAll := fun _ _ w => (none, w)
  openFile := fun path mode w => (none, { w with anonFiles := refCreate path mode w.anonFiles })
  closeFile := fun _ w => (none, w)
  bindReadonly := fun _ dst w => (none, { w with mounts := dst :: w.mounts })
  xfsReadFile := fun path w => (refRead path w.anonFiles, w)
  xfsWriteFile := fun path c m w => (none, { w with anonFiles := refWrite path c m w.anonFiles })
  osReadFile := fun path w => (refRead path w.rootFiles, w)
  osWriteFile := fun path c m w => (none, { w with rootFiles := refWrite path c m w.rootFiles })
  setLabel := fun path label w => (none, { w with labels := (path, label) :: w.labels })

/-- The reference world seen by `EtcFileController`. -/
def refEnv : EtcEnv RefWorld where
  toFileEnv := refFileEnv
  listSpecs := fun w => (.ok w.specs, w)
  addFinalizer := fun id _ w =>
    if id ∈ w.specs.map (fun spec => spec.id) then (none, { w with finalizers := id :: w.finalizers })
    else (some .notFound, w)
  removeFinalizer := fun id _ w => (none, { w with finalizers := w.finalizers.filter fun f => f ≠ id })
  modifyStatus := fun id v w =>
    (none, { w with statuses := ⟨id, v⟩ :: w.statuses.filter fun st => st.id ≠ id })
  listStatuses := fun w => (.ok w.statuses, w)
  destroyStatus := fun id w => (none, { w with statuses := w.statuses.filter fun st => st.id ≠ id })
  resetRestartBackoff := fun w => { w with resets := w.resets + 1 }

/-- An empty reference world. -/
def emptyWorld : RefWorld := ⟨[], [], [], [], [], [], [], 0⟩

/-- The spec of the scenario: `hosts`, Running, mode 0o644. -/
def hostsSpec : EtcFileSpec := ⟨"hosts", .running, "1", [49, 50], 0o644, "etc_t"⟩

/-- A fresh controller in a world that holds `hostsSpec`. -/
def hostsStart : EtcState RefWorld := ⟨[], [], { emptyWorld with specs := [hostsSpec] }⟩

/-- Replace the spec list of the store (what other controllers do between
two passes). -/
def withSpecs (specs : List EtcFileSpec) (s : EtcState RefWorld) : EtcState RefWorld :=
  { s with world := { s.world with specs := specs } }

/-- The state after one pass over `hostsStart`. -/
def hostsApplied : EtcState RefWorld := (EtcFileController.pass refEnv "/etc" hostsStart).st

/-- A reference world in which `/etc/hosts` exists, in both filesystems,
with the contents of `hostsSpec` and mode 0o600. -/
def modeWorld : RefWorld :=
  { emptyWorld with
    anonFiles := [("/etc/hosts", ⟨[49, 50], 0o600⟩)]
    rootFiles := [("/etc/hosts", ⟨[49, 50], 0o600⟩)] }

/-- The calls the second loop of `EtcFileController.Run` can make for a spec
with path `p` and id `id`. -/
def Event.isApplyOf (p : String) (id : ID) : Event → Bool
  | .unmount d _ => decide (d = p)
  | .osRemove q _ => decide (q = p)
  | .removeFinalizer i _ _ => decide (i = id)
  | .mkdirAll _ _ _ => true
  | .openFile q _ _ => decide (q = p)
  | .closeFile q _ => decide (q = p)
  | .bindReadonly _ d _ => decide (d = p)
  | .xfsReadFile q _ => decide (q = p)
  | .xfsWriteFile q _ _ _ => decide (q = p)
  | .setLabel q _ _ => decide (q = p)
  | .modifyStatus i _ _ => decide (i = id)
  | _ => false

/-- The calls of the TearingDown branch. -/
def Event.isTeardownCall : Event → Bool
  | .unmount _ _ => true
  | .osRemove _ _ => true
  | .removeFinalizer _ _ _ => true
  | _ => false

/-- The calls of the cleanup at the end of a pass. -/
def Event.isCleanupCall : Event → Bool
  | .listStatuses _ => true
  | .destroyStatus _ _ => true
  | .resetRestartBackoff => true
  | _ => false

namespace EtcFileController

/-- The state in which the loops of a pass start: the world after the listing. -/
def afterList (env : EtcEnv W) (s : EtcState W) : EtcState W :=
  { s with world := (env.listSpecs s.world).2 }

/-- The first loop of a pass, on its own. -/
def finalized (env : EtcEnv W) (list : List EtcFileSpec) (s : EtcState W) : Out (EtcState W) :=
  forEach (addFinalizerStep env) list s

/-- The second loop of a pass, started where the first loop ended. -/
def applied (env : EtcEnv W) (etcPath : String) (list : List EtcFileSpec) (s : EtcState W) :
    Out (EtcState W) :=
  forEach (applySpec env etcPath) list { (finalized env list s).st with touchedIDs := [] }

end EtcFileController

/-- The spec of the scenario once its destruction is requested. -/
def hostsTearingDown : EtcFileSpec := { hostsSpec with phase := .tearingDown }

/-- The state after the first pass when the store shows the spec in phase
TearingDown. -/
def hostsTeardownStart : EtcState RefWorld := withSpecs [hostsTearingDown] hostsApplied

/-- The state after the teardown pass, the spec being gone from the store. -/
def hostsTornDown : EtcState RefWorld :=
  withSpecs [] (EtcFileController.pass refEnv "/etc" hostsTeardownStart).st

/-- The anonymous filesystem of `w` holds the bytes `c` at `p`: `xfs.ReadFile`
succeeds with them. -/
def Holds (env : FileEnv W) (p : String) (c : Bytes) (w : W) : Prop :=
  (env.xfsReadFile p w).1 = Res.ok c

/-- A change of world that keeps what every file of the anonymous filesystem
holds. -/
def Keeps (env : FileEnv W) (f : W → W) : Prop :=
  ∀ q d w, Holds env q d w → Holds env q d (f w)

/-- What the idempotence of a pass assumes of the world: a successful write
is read back, a write leaves the other paths alone, and no other call of
a pass over Running specs changes what a file holds (`OpenFile` with
`O_WRONLY|O_CREATE` does not truncate). -/
structure ReadStable (env : EtcEnv W) : Prop where
  write_read : ∀ p c m w, (env.xfsWriteFile p c m w).1 = none →
    Holds env.toFileEnv p c (env.xfsWriteFile p c m w).2
  write_other : ∀ p c m q d w, q ≠ p → Holds env.toFileEnv q d w →
    Holds env.toFileEnv q d (env.xfsWriteFile p c m w).2
  read : ∀ p, Keeps env.toFileEnv fun w => (env.xfsReadFile p w).2
  setLabel : ∀ p l, Keeps env.toFileEnv fun w => (env.setLabel p l w).2
  mkdirAll : ∀ p m, Keeps env.toFileEnv fun w => (env.mkdirAll p m w).2
  openFile : ∀ p m, Keeps env.toFileEnv fun w => (env.openFile p m w).2
  closeFile : ∀ p, Keeps env.toFileEnv fun w => (env.closeFile p w).2
  bindReadonly : ∀ a b, Keeps env.toFileEnv fun w => (env.bindReadonly a b w).2
  listSpecs : Keeps env.toFileEnv fun w => (env.listSpecs w).2
  addFinalizer : ∀ i n, Keeps env.toFileEnv fun w => (env.addFinalizer i n w).2
  modifyStatus : ∀ i v, Keeps env.toFileEnv fun w => (env.modifyStatus i v w).2
  listStatuses : Keeps env.toFileEnv fun w => (env.listStatuses w).2
  destroyStatus : ∀ i, Keeps env.toFileEnv fun w => (env.destroyStatus i w).2
  resetRestartBackoff : Keeps env.toFileEnv env.resetRestartBackoff

/-- Between any two receptions at the top-of-pass `select` of a trace there
is a call of `ResetRestartBackoff`. -/
def ResetBetweenWakes (l : List Event) : Prop :=
  ∀ pre k₁ mid k₂ post, l = pre ++ Event.wake k₁ :: (mid ++ Event.wake k₂ :: post) →
    Event.resetRestartBackoff ∈ mid

/-- The calls of `cleanupAffiliates`. -/
def Event.isAffiliateCleanup : Event → Bool
  | .listAffiliates _ => true
  | .destroyAffiliate _ _ => true
  | _ => false

/-- The calls by which a pass of `KubernetesPullController` writes an
Affiliate, waits for the kubeconfig, or reaches for the Kubernetes
registry (client, registry, watch, list). -/
def Event.isPullWork : Event → Bool
  | .modifyAffiliate _ _ _ => true
  | .waitKubeconfig _ => true
  | .getNodename _ => true
  | .newClient _ => true
  | .newRegistry => true
  | .watch _ => true
  | .registryList _ _ => true
  | _ => false

/-! ## A reference world for `KubernetesPullController` -/

/-- The reference world of the pull controller: the discovery config and the
nodename (absent when `none`), what the Kubernetes registry lists, the
Affiliates of the raw namespace, and the number of backoff resets. -/
structure PullWorld where
  config : Option DiscoveryConfig
  nodename : Option String
  registry : List AffiliateSpec
  affiliates : List Affiliate
  resets : Nat
deriving DecidableEq, Repr

/-- The calls of the pull controller in the reference world; the kubeconfig
is ready and the registry never fails. -/
def refPullEnv : PullEnv PullWorld where
  getConfig := fun w =>
    match w.config with
    | some c => (.ok c, w)
    | none => (.err .notFound, w)
  waitKubeconfig := fun w => (none, w)
  getNodename := fun w =>
    match w.nodename with
    | some n => (.ok n, w)
    | none => (.err .notFound, w)
  newClient := fun w => (none, w)
  watch := fun w => (⟨true, true, none⟩, w)
  registryList := fun _ w => (.ok w.registry, w)
  modifyAffiliate := fun id spec w =>
    (none, { w with affiliates :=
      ⟨id, KubernetesPullController.Name, spec⟩ :: w.affiliates.filter fun a => a.id ≠ id })
  listAffiliates := fun w => (.ok w.affiliates, w)
  destroyAffiliate := fun id w => (none, { w with affiliates := w.affiliates.filter fun a => a.id ≠ id })
  resetRestartBackoff := fun w => { w with resets := w.resets + 1 }
  watchCtxCancel := fun w => w
  notifyCloser := fun w => w
  clientClose := fun w => w

/-- A fresh `Run` of the pull controller in a world where the Kubernetes
registry is disabled and two Affiliates exist in the raw namespace, one
written by this controller and one by another. -/
def disabledStart : PullState PullWorld :=
  { kubernetesClient := false, kubernetesRegistry := false, watchCtxCancel := false,
    notifyCh := false, notifyCloser := false, touchedIDs := [],
    world := { config := some ⟨false⟩, nodename := some "node-1", registry := [],
               affiliates := [⟨"k8s/n1", KubernetesPullController.Name, ⟨"n1", "a"⟩⟩,
                              ⟨"service/n2", "cluster.DiscoveryServiceController", ⟨"n2", "b"⟩⟩],
               resets := 0 } }

/-- The two calls that mark a pass of `KubernetesPullController` that reached
the end of the loop body: the registry listing and the backoff reset. -/
def Event.isPullTail : Event → Bool
  | .registryList _ _ => true
  | .resetRestartBackoff => true
  | _ => false

/-- A fresh `Run` of the pull controller in a world without a discovery
config. -/
def unconfiguredStart : PullState PullWorld :=
  { disabledStart with world := { disabledStart.world with config := none } }

/-! ## `WaitForDevicesReady` -/

/-- The calls `WaitForDevicesReady` makes on the runtime, the names of the
`DevicesStatus` resource it watches, and the error `ctx.Err()` returns once
the context is done. -/
structure SyncEnv (W : Type) where
  /-- Name `runtime.NamespaceName`. -/
  NamespaceName : String
  /-- Name `runtime.DevicesStatusType`. -/
  DevicesStatusType : String
  /-- Name `runtime.DevicesID`. -/
  DevicesID : ID
  ctxErr : Err
  updateInputs : List Input → W → Option Err × W
  /-- The get-by-id of `DevicesStatus`; the value is its `Ready` field. -/
  getDevicesStatus : W → Res Bool × W
  queueReconcile : W → W

/-- The single input the helper narrows the watch set to (utils.go:23-29). -/
def SyncEnv.devicesInput (env : SyncEnv W) : Input :=
  { namespace_ := env.NamespaceName, type := env.DevicesStatusType, id := some env.DevicesID,
    kind := .weak }

/-- Lines 56-64 of utils.go: restore the inputs, queue a reconcile, return nil. -/
def restoreInputs (env : SyncEnv W) (nextInputs : List Input) (w : W) : RunOut W :=
  let u := env.updateInputs nextInputs w
  match u.1 with
  | some e => ⟨.returned (some e), u.2, [.updateInputs nextInputs (some e)]⟩
  | none => ⟨.returned none, env.queueReconcile u.2, [.updateInputs nextInputs none, .queueReconcile]⟩

/-- The `for` loop of `WaitForDevicesReady` (utils.go:34-54) on a finite stream
of wake-ups, followed by the code after it: `done` is `ctx.Done()`, `event`
is `r.EventCh()`; the select has no other case. -/
def waitDevices (env : SyncEnv W) (nextInputs : List Input) : List Wake → W → RunOut W
  | [], w => ⟨.blocked, w, []⟩
  | .done :: _, w => ⟨.returned (some env.ctxErr), w, [.wake .done]⟩
  | .notify :: ws, w => waitDevices env nextInputs ws w
  | .event :: ws, w =>
    let r := env.getDevicesStatus w
    match r.1 with
    | .err e =>
      if e.isNotFound then
        let o := waitDevices env nextInputs ws r.2
        ⟨o.result, o.st, .wake .event :: .getDevicesStatus r.1 :: o.events⟩
      else ⟨.returned (some e), r.2, [.wake .event, .getDevicesStatus r.1]⟩
    | .ok ready =>
      if ready then
        let o := restoreInputs env nextInputs r.2
        ⟨o.result, o.st, .wake .event :: .getDevicesStatus r.1 :: o.events⟩
      else
        let o := waitDevices env nextInputs ws r.2
        ⟨o.result, o.st, .wake .event :: .getDevicesStatus r.1 :: o.events⟩

/-- Embedding of `WaitForDevicesReady` (utils.go:21). -/
def WaitForDevicesReady (env : SyncEnv W) (nextInputs : List Input) (ws : List Wake) (w : W) :
    RunOut W :=
  let u := env.updateInputs [env.devicesInput] w
  match u.1 with
  | some e => ⟨.returned (some e), u.2, [.updateInputs [env.devicesInput] (some e)]⟩
  | none =>
    let o := waitDevices env nextInputs ws u.2
    ⟨o.result, o.st, .updateInputs [env.devicesInput] none :: o.events⟩

/-- A read of `DevicesStatus` after which the helper keeps waiting: NotFound,
or a status that is not ready. -/
def notReady (r : Res Bool) : Bool :=
  match r with
  | .err e => e.isNotFound
  | .ok ready => !ready

/-- The calls `UpdateInputs`. -/
def Event.isUpdateInputs : Event → Bool
  | .updateInputs _ _ => true
  | _ => false

/-- A reference world for the helper: the inputs last set, the results the
coming reads of `DevicesStatus` give, and the number of queued reconciles. -/
structure SyncWorld where
  inputs : List Input
  reads : List (Res Bool)
  reconciles : Nat
deriving DecidableEq, Repr

/-- The calls of the helper in the reference world: `UpdateInputs` succeeds,
a read gives the next scripted result (NotFound when none is left). -/
def refSyncEnv : SyncEnv SyncWorld where
  NamespaceName := "runtime"
  DevicesStatusType := "DevicesStatuses.runtime.talos.dev"
  DevicesID := "devices"
  ctxErr := .canceled
  updateInputs := fun inputs w => (none, { w with inputs := inputs })
  getDevicesStatus := fun w =>
    match w.reads with
    | [] => (.err .notFound, w)
    | r :: rest => (r, { w with reads := rest })
  queueReconcile := fun w => { w with reconciles := w.reconciles + 1 }

/-- The inputs the caller of the scenario wants restored. -/
def nextInputsExample : List Input :=
  [{ namespace_ := "runtime", type := "MountStatuses.runtime.talos.dev", id := none, kind := .strong }]

/-- A fresh `Run` of the pull controller in a world where the Kubernetes
registry is enabled. -/
def enabledStart : PullState PullWorld :=
  { disabledStart with world := { disabledStart.world with config := some ⟨true⟩ } }

/-- The reference world of the pull controller in which the context is
cancelled while `Run` waits for the kubelet kubeconfig: the wait returns
`context.Canceled`. -/
def cancelledWaitEnv : PullEnv PullWorld :=
  { refPullEnv with waitKubeconfig := fun w => (some .canceled, w) }

/-- A world in which the first read of `DevicesStatus` fails with an error
other than NotFound. -/
def brokenReadWorld : SyncWorld :=
  { inputs := [], reads := [.err (.other "connection refused")], reconciles := 0 }

/-- The reference calls with a failing `UpdateInputs`. -/
def failingUpdateEnv : SyncEnv SyncWorld :=
  { refSyncEnv with updateInputs := fun _ w => (some (.other "update failed"), w) }

/-- A world in which the devices are found not ready, then missing, then ready. -/
def readyThirdWorld : SyncWorld :=
  { inputs := [], reads := [.ok false, .err .notFound, .ok true], reconciles := 0 }

/-! ## `block.Size` -/

/-- The value a Go `panic` is called with: an error or a formatted message. -/
inductive PanicValue where
  | err (e : Err)
  | msg (text : String)
deriving DecidableEq, Repr

/-- What a function that may panic yields. -/
inductive Outcome (α : Type) where
  | returned (a : α)
  | panicked (v : PanicValue)
deriving DecidableEq, Repr

/-- The methods of `PercentageSize` and `ByteSize` that `Size` calls.  The
two types are declared outside the embedded sources, so they and their
methods are parameters. -/
structure SizeCodec (PS BS : Type) where
  psUnmarshalText : String → Res PS
  psMarshalText : PS → Res String
  psValue : PS → Nat
  bsUnmarshalText : String → Res BS
  bsMarshalText : BS → Res String
  bsValue : BS → Nat

/-- Embedding of `Size` (size.go:22): two pointers, `none` being nil. -/
structure Size (PS BS : Type) where
  ps : Option PS
  bs : Option BS
deriving DecidableEq, Repr

namespace Size

variable {PS BS : Type}

/-- The zero value `var s Size`. -/
def zero : Size PS BS := ⟨none, none⟩

/-- Embedding of `Size.Value` (size.go:67). -/
def Value (c : SizeCodec PS BS) (s : Size PS BS) : Nat :=
  match s.bs with
  | some b => c.bsValue b
  | none =>
    match s.ps with
    | some p => c.psValue p
    | none => 0

/-- Embedding of `Size.MarshalText` (size.go:93); the result `nil, nil` is the
empty text. -/
def MarshalText (c : SizeCodec PS BS) (s : Size PS BS) : Res String :=
  match s.bs with
  | some b => c.bsMarshalText b
  | none =>
    match s.ps with
    | some p => c.psMarshalText p
    | none => .ok ""

/-- Embedding of `Size.UnmarshalText` (size.go:106): the error returned and the
receiver afterwards. -/
def UnmarshalText (c : SizeCodec PS BS) (s : Size PS BS) (text : String) : Option Err × Size PS BS :=
  if text = "" then (none, s)
  else if '%' ∈ text.data then
    match c.psUnmarshalText text with
    | .err e => (some e, s)
    | .ok ps => (none, { s with ps := some ps })
  else
    match c.bsUnmarshalText text with
    | .err e => (some e, s)
    | .ok bs => (none, { s with bs := some bs })

end Size

/-- Embedding of `MustSize` (size.go:30). -/
def MustSize {PS BS : Type} (c : SizeCodec PS BS) (value : String) : Outcome (Size PS BS) :=
  match Size.UnmarshalText c Size.zero value with
  | (some e, _) => .panicked (.err e)
  | (none, s) => .returned s

/-- Embedding of `MustPercentageSize` (size.go:43). -/
def MustPercentageSize {PS BS : Type} (c : SizeCodec PS BS) (value : String) : Outcome (Size PS BS) :=
  match c.psUnmarshalText value with
  | .err e => .panicked (.err e)
  | .ok ps => .returned ⟨some ps, none⟩

/-- Embedding of `MustByteSize` (size.go:56). -/
def MustByteSize {PS BS : Type} (c : SizeCodec PS BS) (value : String) : Outcome (Size PS BS) :=
  match c.bsUnmarshalText value with
  | .err e => .panicked (.err e)
  | .ok bs => .returned ⟨none, some bs⟩

/-- A parsed size of the reference codec: the text it was parsed from and its
value. -/
structure Parsed where
  text : String
  value : Nat
deriving DecidableEq, Repr

/-- Parse by table. -/
def parseTable (table : List (String × Nat)) (t : String) : Res Parsed :=
  match table.lookup t with
  | some v => .ok ⟨t, v⟩
  | none => .err (.other "invalid size")

/-- A reference codec: it accepts the texts of `TestPercentageSizeUnmarshal`
and `TestSizeUnmarshal` with the values the tests expect, and marshals a
parsed size back to its text. -/
def tableCodec : SizeCodec Parsed Parsed where
  psUnmarshalText := parseTable [("", 0), ("100%", 100), ("33.4%", 33), ("33.4124%", 33)]
  psMarshalText := fun p => .ok p.text
  psValue := fun p => p.value
  bsUnmarshalText := parseTable [("1048576", 1048576), ("2.5GiB", 2684354560),
    ("2.5GB", 2500000000), ("2.5G", 2500000000), ("1MiB", 1048576)]
  bsMarshalText := fun b => .ok b.text
  bsValue := fun b => b.value

/-! ## `partition.NewPartitionOptions` -/

/-- The partition labels of `pkg/machinery/constants` that
`NewPartitionOptions` switches on; the package is outside the embedded
sources, so the labels are parameters. -/
structure PartitionLabels where
  EFIPartitionLabel : String
  BIOSGrubPartitionLabel : String
  BootPartitionLabel : String
  MetaPartitionLabel : String
  StatePartitionLabel : String
  EphemeralPartitionLabel : String
  ImageCachePartitionLabel : String

/-- The seven labels, in the order of the `switch`. -/
def PartitionLabels.all (c : PartitionLabels) : List String :=
  [c.EFIPartitionLabel, c.BIOSGrubPartitionLabel, c.BootPartitionLabel, c.MetaPartitionLabel,
   c.StatePartitionLabel, c.EphemeralPartitionLabel, c.ImageCachePartitionLabel]

/-- The labels by the names the partitions carry. -/
def talosLabels : PartitionLabels :=
  ⟨"EFI", "BIOS", "BOOT", "META", "STATE", "EPHEMERAL", "IMAGECACHE"⟩

/-- The partition types used (`partition.Type`). -/
inductive PartitionType where
  | EFISystemPartition
  | BIOSBootPartition
  | LinuxFilesystemData
deriving DecidableEq, Repr

/-- The GPT partition options used (`gpt.PartitionOption`). -/
inductive PartitionOption where
  | WithLegacyBIOSBootableAttribute (val : Bool)
deriving DecidableEq, Repr

/-- The sizes `quirk.PartitionSizes()` gives. -/
structure PartitionSizes where
  GrubEFISize : Nat
  UKIEFISize : Nat
  GrubBIOSSize : Nat
  GrubBootSize : Nat
  METASize : Nat
  StateSize : Nat
deriving DecidableEq, Repr

/-- Embedding of `partition.Options` (partition.go:18) over the type `F` of
`FormatOptions`. -/
structure Options (F : Type) where
  FormatOptions : F
  PartitionLabel : String
  PartitionType : PartitionType
  Size : Nat
  PartitionOpts : List PartitionOption
deriving DecidableEq, Repr

/-- The verb `%q` of `fmt.Sprintf` on a string: the string in double quotes
(the escaping of quotes, backslashes and unprintable characters inside it is
left out). -/
def goQuote (s : String) : String :=
  String.singleton (Char.ofNat 34) ++ s ++ String.singleton (Char.ofNat 34)

/-- Embedding of `NewPartitionOptions` (partition.go:30); `NewFormatOptions`
is outside the embedded sources and is a parameter, `none` being nil. -/
def NewPartitionOptions {F : Type} (c : PartitionLabels) (NewFormatOptions : String → Option F)
    (label : String) (uki : Bool) (quirk : PartitionSizes) : Outcome (Options F) :=
  match NewFormatOptions label with
  | none => .panicked (.msg ("unknown format options for label " ++ goQuote label))
  | some formatOptions =>
    if label = c.EFIPartitionLabel then
      .returned
        { FormatOptions := formatOptions, PartitionLabel := label,
          PartitionType := .EFISystemPartition,
          Size := if uki then quirk.UKIEFISize else quirk.GrubEFISize,
          PartitionOpts := [] }
    else if label = c.BIOSGrubPartitionLabel then
      if uki then .panicked (.msg "BIOS partition is not supported with UKI")
      else
        .returned
          { FormatOptions := formatOptions, PartitionLabel := label,
            PartitionType := .BIOSBootPartition, Size := quirk.GrubBIOSSize,
            PartitionOpts := [.WithLegacyBIOSBootableAttribute true] }
    else if label = c.BootPartitionLabel then
      if uki then .panicked (.msg "BOOT partition is not supported with UKI")
      else
        .returned
          { FormatOptions := formatOptions, PartitionLabel := label,
            PartitionType := .LinuxFilesystemData, Size := quirk.GrubBootSize, PartitionOpts := [] }
    else if label = c.MetaPartitionLabel then
      .returned
        { FormatOptions := formatOptions, PartitionLabel := label,
          PartitionType := .LinuxFilesystemData, Size := quirk.METASize, PartitionOpts := [] }
    else if label = c.StatePartitionLabel then
      .returned
        { FormatOptions := formatOptions, PartitionLabel := label,
          PartitionType := .LinuxFilesystemData, Size := quirk.StateSize, PartitionOpts := [] }
    else if label = c.EphemeralPartitionLabel then
      .returned
        { FormatOptions := formatOptions, PartitionLabel := label,
          PartitionType := .LinuxFilesystemData, Size := 0, PartitionOpts := [] }
    else if label = c.ImageCachePartitionLabel then
      .returned
        { FormatOptions := formatOptions, PartitionLabel := label,
          PartitionType := .LinuxFilesystemData, Size := 0, PartitionOpts := [] }
    else .panicked (.msg ("unknown partition label " ++ goQuote label))

/-- Whether an outcome is a panic. -/
def Outcome.isPanic {α : Type} : Outcome α → Bool
  | .panicked _ => true
  | .returned _ => false

/-- Sizes for the examples. -/
def exampleSizes : PartitionSizes := ⟨100, 200, 1, 1000, 1, 100⟩

/-! ## `opentree.FS` -/

/-- The constants of `golang.org/x/sys/unix` that the package uses. -/
structure UnixConsts where
  OPEN_TREE_CLONE : Nat
  OPEN_TREE_CLOEXEC : Nat
  AT_EMPTY_PATH : Nat
  AT_FDCWD : Int

/-- The values of the constants on Linux. -/
def linuxConsts : UnixConsts := ⟨0x1, 0x80000, 0x1000, -100⟩

/-- Embedding of `opentree.FS` (opentree_linux.go:24); `createOnce` is whether
the `sync.Once` has run its function. -/
structure FS where
  createOnce : Bool
  createError : Option Err
  root : String
  rootfd : Int
  mntfd : Int
deriving DecidableEq, Repr

/-- Embedding of `NewFromPath` (opentree_linux.go:38). -/
def NewFromPath (u : UnixConsts) (path : String) : FS :=
  { createOnce := false, createError := none, root := path, rootfd := u.AT_FDCWD, mntfd := 0 }

/-- Embedding of `NewFromFd` (opentree_linux.go:46). -/
def NewFromFd (fd : Int) : FS :=
  { createOnce := false, createError := none, root := "", rootfd := fd, mntfd := 0 }

/-- The system call behind `FS.Create`. -/
structure OpenTreeEnv (W : Type) where
  openTree : Int → String → Nat → W → Res Int × W

/-- An `FS` behind its pointer, and the world. -/
structure FsState (W : Type) where
  fs : FS
  world : W

/-- Embedding of `(*FS).new` (opentree_linux.go:68). -/
def FS.new (env : OpenTreeEnv W) (flags : Nat) (s : FsState W) : Out (FsState W) :=
  let r := env.openTree s.fs.rootfd s.fs.root flags s.world
  match r.1 with
  | .err e =>
    ⟨some (.wrap ("unix.OpenTree on " ++ goQuote s.fs.root ++ " failed") e),
     { s with world := r.2 }, [.openTree s.fs.rootfd s.fs.root flags r.1]⟩
  | .ok mntfd =>
    ⟨none, { fs := { s.fs with mntfd := mntfd }, world := r.2 },
     [.openTree s.fs.rootfd s.fs.root flags r.1]⟩

/-- What one `Create` call gives: the pair it returns, the state and the
calls made. -/
structure CreateOut (W : Type) where
  fd : Int
  err : Option Err
  st : FsState W
  events : List Event

/-- Embedding of `(*FS).Create` (opentree_linux.go:55): the function given to
`createOnce.Do` runs if the `Once` has not run yet, which is then marked as
run; the call returns `fs.mntfd, fs.createError`. -/
def FS.Create (u : UnixConsts) (env : OpenTreeEnv W) (s : FsState W) : CreateOut W :=
  if s.fs.createOnce then ⟨s.fs.mntfd, s.fs.createError, s, []⟩
  else
    let flags := u.OPEN_TREE_CLONE ||| u.OPEN_TREE_CLOEXEC
    let flags := if s.fs.root = "" then flags ||| u.AT_EMPTY_PATH else flags
    let o := FS.new env flags s
    let s1 : FsState W :=
      { o.st with fs := { o.st.fs with createError := o.err, createOnce := true } }
    ⟨s1.fs.mntfd, s1.fs.createError, s1, o.events⟩

/-- What a sequence of `Create` calls gives: the pairs returned, in order, the
state and the calls made. -/
structure CreatesOut (W : Type) where
  results : List (Int × Option Err)
  st : FsState W
  events : List Event

/-- A sequence of `n` calls of `Create` on the same `FS`. -/
def FS.CreateN (u : UnixConsts) (env : OpenTreeEnv W) : Nat → FsState W → CreatesOut W
  | 0, s => ⟨[], s, []⟩
  | n + 1, s =>
    let r := FS.Create u env s
    let rest := FS.CreateN u env n r.st
    ⟨(r.fd, r.err) :: rest.results, rest.st, r.events ++ rest.events⟩

/-- A reference system call: the world counts the calls, the n-th call (from
0) returns the descriptor `3 + n`. -/
def countingOpenTree : OpenTreeEnv Nat where
  openTree := fun _ _ _ n => (.ok (3 + (n : Int)), n + 1)

/-- A reference system call that fails, counting the calls. -/
def failingOpenTree : OpenTreeEnv Nat where
  openTree := fun _ _ _ n => (.err (.other "ENOENT"), n + 1)

/-- The calls of lines 150-175 of `KubernetesPullController.Run`: the registry
listing, the upserts, the cleanup and the backoff reset. -/
def Event.isPullLoop : Event → Bool
  | .registryList _ _ => true
  | .modifyAffiliate _ _ _ => true
  | .listAffiliates _ => true
  | .destroyAffiliate _ _ => true
  | .resetRestartBackoff => true
  | _ => false

/-- A fresh `Run` of the pull controller in a world where the Kubernetes
registry is enabled and lists two nodes, one of which has an Affiliate
already. -/
def pullingStart : PullState PullWorld :=
  { enabledStart with
    world := { enabledStart.world with registry := [⟨"n1", "a2"⟩, ⟨"n3", "c"⟩] } }

/-- A world in which the devices are found not ready at the first wake-up;
the scenario then cancels the context. -/
def notReadyWorld : SyncWorld :=
  { inputs := [], reads := [.ok false], reconciles := 0 }

/-- The reference calls with an `UpdateInputs` that accepts the single
`DevicesStatus` input and fails on every other list of inputs. -/
def failingRestoreEnv : SyncEnv SyncWorld :=
  { refSyncEnv with
    updateInputs := fun inputs w =>
      if inputs = [refSyncEnv.devicesInput] then (none, { w with inputs := inputs })
      else (some (.other "update failed"), w) }

/-- A join that cleans the result the way `filepath.Join` does, as far as a
leading `./` of the file name goes: `cleanJoin "/etc" "./a"` is `/etc/a`. -/
def cleanJoin (dir name : String) : String :=
  match name.data with
  | '.' :: '/' :: rest => dir ++ "/" ++ String.mk rest
  | _ => dir ++ "/" ++ name

/-- The reference world with the cleaning join. -/
def cleanEnv : EtcEnv RefWorld :=
  { refEnv with toFileEnv := { refFileEnv with join := cleanJoin } }

/-- Two Running specs with the distinct ids `a` and `./a` and different
contents; both are applied to `/etc/a`. -/
def collidingSpecs : List EtcFileSpec :=
  [⟨"a", .running, "1", [1], 0o644, "etc_t"⟩, ⟨"./a", .running, "1", [2], 0o644, "etc_t"⟩]

/-- A fresh controller in a world that holds `collidingSpecs`. -/
def collidingStart : EtcState RefWorld := ⟨[], [], { emptyWorld with specs := collidingSpecs }⟩

/-- A fresh controller in a world that holds `hostsSpec`, an old status of
`hosts` and the status `resolv.conf` of a spec that no longer exists. -/
def orphanStart : EtcState RefWorld :=
  ⟨[], [], { emptyWorld with specs := [hostsSpec],
                             statuses := [⟨"hosts", "0"⟩, ⟨"resolv.conf", "1"⟩] }⟩

namespace EtcFileController

/-- The second loop of a pass over the specs `l1` that come first in the
list: its calls, and the state in which the loop reaches the spec that
follows them. -/
def reached (env : EtcEnv W) (etcPath : String) (list l1 : List EtcFileSpec) (s : EtcState W) :
    Out (EtcState W) :=
  forEach (applySpec env etcPath) l1 { (finalized env list s).st with touchedIDs := [] }

/-- The iteration of the second loop for the spec that follows `l1` in the
list. -/
def iteration (env : EtcEnv W) (etcPath : String) (list l1 : List EtcFileSpec) (spec : EtcFileSpec)
    (s : EtcState W) : Out (EtcState W) :=
  applySpec env etcPath spec (reached env etcPath list l1 s).st

end EtcFileController

/-- The specs `a` and `./a` once their destruction is requested. -/
def collidingTearingDown : List EtcFileSpec :=
  collidingSpecs.map fun spec => { spec with phase := .tearingDown }

/-- The state after the first pass over `collidingSpecs` when the store shows
both specs in phase TearingDown. -/
def collidingTeardownStart : EtcState RefWorld :=
  { (EtcFileController.pass cleanEnv "/etc" collidingStart).st with
    world := { (EtcFileController.pass cleanEnv "/etc" collidingStart).st.world with
               specs := collidingTearingDown } }

/-- The reference world with an `os.Remove` that fails with an error other
than "does not exist". -/
def busyRemoveEnv : EtcEnv RefWorld :=
  { refEnv with toFileEnv := { refFileEnv with osRemove := fun _ w => (some (.other "EBUSY"), w) } }

/-! # Theorems -/

/-! ## Sequencing -/

theorem Out.andThen_of_err {σ : Type} (o : Out σ) (f : σ → Out σ) (h : o.err ≠ none) :
    o.andThen f = o := by
  unfold Out.andThen
  cases he : o.err with
  | none => exact absurd he h
  | some e => rfl

theorem Out.andThen_events_of_ok {σ : Type} (o : Out σ) (f : σ → Out σ) (h : o.err = none) :
    (o.andThen f).events = o.events ++ (f o.st).events := by
  unfold Out.andThen
  rw [h]

theorem Out.andThen_err_of_ok {σ : Type} (o : Out σ) (f : σ → Out σ) (h : o.err = none) :
    (o.andThen f).err = (f o.st).err := by
  unfold Out.andThen
  rw [h]

theorem Out.andThen_st_of_ok {σ : Type} (o : Out σ) (f : σ → Out σ) (h : o.err = none) :
    (o.andThen f).st = (f o.st).st := by
  unfold Out.andThen
  rw [h]

theorem Out.andThen_err_eq_none {σ : Type} (o : Out σ) (f : σ → Out σ) :
    (o.andThen f).err = none ↔ o.err = none ∧ (f o.st).err = none := by
  by_cases h : o.err = none
  · rw [Out.andThen_err_of_ok o f h]
    simp [h]
  · rw [Out.andThen_of_err o f h]
    simp [h]

theorem Out.mem_andThen_events {σ : Type} (o : Out σ) (f : σ → Out σ) (e : Event) :
    e ∈ (o.andThen f).events ↔ e ∈ o.events ∨ (o.err = none ∧ e ∈ (f o.st).events) := by
  by_cases h : o.err = none
  · rw [Out.andThen_events_of_ok o f h]
    simp [h]
  · rw [Out.andThen_of_err o f h]
    simp [h]

theorem forEach_nil {α σ : Type} (body : α → σ → Out σ) (s : σ) :
    forEach body [] s = ⟨none, s, []⟩ := rfl

theorem forEach_cons {α σ : Type} (body : α → σ → Out σ) (x : α) (xs : List α) (s : σ) :
    forEach body (x :: xs) s = (body x s).andThen (forEach body xs) := rfl

/-- Every call of a loop is a call of one of its iterations. -/
theorem forEach_events_forall {α σ : Type} (body : α → σ → Out σ) (P : Event → Prop)
    (xs : List α) (h : ∀ x ∈ xs, ∀ s, ∀ e ∈ (body x s).events, P e) :
    ∀ s, ∀ e ∈ (forEach body xs s).events, P e := by
  induction xs with
  | nil => intro s e he; simp [forEach_nil] at he
  | cons x xs ih =>
    intro s e he
    rw [forEach_cons, Out.mem_andThen_events] at he
    rcases he with he | ⟨_, he⟩
    · exact h x (List.mem_cons_self _ _) s e he
    · exact ih (fun y hy => h y (List.mem_cons_of_mem _ hy)) _ e he

/-- A state property kept by every iteration is kept by the loop. -/
theorem forEach_invariant {α σ : Type} (body : α → σ → Out σ) (I : σ → Prop)
    (xs : List α) (h : ∀ x ∈ xs, ∀ s, I s → I (body x s).st) :
    ∀ s, I s → I (forEach body xs s).st := by
  induction xs with
  | nil => intro s hs; simpa [forEach_nil] using hs
  | cons x xs ih =>
    intro s hs
    rw [forEach_cons]
    by_cases he : (body x s).err = none
    · rw [Out.andThen_st_of_ok _ _ he]
      exact ih (fun y hy => h y (List.mem_cons_of_mem _ hy)) _ (h x (List.mem_cons_self _ _) s hs)
    · rw [Out.andThen_of_err _ _ he]
      exact h x (List.mem_cons_self _ _) s hs

/-! ## Precedence in traces -/

theorem Before.of_free {P Q : Event → Prop} {l : List Event} (h : ∀ e ∈ l, ¬ Q e) :
    Before P Q l := by
  intro pre x post hl hq
  exact absurd hq (h x (by simp [hl]))

theorem Before.append_left_free {P Q : Event → Prop} {l₁ l₂ : List Event}
    (h₁ : ∀ e ∈ l₁, ¬ Q e) (h₂ : Before P Q l₂) : Before P Q (l₁ ++ l₂) := by
  intro pre x post hl hq
  rcases List.append_eq_append_iff.mp hl with ⟨a, rfl, ha⟩ | ⟨c, hpre, hc⟩
  · obtain ⟨y, hy, hp⟩ := h₂ a x post ha hq
    exact ⟨y, by simp [hy], hp⟩
  · cases c with
    | nil =>
      simp at hpre hc
      subst hpre
      obtain ⟨y, hy, hp⟩ := h₂ [] x post (by simpa using hc.symm) hq
      simp at hy
    | cons c cs =>
      simp at hc
      exact absurd hq (h₁ x (by rw [hpre]; simp [hc.1]))

theorem Before.append_right_free {P Q : Event → Prop} {l₁ l₂ : List Event}
    (h₁ : Before P Q l₁) (h₂ : ∀ e ∈ l₂, ¬ Q e) : Before P Q (l₁ ++ l₂) := by
  intro pre x post hl hq
  rcases List.append_eq_append_iff.mp hl with ⟨a, _, ha⟩ | ⟨c, hpre, hc⟩
  · exact absurd hq (h₂ x (by rw [ha]; simp))
  · cases c with
    | nil =>
      simp at hc
      exact absurd hq (h₂ x (by rw [← hc]; simp))
    | cons c cs =>
      simp at hc
      obtain ⟨hx, _⟩ := hc
      subst hx
      exact h₁ pre x cs hpre hq

theorem Before.andThen {σ : Type} {P Q : Event → Prop} (o : Out σ) (f : σ → Out σ)
    (h : (Before P Q o.events ∧ ∀ e ∈ (f o.st).events, ¬ Q e) ∨
         ((∀ e ∈ o.events, ¬ Q e) ∧ Before P Q (f o.st).events)) :
    Before P Q (o.andThen f).events := by
  by_cases he : o.err = none
  · rw [Out.andThen_events_of_ok o f he]
    rcases h with ⟨h₁, h₂⟩ | ⟨h₁, h₂⟩
    · exact Before.append_right_free h₁ h₂
    · exact Before.append_left_free h₁ h₂
  · rw [Out.andThen_of_err o f he]
    rcases h with ⟨h₁, _⟩ | ⟨h₁, _⟩
    · exact h₁
    · exact Before.of_free h₁

/-! ## `UpdateFile` and `UpdateFileFs` -/

theorem res_ne_ok_iff {α : Type} (r : Res α) (a : α) :
    r ≠ Res.ok a ↔ (∃ e, r = Res.err e) ∨ ∃ old, r = Res.ok old ∧ old ≠ a := by
  cases r with
  | ok b => simp
  | err e => simp

theorem UpdateFile_same (env : FileEnv W) (filename : String) (contents : Bytes) (mode : FileMode)
    (label : String) (w : W) (h : (env.osReadFile filename w).1 = Res.ok contents) :
    UpdateFile env filename contents mode label w =
      ⟨(env.setLabel filename label (env.osReadFile filename w).2).1,
       (env.setLabel filename label (env.osReadFile filename w).2).2,
       [.osReadFile filename (Res.ok contents),
        .setLabel filename label (env.setLabel filename label (env.osReadFile filename w).2).1]⟩ := by
  simp [UpdateFile, h]

theorem UpdateFileFs_same (env : FileEnv W) (filename : String) (contents : Bytes) (mode : FileMode)
    (label : String) (w : W) (h : (env.xfsReadFile filename w).1 = Res.ok contents) :
    UpdateFileFs env filename contents mode label w =
      ⟨(env.setLabel filename label (env.xfsReadFile filename w).2).1,
       (env.setLabel filename label (env.xfsReadFile filename w).2).2,
       [.xfsReadFile filename (Res.ok contents),
        .setLabel filename label (env.setLabel filename label (env.xfsReadFile filename w).2).1]⟩ := by
  simp [UpdateFileFs, h]

/-- C7: `UpdateFile` and `UpdateFileFs` read the file first.  If the read
succeeds with bytes equal to `contents`, the only other call is `SetLabel`
and its result is returned.  Otherwise the contents are written with the
given mode; a write error is returned with no `SetLabel`, and after a
successful write `SetLabel` is called and its result returned.  So a write
is performed exactly when the file was unreadable or its bytes differed. -/
theorem updateFile_writes_iff_changed (env : FileEnv W) (filename : String) (contents : Bytes)
    (mode : FileMode) (label : String) (w : W) :
    (((env.osReadFile filename w).1 = Res.ok contents →
        (UpdateFile env filename contents mode label w).events =
          [.osReadFile filename (Res.ok contents),
           .setLabel filename label (env.setLabel filename label (env.osReadFile filename w).2).1] ∧
        (UpdateFile env filename contents mode label w).err =
          (env.setLabel filename label (env.osReadFile filename w).2).1) ∧
      ((env.osReadFile filename w).1 ≠ Res.ok contents →
        (∀ e, (env.osWriteFile filename contents mode (env.osReadFile filename w).2).1 = some e →
          (UpdateFile env filename contents mode label w).events =
            [.osReadFile filename (env.osReadFile filename w).1,
             .osWriteFile filename contents mode (some e)] ∧
          (UpdateFile env filename contents mode label w).err = some e) ∧
        ((env.osWriteFile filename contents mode (env.osReadFile filename w).2).1 = none →
          (UpdateFile env filename contents mode label w).events =
            [.osReadFile filename (env.osReadFile filename w).1,
             .osWriteFile filename contents mode none,
             .setLabel filename label (env.setLabel filename label
                (env.osWriteFile filename contents mode (env.osReadFile filename w).2).2).1] ∧
          (UpdateFile env filename contents mode label w).err =
            (env.setLabel filename label
              (env.osWriteFile filename contents mode (env.osReadFile filename w).2).2).1)) ∧
      ((∃ e ∈ (UpdateFile env filename contents mode label w).events, e.isWrite = true) ↔
        ((∃ e, (env.osReadFile filename w).1 = Res.err e) ∨
          ∃ old, (env.osReadFile filename w).1 = Res.ok old ∧ old ≠ contents))) ∧
    (((env.xfsReadFile filename w).1 = Res.ok contents →
        (UpdateFileFs env filename contents mode label w).events =
          [.xfsReadFile filename (Res.ok contents),
           .setLabel filename label (env.setLabel filename label (env.xfsReadFile filename w).2).1] ∧
        (UpdateFileFs env filename contents mode label w).err =
          (env.setLabel filename label (env.xfsReadFile filename w).2).1) ∧
      ((env.xfsReadFile filename w).1 ≠ Res.ok contents →
        (∀ e, (env.xfsWriteFile filename contents mode (env.xfsReadFile filename w).2).1 = some e →
          (UpdateFileFs env filename contents mode label w).events =
            [.xfsReadFile filename (env.xfsReadFile filename w).1,
             .xfsWriteFile filename contents mode (some e)] ∧
          (UpdateFileFs env filename contents mode label w).err = some e) ∧
        ((env.xfsWriteFile filename contents mode (env.xfsReadFile filename w).2).1 = none →
          (UpdateFileFs env filename contents mode label w).events =
            [.xfsReadFile filename (env.xfsReadFile filename w).1,
             .xfsWriteFile filename contents mode none,
             .setLabel filename label (env.setLabel filename label
                (env.xfsWriteFile filename contents mode (env.xfsReadFile filename w).2).2).1] ∧
          (UpdateFileFs env filename contents mode label w).err =
            (env.setLabel filename label
              (env.xfsWriteFile filename contents mode (env.xfsReadFile filename w).2).2).1)) ∧
      ((∃ e ∈ (UpdateFileFs env filename contents mode label w).events, e.isWrite = true) ↔
        ((∃ e, (env.xfsReadFile filename w).1 = Res.err e) ∨
          ∃ old, (env.xfsReadFile filename w).1 = Res.ok old ∧ old ≠ contents))) := by
  refine ⟨⟨?_, ?_, ?_⟩, ⟨?_, ?_, ?_⟩⟩
  · intro h
    simp [UpdateFile_same env filename contents mode label w h]
  · intro h
    refine ⟨fun e he => ?_, fun he => ?_⟩ <;> simp [UpdateFile, h, he]
  · rw [← res_ne_ok_iff]
    by_cases h : (env.osReadFile filename w).1 = Res.ok contents
    · simp [UpdateFile_same env filename contents mode label w h, h, Event.isWrite]
    · cases he : (env.osWriteFile filename contents mode (env.osReadFile filename w).2).1 <;>
        simp [UpdateFile, h, he, Event.isWrite]
  · intro h
    simp [UpdateFileFs_same env filename contents mode label w h]
  · intro h
    refine ⟨fun e he => ?_, fun he => ?_⟩ <;> simp [UpdateFileFs, h, he]
  · rw [← res_ne_ok_iff]
    by_cases h : (env.xfsReadFile filename w).1 = Res.ok contents
    · simp [UpdateFileFs_same env filename contents mode label w h, h, Event.isWrite]
    · cases he : (env.xfsWriteFile filename contents mode (env.xfsReadFile filename w).2).1 <;>
        simp [UpdateFileFs, h, he, Event.isWrite]

/-- C8, counterexample: in the reference world `/etc/hosts` exists with mode
0o600 and the bytes 49, 50.  Calling `UpdateFileFs` and `UpdateFile` with
the same bytes and mode 0o644 succeeds, and the file still has mode 0o600. -/
theorem updateFile_mode_kept_counterexample :
    (UpdateFileFs refFileEnv "/etc/hosts" [49, 50] 0o644 "etc_t" modeWorld).err = none ∧
    lookupFile "/etc/hosts" (UpdateFileFs refFileEnv "/etc/hosts" [49, 50] 0o644 "etc_t" modeWorld).st.anonFiles
      = some ⟨[49, 50], 0o600⟩ ∧
    (UpdateFile refFileEnv "/etc/hosts" [49, 50] 0o644 "etc_t" modeWorld).err = none ∧
    lookupFile "/etc/hosts" (UpdateFile refFileEnv "/etc/hosts" [49, 50] 0o644 "etc_t" modeWorld).st.rootFiles
      = some ⟨[49, 50], 0o600⟩ ∧
    (0o600 : FileMode) ≠ 0o644 := by
  decide

/-- C8, amended: when the existing bytes equal `contents`, `UpdateFile` and
`UpdateFileFs` make exactly two calls, the read and `SetLabel` with the
requested label, and return the result of `SetLabel`; the mode takes no
part: the outcome is the same for every requested mode. -/
theorem updateFile_same_contents_label_only (env : FileEnv W) (filename : String)
    (contents : Bytes) (mode mode' : FileMode) (label : String) (w : W) :
    ((env.osReadFile filename w).1 = Res.ok contents →
      UpdateFile env filename contents mode label w = UpdateFile env filename contents mode' label w ∧
      (UpdateFile env filename contents mode label w).events =
        [.osReadFile filename (Res.ok contents),
         .setLabel filename label (env.setLabel filename label (env.osReadFile filename w).2).1] ∧
      (UpdateFile env filename contents mode label w).err =
        (env.setLabel filename label (env.osReadFile filename w).2).1) ∧
    ((env.xfsReadFile filename w).1 = Res.ok contents →
      UpdateFileFs env filename contents mode label w = UpdateFileFs env filename contents mode' label w ∧
      (UpdateFileFs env filename contents mode label w).events =
        [.xfsReadFile filename (Res.ok contents),
         .setLabel filename label (env.setLabel filename label (env.xfsReadFile filename w).2).1] ∧
      (UpdateFileFs env filename contents mode label w).err =
        (env.setLabel filename label (env.xfsReadFile filename w).2).1) := by
  constructor
  · intro h
    rw [UpdateFile_same env filename contents mode label w h,
      UpdateFile_same env filename contents mode' label w h]
    simp
  · intro h
    rw [UpdateFileFs_same env filename contents mode label w h,
      UpdateFileFs_same env filename contents mode' label w h]
    simp

/-- Witness for C8 amended, on the reference world. -/
theorem updateFile_same_contents_label_only_witness :
    (refFileEnv.xfsReadFile "/etc/hosts" modeWorld).1 = Res.ok [49, 50] ∧
    UpdateFileFs refFileEnv "/etc/hosts" [49, 50] 0o644 "etc_t" modeWorld =
      UpdateFileFs refFileEnv "/etc/hosts" [49, 50] 0o600 "etc_t" modeWorld :=
  ⟨by decide,
   ((updateFile_same_contents_label_only refFileEnv "/etc/hosts" [49, 50] 0o644 0o600 "etc_t"
      modeWorld).2 (by decide)).1⟩

theorem forEach_err_cons {α σ : Type} (body : α → σ → Out σ) (x : α) (xs : List α) (s : σ) :
    (forEach body (x :: xs) s).err = none ↔
      (body x s).err = none ∧ (forEach body xs (body x s).st).err = none := by
  rw [forEach_cons, Out.andThen_err_eq_none]

/-- In a loop that ends without error every element is visited, in a state
that satisfies any invariant of the iterations, and its iteration ends
without error. -/
theorem forEach_ok_visits {α σ : Type} (body : α → σ → Out σ) (I : σ → Prop) (xs : List α)
    (hI : ∀ x ∈ xs, ∀ s, I s → I (body x s).st) :
    ∀ s, I s → (forEach body xs s).err = none →
      ∀ x ∈ xs, ∃ s', I s' ∧ (body x s').err = none ∧
        ∀ e ∈ (body x s').events, e ∈ (forEach body xs s).events := by
  induction xs with
  | nil => intro s _ _ x hx; simp at hx
  | cons y ys ih =>
    intro s hs hok x hx
    obtain ⟨hy, hrest⟩ := (forEach_err_cons body y ys s).mp hok
    rw [forEach_cons, Out.andThen_events_of_ok _ _ hy]
    rcases List.mem_cons.mp hx with rfl | hx
    · exact ⟨s, hs, hy, fun e he => List.mem_append_left _ he⟩
    · obtain ⟨s', hs', hok', hev⟩ :=
        ih (fun z hz => hI z (List.mem_cons_of_mem _ hz)) _ (hI y (List.mem_cons_self _ _) s hs)
          hrest x hx
      exact ⟨s', hs', hok', fun e he => List.mem_append_right _ (hev e he)⟩

/-- In a loop that ends without error, what holds of the calls of every
iteration that ends without error holds of all calls. -/
theorem forEach_ok_events_forall {α σ : Type} (body : α → σ → Out σ) (P : Event → Prop)
    (xs : List α) (h : ∀ x ∈ xs, ∀ s, (body x s).err = none → ∀ e ∈ (body x s).events, P e) :
    ∀ s, (forEach body xs s).err = none → ∀ e ∈ (forEach body xs s).events, P e := by
  induction xs with
  | nil => intro s _ e he; simp [forEach_nil] at he
  | cons y ys ih =>
    intro s hok e he
    obtain ⟨hy, hrest⟩ := (forEach_err_cons body y ys s).mp hok
    rw [forEach_cons, Out.andThen_events_of_ok _ _ hy] at he
    rcases List.mem_append.mp he with he | he
    · exact h y (List.mem_cons_self _ _) s hy e he
    · exact ih (fun z hz => h z (List.mem_cons_of_mem _ hz)) _ hrest e he

theorem fatalNotExist_eq_none_iff (r : Option Err) : fatalNotExist r = none ↔ undone r = true := by
  cases r with
  | none => simp [fatalNotExist, undone]
  | some e => cases h : e.isNotExist <;> simp [fatalNotExist, undone, h]

theorem Before.append_of_mem_left {P Q : Event → Prop} {l₁ l₂ : List Event}
    (h₁ : Before P Q l₁) (h₂ : ∃ y ∈ l₁, P y) : Before P Q (l₁ ++ l₂) := by
  intro pre x post hl hq
  rcases List.append_eq_append_iff.mp hl with ⟨a, hpre, _⟩ | ⟨c, hpre, hc⟩
  · obtain ⟨y, hy, hp⟩ := h₂
    exact ⟨y, by rw [hpre]; exact List.mem_append_left _ hy, hp⟩
  · cases c with
    | nil =>
      obtain ⟨y, hy, hp⟩ := h₂
      exact ⟨y, by simpa [hpre] using hy, hp⟩
    | cons c cs =>
      simp at hc
      obtain ⟨hx, _⟩ := hc
      subst hx
      exact h₁ pre x cs hpre hq

theorem Before.andThen_of_left {σ : Type} {P Q : Event → Prop} (o : Out σ) (f : σ → Out σ)
    (h₁ : Before P Q o.events) (h₂ : o.err = none → ∃ y ∈ o.events, P y) :
    Before P Q (o.andThen f).events := by
  by_cases he : o.err = none
  · rw [Out.andThen_events_of_ok o f he]
    exact Before.append_of_mem_left h₁ (h₂ he)
  · rw [Out.andThen_of_err o f he]
    exact h₁

/-- If no call of `l₁` is a `Q` call, a `Q` call of `l₁ ++ l₂` has all of
`l₁` before it. -/
theorem prefix_of_free {Q : Event → Prop} {l₁ l₂ pre post : List Event} {x : Event}
    (h₁ : ∀ e ∈ l₁, ¬ Q e) (hl : l₁ ++ l₂ = pre ++ x :: post) (hq : Q x) :
    ∃ mid, pre = l₁ ++ mid ∧ l₂ = mid ++ x :: post := by
  rcases List.append_eq_append_iff.mp hl with ⟨a, hpre, ha⟩ | ⟨c, hpre, hc⟩
  · exact ⟨a, hpre, ha⟩
  · cases c with
    | nil =>
      simp at hc
      exact ⟨[], by simpa using hpre.symm, by simpa using hc.symm⟩
    | cons c cs =>
      simp at hc
      exact absurd hq (h₁ x (by rw [hpre]; simp [hc.1]))

namespace EtcFileController

/-! ## `EtcFileController`: the finalizer loop -/

theorem addFinalizerStep_events (env : EtcEnv W) (res : EtcFileSpec) (s : EtcState W) :
    ∀ e ∈ (addFinalizerStep env res s).events,
      ∃ r, e = .addFinalizer res.id Name r ∧ res.phase = .running ∧
        ((addFinalizerStep env res s).err = none ↔ r = none) := by
  intro e he
  unfold addFinalizerStep at he ⊢
  by_cases hp : res.phase = .running
  · simp [hp] at he ⊢
    exact ⟨_, he, Iff.rfl⟩
  · simp [hp] at he

theorem addFinalizerStep_running (env : EtcEnv W) (res : EtcFileSpec) (s : EtcState W)
    (hp : res.phase = .running) (hok : (addFinalizerStep env res s).err = none) :
    Event.addFinalizer res.id Name none ∈ (addFinalizerStep env res s).events := by
  unfold addFinalizerStep at hok ⊢
  simp [hp] at hok ⊢
  exact hok.symm

theorem addFinalizerStep_st (env : EtcEnv W) (res : EtcFileSpec) (s : EtcState W) :
    (addFinalizerStep env res s).st.bindMounts = s.bindMounts := by
  unfold addFinalizerStep
  split <;> rfl

theorem addFinalizers_events (env : EtcEnv W) (list : List EtcFileSpec) (s : EtcState W) :
    ∀ e ∈ (forEach (addFinalizerStep env) list s).events, ∃ id r, e = .addFinalizer id Name r :=
  forEach_events_forall _ (fun e => ∃ id r, e = .addFinalizer id Name r) list
    (fun x _ s e he => by
      obtain ⟨r, hr, _⟩ := addFinalizerStep_events env x s e he
      exact ⟨_, r, hr⟩) s

theorem addFinalizers_ok_events (env : EtcEnv W) (list : List EtcFileSpec) (s : EtcState W)
    (hok : (forEach (addFinalizerStep env) list s).err = none) :
    ∀ e ∈ (forEach (addFinalizerStep env) list s).events, ∃ id, e = .addFinalizer id Name none :=
  forEach_ok_events_forall _ (fun e => ∃ id, e = .addFinalizer id Name none) list
    (fun x _ s hx e he => by
      obtain ⟨r, hr, _, hiff⟩ := addFinalizerStep_events env x s e he
      exact ⟨_, by rw [hr, hiff.mp hx]⟩) s hok

theorem addFinalizers_ok_mem (env : EtcEnv W) (list : List EtcFileSpec) (s : EtcState W)
    (hok : (forEach (addFinalizerStep env) list s).err = none) :
    ∀ spec ∈ list, spec.phase = .running →
      Event.addFinalizer spec.id Name none ∈ (forEach (addFinalizerStep env) list s).events := by
  intro spec hs hp
  obtain ⟨s', _, hok', hev⟩ :=
    forEach_ok_visits (addFinalizerStep env) (fun _ => True) list (fun _ _ _ _ => trivial) s trivial
      hok spec hs
  exact hev _ (addFinalizerStep_running env spec s' hp hok')

theorem addFinalizers_bindMounts (env : EtcEnv W) (list : List EtcFileSpec) (s : EtcState W) :
    (forEach (addFinalizerStep env) list s).st.bindMounts = s.bindMounts :=
  forEach_invariant (addFinalizerStep env) (fun st => st.bindMounts = s.bindMounts) list
    (fun x _ st hst => by
      show (addFinalizerStep env x st).st.bindMounts = s.bindMounts
      rw [addFinalizerStep_st]
      exact hst) s rfl

end EtcFileController

namespace EtcFileController

/-! ## `EtcFileController`: the steps of the second loop -/

theorem createBindMountFile_events (env : FileEnv W) (src dst : String) (mode : FileMode) (w : W) :
    ∀ e ∈ (createBindMountFile env src dst mode w).events,
      e.isCreateBindMount = true ∧ (src = dst → ∀ id, e.isApplyOf src id = true) := by
  intro e he
  simp only [createBindMountFile] at he
  split at he
  · simp at he; subst he; simp [Event.isCreateBindMount, Event.isApplyOf]
  · split at he
    · simp at he
      rcases he with rfl | rfl <;> simp [Event.isCreateBindMount, Event.isApplyOf]
    · split at he
      · simp at he
        rcases he with rfl | rfl | rfl <;> simp [Event.isCreateBindMount, Event.isApplyOf]
      · simp at he
        rcases he with rfl | rfl | rfl | rfl <;> simp [Event.isCreateBindMount, Event.isApplyOf]
        intro h
        exact h.symm

theorem unmountStep_events (env : EtcEnv W) (filename dst : String) (s : EtcState W) :
    ∀ e ∈ (unmountStep env filename dst s).events,
      ∃ r, e = .unmount dst r ∧ filename ∈ s.bindMounts ∧
        ((unmountStep env filename dst s).err = none ↔ undone r = true) := by
  intro e he
  unfold unmountStep at he ⊢
  by_cases hm : filename ∈ s.bindMounts
  · simp only [hm, if_true] at he ⊢
    cases hf : fatalNotExist (env.unmount dst s.world).1 with
    | none =>
      simp [hf] at he ⊢
      exact ⟨_, he, (fatalNotExist_eq_none_iff _).mp hf⟩
    | some e' =>
      simp [hf] at he ⊢
      refine ⟨_, he, ?_⟩
      by_contra hu
      simp at hu
      rw [← fatalNotExist_eq_none_iff, hf] at hu
      cases hu
  · simp [hm] at he

theorem unmountStep_ok_mem (env : EtcEnv W) (filename dst : String) (s : EtcState W)
    (hm : filename ∈ s.bindMounts) (hok : (unmountStep env filename dst s).err = none) :
    ∃ r, Event.unmount dst r ∈ (unmountStep env filename dst s).events ∧ undone r = true := by
  unfold unmountStep at hok ⊢
  simp only [hm, if_true] at hok ⊢
  cases hf : fatalNotExist (env.unmount dst s.world).1 with
  | none =>
    simp [hf]
    exact (fatalNotExist_eq_none_iff _).mp hf
  | some e' => simp [hf] at hok

theorem unmountStep_bindMounts (env : EtcEnv W) (filename dst : String) (s : EtcState W) (x : String) :
    (x ∈ (unmountStep env filename dst s).st.bindMounts → x ∈ s.bindMounts) ∧
    (x ≠ filename → x ∈ s.bindMounts → x ∈ (unmountStep env filename dst s).st.bindMounts) ∧
    ((unmountStep env filename dst s).err = none →
      filename ∉ (unmountStep env filename dst s).st.bindMounts) := by
  unfold unmountStep
  by_cases hm : filename ∈ s.bindMounts
  · simp only [hm, if_true]
    cases hf : fatalNotExist (env.unmount dst s.world).1 with
    | none => simp [hf]; tauto
    | some e' => simp [hf]
  · simp [hm]

theorem unmountStep_touched (env : EtcEnv W) (filename dst : String) (s : EtcState W) :
    (unmountStep env filename dst s).st.touchedIDs = s.touchedIDs := by
  unfold unmountStep
  by_cases hm : filename ∈ s.bindMounts
  · simp only [hm, if_true]
    cases hf : fatalNotExist (env.unmount dst s.world).1 <;> simp [hf]
  · simp [hm]

theorem removeStep_events (env : EtcEnv W) (src : String) (s : EtcState W) :
    (removeStep env src s).events = [.osRemove src (env.osRemove src s.world).1] ∧
    ((removeStep env src s).err = none ↔ undone (env.osRemove src s.world).1 = true) ∧
    (removeStep env src s).st.bindMounts = s.bindMounts ∧
    (removeStep env src s).st.touchedIDs = s.touchedIDs := by
  unfold removeStep
  simp [fatalNotExist_eq_none_iff]

theorem removeFinalizerStep_events (env : EtcEnv W) (filename : String) (s : EtcState W) :
    (removeFinalizerStep env filename s).events =
        [.removeFinalizer filename Name (env.removeFinalizer filename Name s.world).1] ∧
    ((removeFinalizerStep env filename s).err = none ↔
      (env.removeFinalizer filename Name s.world).1 = none) ∧
    (removeFinalizerStep env filename s).st.bindMounts = s.bindMounts ∧
    (removeFinalizerStep env filename s).st.touchedIDs = s.touchedIDs := by
  unfold removeFinalizerStep
  simp

theorem createStep_events (env : EtcEnv W) (filename src dst : String) (mode : FileMode)
    (s : EtcState W) :
    ∀ e ∈ (createStep env filename src dst mode s).events,
      filename ∉ s.bindMounts ∧ e ∈ (createBindMountFile env.toFileEnv src dst mode s.world).events := by
  intro e he
  unfold createStep at he
  by_cases hm : filename ∈ s.bindMounts
  · simp [hm] at he
  · simp only [hm, if_false] at he
    refine ⟨hm, ?_⟩
    split at he <;> exact he

theorem createStep_st (env : EtcEnv W) (filename src dst : String) (mode : FileMode)
    (s : EtcState W) (x : String) :
    (x ∈ s.bindMounts → x ∈ (createStep env filename src dst mode s).st.bindMounts) ∧
    (x ∈ (createStep env filename src dst mode s).st.bindMounts → x = filename ∨ x ∈ s.bindMounts) ∧
    ((createStep env filename src dst mode s).err = none →
      filename ∈ (createStep env filename src dst mode s).st.bindMounts) ∧
    (createStep env filename src dst mode s).st.touchedIDs = s.touchedIDs := by
  unfold createStep
  by_cases hm : filename ∈ s.bindMounts
  · simp [hm]
    tauto
  · simp only [hm, if_false]
    cases hc : (createBindMountFile env.toFileEnv src dst mode s.world).err <;> simp [hc] <;> tauto

theorem updateStep_st (env : EtcEnv W) (src : String) (spec : EtcFileSpec) (s : EtcState W) :
    (updateStep env src spec s).st.bindMounts = s.bindMounts ∧
    (updateStep env src spec s).st.touchedIDs = s.touchedIDs ∧
    (updateStep env src spec s).events =
      (UpdateFileFs env.toFileEnv src spec.contents spec.mode spec.selinuxLabel s.world).events := by
  simp [updateStep]

theorem UpdateFileFs_events (env : FileEnv W) (filename : String) (contents : Bytes) (mode : FileMode)
    (label : String) (w : W) :
    ∀ e ∈ (UpdateFileFs env filename contents mode label w).events,
      (∃ r, e = .xfsReadFile filename r) ∨ (∃ r, e = .xfsWriteFile filename contents mode r) ∨
      (∃ r, e = .setLabel filename label r) := by
  intro e he
  simp only [UpdateFileFs] at he
  split at he
  · simp at he
    rcases he with rfl | rfl <;> simp
  · split at he
    · simp at he
      rcases he with rfl | rfl <;> simp
    · simp at he
      rcases he with rfl | rfl | rfl <;> simp

theorem statusStep_events (env : EtcEnv W) (filename : String) (spec : EtcFileSpec) (s : EtcState W) :
    (statusStep env filename spec s).events =
        [.modifyStatus filename spec.version (env.modifyStatus filename spec.version s.world).1] ∧
    (statusStep env filename spec s).st.bindMounts = s.bindMounts ∧
    ((statusStep env filename spec s).err = none →
      (statusStep env filename spec s).st.touchedIDs = filename :: s.touchedIDs) ∧
    (∀ x, x ∈ (statusStep env filename spec s).st.touchedIDs → x = filename ∨ x ∈ s.touchedIDs) ∧
    (∀ x, x ∈ s.touchedIDs → x ∈ (statusStep env filename spec s).st.touchedIDs) := by
  unfold statusStep
  cases hr : (env.modifyStatus filename spec.version s.world).1 <;> simp [hr] <;> tauto

end EtcFileController

theorem Out.andThen_st_rel {σ : Type} (R : σ → σ → Prop) (htrans : ∀ a b c, R a b → R b c → R a c)
    (s : σ) (o : Out σ) (f : σ → Out σ) (h₁ : R s o.st) (h₂ : ∀ t, R t (f t).st) :
    R s (o.andThen f).st := by
  by_cases he : o.err = none
  · rw [Out.andThen_st_of_ok o f he]
    exact htrans _ _ _ h₁ (h₂ _)
  · rw [Out.andThen_of_err o f he]
    exact h₁

namespace EtcFileController

/-! ## `EtcFileController`: one iteration of the second loop -/

theorem applySpec_teardown (env : EtcEnv W) (etcPath : String) (spec : EtcFileSpec) (s : EtcState W)
    (hp : spec.phase = .tearingDown) :
    applySpec env etcPath spec s =
      ((unmountStep env spec.id (env.join etcPath spec.id) s).andThen
        (removeStep env (env.join etcPath spec.id))).andThen (removeFinalizerStep env spec.id) := by
  simp [applySpec, hp]

theorem applySpec_running (env : EtcEnv W) (etcPath : String) (spec : EtcFileSpec) (s : EtcState W)
    (hp : spec.phase = .running) :
    applySpec env etcPath spec s =
      ((createStep env spec.id (env.join etcPath spec.id) (env.join etcPath spec.id) spec.mode s).andThen
        (updateStep env (env.join etcPath spec.id) spec)).andThen (statusStep env spec.id spec) := by
  simp [applySpec, hp]

theorem applySpec_events (env : EtcEnv W) (etcPath : String) (spec : EtcFileSpec) (s : EtcState W) :
    ∀ e ∈ (applySpec env etcPath spec s).events,
      e.isApplyOf (env.join etcPath spec.id) spec.id = true ∧
      (e.isTeardownCall = true ↔ spec.phase = .tearingDown) := by
  intro e he
  cases hp : spec.phase with
  | tearingDown =>
    rw [applySpec_teardown env etcPath spec s hp] at he
    simp only [Out.mem_andThen_events] at he
    rcases he with (he | ⟨_, he⟩) | ⟨_, he⟩
    · obtain ⟨r, rfl, _⟩ := unmountStep_events env _ _ s e he
      simp [Event.isApplyOf, Event.isTeardownCall]
    · rw [(removeStep_events env _ _).1] at he
      simp at he; subst he
      simp [Event.isApplyOf, Event.isTeardownCall]
    · rw [(removeFinalizerStep_events env _ _).1] at he
      simp at he; subst he
      simp [Event.isApplyOf, Event.isTeardownCall]
  | running =>
    rw [applySpec_running env etcPath spec s hp] at he
    simp only [Out.mem_andThen_events] at he
    rcases he with (he | ⟨_, he⟩) | ⟨_, he⟩
    · obtain ⟨_, he⟩ := createStep_events env _ _ _ _ s e he
      obtain ⟨hc, ha⟩ := createBindMountFile_events _ _ _ _ _ e he
      refine ⟨ha rfl _, ?_⟩
      cases e <;> simp [Event.isCreateBindMount] at hc <;> simp [Event.isTeardownCall]
    · rw [(updateStep_st env _ _ _).2.2] at he
      rcases UpdateFileFs_events _ _ _ _ _ _ e he with ⟨r, rfl⟩ | ⟨r, rfl⟩ | ⟨r, rfl⟩ <;>
        simp [Event.isApplyOf, Event.isTeardownCall]
    · rw [(statusStep_events env _ _ _).1] at he
      simp at he; subst he
      simp [Event.isApplyOf, Event.isTeardownCall]

theorem applySpec_bindMounts_other (env : EtcEnv W) (etcPath : String) (spec : EtcFileSpec)
    (s : EtcState W) (x : String) (hx : x ≠ spec.id) :
    x ∈ (applySpec env etcPath spec s).st.bindMounts ↔ x ∈ s.bindMounts := by
  have htrans : ∀ a b c : EtcState W, (x ∈ b.bindMounts ↔ x ∈ a.bindMounts) →
      (x ∈ c.bindMounts ↔ x ∈ b.bindMounts) → (x ∈ c.bindMounts ↔ x ∈ a.bindMounts) :=
    fun _ _ _ h₁ h₂ => h₂.trans h₁
  cases hp : spec.phase with
  | tearingDown =>
    rw [applySpec_teardown env etcPath spec s hp]
    refine Out.andThen_st_rel (fun a b => x ∈ b.bindMounts ↔ x ∈ a.bindMounts) htrans s _ _
      (Out.andThen_st_rel (fun a b => x ∈ b.bindMounts ↔ x ∈ a.bindMounts) htrans s _ _ ?_ ?_) ?_
    · exact ⟨(unmountStep_bindMounts env _ _ s x).1, (unmountStep_bindMounts env _ _ s x).2.1 hx⟩
    · intro t; rw [(removeStep_events env _ t).2.2.1]
    · intro t; rw [(removeFinalizerStep_events env _ t).2.2.1]
  | running =>
    rw [applySpec_running env etcPath spec s hp]
    refine Out.andThen_st_rel (fun a b => x ∈ b.bindMounts ↔ x ∈ a.bindMounts) htrans s _ _
      (Out.andThen_st_rel (fun a b => x ∈ b.bindMounts ↔ x ∈ a.bindMounts) htrans s _ _ ?_ ?_) ?_
    · refine ⟨fun h => ?_, (createStep_st env _ _ _ _ s x).1⟩
      rcases (createStep_st env _ _ _ _ s x).2.1 h with h | h
      · exact absurd h hx
      · exact h
    · intro t; rw [(updateStep_st env _ _ t).1]
    · intro t; rw [(statusStep_events env _ _ t).2.1]

theorem applySpec_running_keeps (env : EtcEnv W) (etcPath : String) (spec : EtcFileSpec)
    (s : EtcState W) (hp : spec.phase = .running) (x : String) (hx : x ∈ s.bindMounts) :
    x ∈ (applySpec env etcPath spec s).st.bindMounts := by
  rw [applySpec_running env etcPath spec s hp]
  refine Out.andThen_st_rel (fun a b => x ∈ a.bindMounts → x ∈ b.bindMounts)
    (fun _ _ _ h₁ h₂ h => h₂ (h₁ h)) s _ _
    (Out.andThen_st_rel (fun a b => x ∈ a.bindMounts → x ∈ b.bindMounts)
      (fun _ _ _ h₁ h₂ h => h₂ (h₁ h)) s _ _ ?_ ?_) ?_ hx
  · exact (createStep_st env _ _ _ _ s x).1
  · intro t; rw [(updateStep_st env _ _ t).1]; exact id
  · intro t; rw [(statusStep_events env _ _ t).2.1]; exact id

theorem applySpec_running_ok (env : EtcEnv W) (etcPath : String) (spec : EtcFileSpec)
    (s : EtcState W) (hp : spec.phase = .running)
    (hok : (applySpec env etcPath spec s).err = none) :
    spec.id ∈ (applySpec env etcPath spec s).st.bindMounts ∧
    (applySpec env etcPath spec s).st.touchedIDs = spec.id :: s.touchedIDs := by
  rw [applySpec_running env etcPath spec s hp] at hok ⊢
  obtain ⟨h12, h3⟩ := (Out.andThen_err_eq_none _ _).mp hok
  obtain ⟨h1, h2⟩ := (Out.andThen_err_eq_none _ _).mp h12
  rw [Out.andThen_st_of_ok _ _ h12, Out.andThen_st_of_ok _ _ h1]
  rw [Out.andThen_st_of_ok _ _ h1] at h3
  refine ⟨?_, ?_⟩
  · rw [(statusStep_events env _ _ _).2.1, (updateStep_st env _ _ _).1]
    exact (createStep_st env _ _ _ _ s spec.id).2.2.1 h1
  · rw [(statusStep_events env _ _ _).2.2.1 h3, (updateStep_st env _ _ _).2.1,
      (createStep_st env _ _ _ _ s spec.id).2.2.2]

theorem applySpec_touched (env : EtcEnv W) (etcPath : String) (spec : EtcFileSpec)
    (s : EtcState W) (x : ID) :
    (x ∈ s.touchedIDs → x ∈ (applySpec env etcPath spec s).st.touchedIDs) ∧
    (x ∈ (applySpec env etcPath spec s).st.touchedIDs →
      x ∈ s.touchedIDs ∨ (x = spec.id ∧ spec.phase = .running)) := by
  cases hp : spec.phase with
  | tearingDown =>
    rw [applySpec_teardown env etcPath spec s hp]
    have : (((unmountStep env spec.id (env.join etcPath spec.id) s).andThen
        (removeStep env (env.join etcPath spec.id))).andThen
        (removeFinalizerStep env spec.id)).st.touchedIDs = s.touchedIDs := by
      refine Out.andThen_st_rel (fun a b => b.touchedIDs = a.touchedIDs)
        (fun _ _ _ h₁ h₂ => by beta_reduce at *; exact h₂.trans h₁) s _ _
        (Out.andThen_st_rel (fun a b => b.touchedIDs = a.touchedIDs)
          (fun _ _ _ h₁ h₂ => by beta_reduce at *; exact h₂.trans h₁) s _ _ ?_ ?_) ?_
      · exact unmountStep_touched env _ _ s
      · intro t; exact (removeStep_events env _ t).2.2.2
      · intro t; exact (removeFinalizerStep_events env _ t).2.2.2
    rw [this]
    simp
  | running =>
    rw [applySpec_running env etcPath spec s hp]
    constructor
    · refine Out.andThen_st_rel (fun a b => x ∈ a.touchedIDs → x ∈ b.touchedIDs)
        (fun _ _ _ h₁ h₂ h => h₂ (h₁ h)) s _ _
        (Out.andThen_st_rel (fun a b => x ∈ a.touchedIDs → x ∈ b.touchedIDs)
          (fun _ _ _ h₁ h₂ h => h₂ (h₁ h)) s _ _ ?_ ?_) ?_
      · beta_reduce; rw [(createStep_st env _ _ _ _ s x).2.2.2]; exact id
      · intro t; beta_reduce; rw [(updateStep_st env _ _ t).2.1]; exact id
      · intro t; exact (statusStep_events env _ _ t).2.2.2.2 x
    · refine Out.andThen_st_rel
        (fun a b => x ∈ b.touchedIDs → x ∈ a.touchedIDs ∨ (x = spec.id ∧ Phase.running = Phase.running))
        (fun a b c h₁ h₂ h => by
          rcases h₂ h with h | h
          · exact h₁ h
          · exact Or.inr h) s _ _
        (Out.andThen_st_rel
          (fun a b => x ∈ b.touchedIDs → x ∈ a.touchedIDs ∨ (x = spec.id ∧ Phase.running = Phase.running))
          (fun a b c h₁ h₂ h => by
            rcases h₂ h with h | h
            · exact h₁ h
            · exact Or.inr h) s _ _ ?_ ?_) ?_
      · beta_reduce; rw [(createStep_st env _ _ _ _ s x).2.2.2]; exact Or.inl
      · intro t; beta_reduce; rw [(updateStep_st env _ _ t).2.1]; exact Or.inl
      · intro t h
        rcases (statusStep_events env _ _ t).2.2.2.1 x h with h | h
        · exact Or.inr ⟨h, rfl⟩
        · exact Or.inl h

end EtcFileController

namespace EtcFileController

/-! ## `EtcFileController`: cleanup and the structure of a pass -/

theorem destroyStep_facts (env : EtcEnv W) (res : EtcFileStatus) (s : EtcState W) :
    (destroyStep env res s).st.touchedIDs = s.touchedIDs ∧
    (destroyStep env res s).st.bindMounts = s.bindMounts ∧
    (∀ e ∈ (destroyStep env res s).events, ∃ r, e = .destroyStatus res.id r ∧ res.id ∉ s.touchedIDs) ∧
    ((destroyStep env res s).err = none →
      (destroyStep env res s).events =
        if res.id ∈ s.touchedIDs then [] else [.destroyStatus res.id none]) := by
  unfold destroyStep
  by_cases hm : res.id ∈ s.touchedIDs
  · simp [hm]
  · simp [hm]

theorem destroyLoop_facts (env : EtcEnv W) (statuses : List EtcFileStatus) :
    ∀ s : EtcState W,
      (forEach (destroyStep env) statuses s).st.touchedIDs = s.touchedIDs ∧
      (forEach (destroyStep env) statuses s).st.bindMounts = s.bindMounts ∧
      (∀ e ∈ (forEach (destroyStep env) statuses s).events,
        ∃ st r, st ∈ statuses ∧ e = .destroyStatus st.id r ∧ st.id ∉ s.touchedIDs) ∧
      ((forEach (destroyStep env) statuses s).err = none →
        (forEach (destroyStep env) statuses s).events =
          (statuses.filter fun st => decide (st.id ∉ s.touchedIDs)).map
            fun st => .destroyStatus st.id none) := by
  induction statuses with
  | nil => intro s; simp [forEach_nil]
  | cons st rest ih =>
    intro s
    obtain ⟨h1, h2, h3, h4⟩ := destroyStep_facts env st s
    obtain ⟨i1, i2, i3, i4⟩ := ih (destroyStep env st s).st
    rw [forEach_cons]
    by_cases hok : (destroyStep env st s).err = none
    · rw [Out.andThen_st_of_ok _ _ hok, Out.andThen_events_of_ok _ _ hok,
        Out.andThen_err_of_ok _ _ hok]
      refine ⟨i1.trans h1, i2.trans h2, ?_, ?_⟩
      · intro e he
        rcases List.mem_append.mp he with he | he
        · obtain ⟨r, hr, hn⟩ := h3 e he
          exact ⟨st, r, List.mem_cons_self _ _, hr, hn⟩
        · obtain ⟨st', r, hm, hr, hn⟩ := i3 e he
          exact ⟨st', r, List.mem_cons_of_mem _ hm, hr, by rwa [h1] at hn⟩
      · intro hrest
        rw [i4 hrest, h4 hok, h1]
        by_cases hm : st.id ∈ s.touchedIDs <;> simp [hm]
    · rw [Out.andThen_of_err _ _ hok]
      refine ⟨h1, h2, ?_, fun h => absurd h hok⟩
      intro e he
      obtain ⟨r, hr, hn⟩ := h3 e he
      exact ⟨st, r, List.mem_cons_self _ _, hr, hn⟩

/-- What the cleanup does when it ends without error: it lists the statuses,
destroys exactly the listed ones whose id is not touched, in order, and
resets the backoff. -/
theorem cleanup_ok (env : EtcEnv W) (s : EtcState W) (hok : (cleanup env s).err = none) :
    ∃ statuses, (env.listStatuses s.world).1 = .ok statuses ∧
      (cleanup env s).events =
        .listStatuses (.ok statuses) ::
          ((statuses.filter fun st => decide (st.id ∉ s.touchedIDs)).map
            fun st => .destroyStatus st.id none) ++ [.resetRestartBackoff] := by
  unfold cleanup at hok ⊢
  cases hl : (env.listStatuses s.world).1 with
  | err e => simp [hl] at hok
  | ok statuses =>
    simp only [hl] at hok ⊢
    refine ⟨statuses, rfl, ?_⟩
    obtain ⟨h1, _⟩ := (Out.andThen_err_eq_none _ _).mp hok
    have h0 : (Out.andThen (⟨none, { s with world := (env.listStatuses s.world).2 },
        [.listStatuses (.ok statuses)]⟩ : Out (EtcState W))
        (forEach (destroyStep env) statuses)).err =
        (forEach (destroyStep env) statuses { s with world := (env.listStatuses s.world).2 }).err :=
      Out.andThen_err_of_ok _ _ rfl
    rw [h0] at h1
    rw [Out.andThen_events_of_ok _ _ (h0.trans h1), Out.andThen_events_of_ok _ _ rfl,
      (destroyLoop_facts env statuses _).2.2.2 h1]
    simp

theorem cleanup_facts (env : EtcEnv W) (s : EtcState W) :
    (cleanup env s).st.touchedIDs = s.touchedIDs ∧
    (cleanup env s).st.bindMounts = s.bindMounts ∧
    (∀ e ∈ (cleanup env s).events, e.isCleanupCall = true) ∧
    (∀ id r, Event.destroyStatus id r ∈ (cleanup env s).events → id ∉ s.touchedIDs) := by
  unfold cleanup
  cases hl : (env.listStatuses s.world).1 with
  | err e => simp [hl, Event.isCleanupCall]
  | ok statuses =>
    simp only [hl]
    have hd := destroyLoop_facts env statuses { s with world := (env.listStatuses s.world).2 }
    refine ⟨?_, ?_, ?_, ?_⟩
    · refine Out.andThen_st_rel (fun a b => b.touchedIDs = a.touchedIDs)
        (fun _ _ _ h₁ h₂ => by beta_reduce at *; exact h₂.trans h₁) s _ _
        (Out.andThen_st_rel (fun a b => b.touchedIDs = a.touchedIDs)
          (fun _ _ _ h₁ h₂ => by beta_reduce at *; exact h₂.trans h₁) s _ _ ?_ ?_) ?_
      · rfl
      · intro t; exact (destroyLoop_facts env statuses t).1
      · intro t; rfl
    · refine Out.andThen_st_rel (fun a b => b.bindMounts = a.bindMounts)
        (fun _ _ _ h₁ h₂ => by beta_reduce at *; exact h₂.trans h₁) s _ _
        (Out.andThen_st_rel (fun a b => b.bindMounts = a.bindMounts)
          (fun _ _ _ h₁ h₂ => by beta_reduce at *; exact h₂.trans h₁) s _ _ ?_ ?_) ?_
      · rfl
      · intro t; exact (destroyLoop_facts env statuses t).2.1
      · intro t; rfl
    · intro e he
      simp only [Out.mem_andThen_events] at he
      rcases he with (he | ⟨_, he⟩) | ⟨_, he⟩
      · simp at he; subst he; rfl
      · obtain ⟨st, r, _, hr, _⟩ := hd.2.2.1 e he
        subst hr; rfl
      · simp at he; subst he; rfl
    · intro id r he
      simp only [Out.mem_andThen_events] at he
      rcases he with (he | ⟨_, he⟩) | ⟨_, he⟩
      · simp at he
      · obtain ⟨st, r', _, hr, hn⟩ := hd.2.2.1 _ he
        simp at hr
        rw [hr.1]
        exact hn
      · simp at he

theorem pass_eq (env : EtcEnv W) (etcPath : String) (s : EtcState W) (list : List EtcFileSpec)
    (h : (env.listSpecs s.world).1 = .ok list) :
    (pass env etcPath s).events = .listSpecs (.ok list) :: (passOn env etcPath list (afterList env s)).events ∧
    (pass env etcPath s).err = (passOn env etcPath list (afterList env s)).err ∧
    (pass env etcPath s).st = (passOn env etcPath list (afterList env s)).st := by
  unfold pass
  simp only [h]
  refine ⟨?_, ?_, ?_⟩
  · rw [Out.andThen_events_of_ok _ _ rfl]; rfl
  · rw [Out.andThen_err_of_ok _ _ rfl]; rfl
  · rw [Out.andThen_st_of_ok _ _ rfl]; rfl

end EtcFileController

namespace EtcFileController

/-- The three ways a pass goes once the specs are listed: the finalizer loop
fails; the second loop fails; both loops end and the cleanup runs. -/
theorem passOn_cases (env : EtcEnv W) (etcPath : String) (list : List EtcFileSpec) (s : EtcState W) :
    ((finalized env list s).err ≠ none ∧ passOn env etcPath list s = finalized env list s) ∨
    ((finalized env list s).err = none ∧ (applied env etcPath list s).err ≠ none ∧
      (passOn env etcPath list s).events =
        (finalized env list s).events ++ (applied env etcPath list s).events ∧
      (passOn env etcPath list s).err = (applied env etcPath list s).err ∧
      (passOn env etcPath list s).st = (applied env etcPath list s).st) ∨
    ((finalized env list s).err = none ∧ (applied env etcPath list s).err = none ∧
      (passOn env etcPath list s).events =
        (finalized env list s).events ++ (applied env etcPath list s).events ++
          (cleanup env (applied env etcPath list s).st).events ∧
      (passOn env etcPath list s).err = (cleanup env (applied env etcPath list s).st).err ∧
      (passOn env etcPath list s).st = (cleanup env (applied env etcPath list s).st).st) := by
  unfold passOn
  by_cases h1 : (finalized env list s).err = none
  · right
    have e12 : ((forEach (addFinalizerStep env) list s).andThen fun s1 =>
        forEach (applySpec env etcPath) list { s1 with touchedIDs := [] }).events =
        (finalized env list s).events ++ (applied env etcPath list s).events :=
      Out.andThen_events_of_ok _ _ h1
    have r12 : ((forEach (addFinalizerStep env) list s).andThen fun s1 =>
        forEach (applySpec env etcPath) list { s1 with touchedIDs := [] }).err =
        (applied env etcPath list s).err :=
      Out.andThen_err_of_ok _ _ h1
    have s12 : ((forEach (addFinalizerStep env) list s).andThen fun s1 =>
        forEach (applySpec env etcPath) list { s1 with touchedIDs := [] }).st =
        (applied env etcPath list s).st :=
      Out.andThen_st_of_ok _ _ h1
    by_cases h2 : (applied env etcPath list s).err = none
    · right
      refine ⟨h1, h2, ?_, ?_, ?_⟩
      · rw [Out.andThen_events_of_ok _ _ (r12.trans h2), e12, s12]
      · rw [Out.andThen_err_of_ok _ _ (r12.trans h2), s12]
      · rw [Out.andThen_st_of_ok _ _ (r12.trans h2), s12]
    · left
      have h2' : ((forEach (addFinalizerStep env) list s).andThen fun s1 =>
          forEach (applySpec env etcPath) list { s1 with touchedIDs := [] }).err ≠ none := by
        rw [r12]; exact h2
      rw [Out.andThen_of_err _ _ h2']
      exact ⟨h1, h2, e12, r12, s12⟩
  · left
    refine ⟨h1, ?_⟩
    have h1' : (forEach (addFinalizerStep env) list s).err ≠ none := h1
    rw [Out.andThen_of_err _ _ (by rw [Out.andThen_of_err _ _ h1']; exact h1'),
      Out.andThen_of_err _ _ h1']
    rfl

theorem applied_events (env : EtcEnv W) (etcPath : String) (list : List EtcFileSpec) (s : EtcState W) :
    ∀ e ∈ (applied env etcPath list s).events,
      ∃ spec ∈ list, e.isApplyOf (env.join etcPath spec.id) spec.id = true ∧
        (e.isTeardownCall = true ↔ spec.phase = .tearingDown) :=
  forEach_events_forall _
    (fun e => ∃ spec ∈ list, e.isApplyOf (env.join etcPath spec.id) spec.id = true ∧
        (e.isTeardownCall = true ↔ spec.phase = .tearingDown)) list
    (fun x hx t e he => ⟨x, hx, applySpec_events env etcPath x t e he⟩) _

theorem isApplyOf_not_addFinalizer {p : String} {i : ID} {e : Event}
    (h : e.isApplyOf p i = true) : ∀ id name r, e ≠ .addFinalizer id name r := by
  intro id name r he
  subst he
  simp [Event.isApplyOf] at h

theorem isCleanupCall_props {e : Event} (h : e.isCleanupCall = true) :
    (∀ id name r, e ≠ .addFinalizer id name r) ∧ (∀ p i, e.isApplyOf p i = false) ∧
    e.isTeardownCall = false := by
  cases e <;> simp [Event.isCleanupCall] at h <;> simp [Event.isApplyOf, Event.isTeardownCall]

/-- A pass that returns an error makes `Run` return that error. -/
theorem run_returns_of_pass_err (env : EtcEnv W) (etcPath : String) (s : EtcState W)
    (ws : List Wake) (h : (pass env etcPath s).err ≠ none) :
    ∃ e, (Run env etcPath (.event :: ws) s).result = .returned (some e) := by
  cases he : (pass env etcPath s).err with
  | none => exact absurd he h
  | some e => exact ⟨e, by simp [Run, he]⟩

/-- C2: in a pass of `EtcFileController.Run` that listed `list`, every call
with a side effect (bind mount creation, file write or removal, unmount,
label, status upsert or destruction, finalizer removal) has before it a
successful `AddFinalizer` for every listed spec in phase Running; and if
some `AddFinalizer` call fails, `Run` returns a non-nil error and the pass
has made no call with a side effect. -/
theorem addFinalizer_before_side_effects (env : EtcEnv W) (etcPath : String) (s : EtcState W)
    (list : List EtcFileSpec) (h : (env.listSpecs s.world).1 = .ok list) :
    (∀ pre e post, (pass env etcPath s).events = pre ++ e :: post → e.isSideEffect = true →
      ∀ spec ∈ list, spec.phase = .running → Event.addFinalizer spec.id Name none ∈ pre) ∧
    (∀ id err, Event.addFinalizer id Name (some err) ∈ (pass env etcPath s).events →
      (∀ ws, ∃ e, (Run env etcPath (.event :: ws) s).result = .returned (some e)) ∧
      ∀ e ∈ (pass env etcPath s).events, e.isSideEffect = false) := by
  obtain ⟨hev, herr, _⟩ := pass_eq env etcPath s list h
  have hfree : ∀ e ∈ Event.listSpecs (.ok list) :: (finalized env list (afterList env s)).events,
      ¬ e.isSideEffect = true := by
    intro e he
    rcases List.mem_cons.mp he with rfl | he
    · simp [Event.isSideEffect]
    · obtain ⟨id, r, rfl⟩ := addFinalizers_events env list _ e he
      simp [Event.isSideEffect]
  have hfail : ∀ id err, Event.addFinalizer id Name (some err) ∈ (pass env etcPath s).events →
      (finalized env list (afterList env s)).err ≠ none := by
    intro id err hmem hok
    rw [hev] at hmem
    simp only [List.mem_cons, reduceCtorEq, false_or] at hmem
    have hin : Event.addFinalizer id Name (some err) ∈ (finalized env list (afterList env s)).events := by
      rcases passOn_cases env etcPath list (afterList env s) with ⟨h1, _⟩ | ⟨_, _, he, _⟩ | ⟨_, _, he, _⟩
      · exact absurd hok h1
      · rw [he] at hmem
        rcases List.mem_append.mp hmem with hm | hm
        · exact hm
        · obtain ⟨spec, _, ha, _⟩ := applied_events env etcPath list _ _ hm
          exact absurd rfl (isApplyOf_not_addFinalizer ha _ _ _)
      · rw [he] at hmem
        rcases List.mem_append.mp hmem with hm | hm
        · rcases List.mem_append.mp hm with hm | hm
          · exact hm
          · obtain ⟨spec, _, ha, _⟩ := applied_events env etcPath list _ _ hm
            exact absurd rfl (isApplyOf_not_addFinalizer ha _ _ _)
        · exact absurd rfl ((isCleanupCall_props ((cleanup_facts env _).2.2.1 _ hm)).1 _ _ _)
    obtain ⟨id', hid⟩ := addFinalizers_ok_events env list _ hok _ hin
    simp at hid
  constructor
  · intro pre e post hsplit hside spec hspec hrun
    rw [hev] at hsplit
    rcases passOn_cases env etcPath list (afterList env s) with ⟨_, h1⟩ | ⟨h1, _, he, _⟩ | ⟨h1, _, he, _⟩
    · rw [h1] at hsplit
      have : e ∈ Event.listSpecs (.ok list) :: (finalized env list (afterList env s)).events := by
        rw [hsplit]; simp
      exact absurd hside (hfree e this)
    · rw [he, ← List.cons_append] at hsplit
      obtain ⟨mid, hpre, _⟩ := prefix_of_free hfree hsplit hside
      rw [hpre]
      exact List.mem_append_left _ (List.mem_cons_of_mem _ (addFinalizers_ok_mem env list _ h1 spec hspec hrun))
    · rw [he, List.append_assoc, ← List.cons_append] at hsplit
      obtain ⟨mid, hpre, _⟩ := prefix_of_free hfree hsplit hside
      rw [hpre]
      exact List.mem_append_left _ (List.mem_cons_of_mem _ (addFinalizers_ok_mem env list _ h1 spec hspec hrun))
  · intro id err hmem
    have h1 := hfail id err hmem
    rcases passOn_cases env etcPath list (afterList env s) with ⟨_, hp⟩ | ⟨h1', _⟩ | ⟨h1', _⟩
    · refine ⟨fun ws => run_returns_of_pass_err env etcPath s ws (by rw [herr, hp]; exact h1), ?_⟩
      intro e he
      rw [hev, hp] at he
      simpa using hfree e he
    · exact absurd h1' h1
    · exact absurd h1' h1

/-- Witness for C2: the pass over `hostsStart` in the reference world. -/
theorem addFinalizer_before_side_effects_witness :
    (refEnv.listSpecs hostsStart.world).1 = .ok [hostsSpec] ∧
    Event.addFinalizer "hosts" Name none ∈
      [Event.listSpecs (.ok [hostsSpec]), Event.addFinalizer "hosts" Name none] :=
  ⟨by decide,
   (addFinalizer_before_side_effects refEnv "/etc" hostsStart [hostsSpec] (by decide)).1
     [.listSpecs (.ok [hostsSpec]), .addFinalizer "hosts" Name none]
     (.mkdirAll "/etc" 0o755 none)
     [.openFile "/etc/hosts" 0o644 none, .closeFile "/etc/hosts" none,
      .bindReadonly "/anon//etc/hosts" "/etc/hosts" none, .xfsReadFile "/etc/hosts" (.ok []),
      .xfsWriteFile "/etc/hosts" [49, 50] 0o644 none, .setLabel "/etc/hosts" "etc_t" none,
      .modifyStatus "hosts" "1" none, .listStatuses (.ok [⟨"hosts", "1"⟩]), .resetRestartBackoff]
     (by decide) (by decide) hostsSpec (by decide) (by decide)⟩

end EtcFileController

/-! ## Loops over lists with pairwise distinct keys -/

theorem key_eq_of_nodup {α κ : Type} (key : α → κ) {xs : List α} (hnd : (xs.map key).Nodup)
    {x y : α} (hx : x ∈ xs) (hy : y ∈ xs) (h : key x = key y) : x = y :=
  List.inj_on_of_nodup_map hnd hx hy h

/-- In a loop over elements with distinct keys, if only the iteration of key
`k` makes `Q` calls and that iteration makes a `P` call before each of
them, so does the loop. -/
theorem forEach_before_keyed {α σ κ : Type} (body : α → σ → Out σ) (P Q : Event → Prop)
    (key : α → κ) (k : κ) (I : σ → Prop) (xs : List α)
    (hfree : ∀ x ∈ xs, key x ≠ k → ∀ s, ∀ e ∈ (body x s).events, ¬ Q e)
    (hinv : ∀ x ∈ xs, key x ≠ k → ∀ s, I s → I (body x s).st)
    (hown : ∀ x ∈ xs, key x = k → ∀ s, I s → Before P Q (body x s).events)
    (hnd : (xs.map key).Nodup) :
    ∀ s, I s → Before P Q (forEach body xs s).events := by
  induction xs with
  | nil => intro s _; exact Before.of_free (by simp [forEach_nil])
  | cons x xs ih =>
    intro s hs
    rw [forEach_cons]
    have hnd' : (xs.map key).Nodup := (List.nodup_cons.mp (by simpa using hnd)).2
    have hnot : key x ∉ xs.map key := (List.nodup_cons.mp (by simpa using hnd)).1
    by_cases hk : key x = k
    · apply Before.andThen
      left
      refine ⟨hown x (List.mem_cons_self _ _) hk s hs, ?_⟩
      refine forEach_events_forall body (fun e => ¬ Q e) xs ?_ _
      intro y hy t e he
      refine hfree y (List.mem_cons_of_mem _ hy) ?_ t e he
      intro hyk
      exact hnot (List.mem_map.mpr ⟨y, hy, hyk.trans hk.symm⟩)
    · apply Before.andThen
      right
      refine ⟨hfree x (List.mem_cons_self _ _) hk s, ?_⟩
      exact ih (fun y hy => hfree y (List.mem_cons_of_mem _ hy))
        (fun y hy => hinv y (List.mem_cons_of_mem _ hy))
        (fun y hy => hown y (List.mem_cons_of_mem _ hy)) hnd' _
        (hinv x (List.mem_cons_self _ _) hk s hs)

/-- In a loop over elements with distinct keys, if only the iteration of key
`k` makes `F` or `G` calls, and that iteration fails without a `G` call
whenever it makes an `F` call, then a loop with an `F` call fails without
a `G` call. -/
theorem forEach_fatal_keyed {α σ κ : Type} (body : α → σ → Out σ) (F G : Event → Prop)
    (key : α → κ) (k : κ) (xs : List α)
    (hfree : ∀ x ∈ xs, key x ≠ k → ∀ s, ∀ e ∈ (body x s).events, ¬ F e ∧ ¬ G e)
    (hown : ∀ x ∈ xs, key x = k → ∀ s, (∃ e ∈ (body x s).events, F e) →
      (body x s).err ≠ none ∧ ∀ e ∈ (body x s).events, ¬ G e)
    (hnd : (xs.map key).Nodup) :
    ∀ s, (∃ e ∈ (forEach body xs s).events, F e) →
      (forEach body xs s).err ≠ none ∧ ∀ e ∈ (forEach body xs s).events, ¬ G e := by
  induction xs with
  | nil => intro s ⟨e, he, _⟩; simp [forEach_nil] at he
  | cons x xs ih =>
    intro s ⟨e, he, hF⟩
    have hnd' : (xs.map key).Nodup := (List.nodup_cons.mp (by simpa using hnd)).2
    have hnot : key x ∉ xs.map key := (List.nodup_cons.mp (by simpa using hnd)).1
    rw [forEach_cons] at he ⊢
    by_cases hok : (body x s).err = none
    · rw [Out.andThen_events_of_ok _ _ hok] at he ⊢
      rw [Out.andThen_err_of_ok _ _ hok]
      by_cases hk : key x = k
      · exfalso
        rcases List.mem_append.mp he with he | he
        · exact (hown x (List.mem_cons_self _ _) hk s ⟨e, he, hF⟩).1 hok
        · refine (forEach_events_forall body (fun e => ¬ F e) xs ?_ _ e he) hF
          intro y hy t e' he'
          refine (hfree y (List.mem_cons_of_mem _ hy) ?_ t e' he').1
          intro hyk
          exact hnot (List.mem_map.mpr ⟨y, hy, hyk.trans hk.symm⟩)
      · rcases List.mem_append.mp he with he | he
        · exact absurd hF (hfree x (List.mem_cons_self _ _) hk s e he).1
        · obtain ⟨h1, h2⟩ := ih (fun y hy => hfree y (List.mem_cons_of_mem _ hy))
            (fun y hy => hown y (List.mem_cons_of_mem _ hy)) hnd' _ ⟨e, he, hF⟩
          refine ⟨h1, ?_⟩
          intro e' he'
          rcases List.mem_append.mp he' with he' | he'
          · exact (hfree x (List.mem_cons_self _ _) hk s e' he').2
          · exact h2 e' he'
    · rw [Out.andThen_of_err _ _ hok] at he ⊢
      by_cases hk : key x = k
      · exact hown x (List.mem_cons_self _ _) hk s ⟨e, he, hF⟩
      · exact absurd hF (hfree x (List.mem_cons_self _ _) hk s e he).1

namespace EtcFileController

/-! ## C1: the finalizer is removed only after the undo -/

theorem teardown_removeFinalizer_after_remove (env : EtcEnv W) (etcPath : String)
    (spec : EtcFileSpec) (s : EtcState W) (hp : spec.phase = .tearingDown) :
    Before (fun y => ∃ r, y = .osRemove (env.join etcPath spec.id) r ∧ undone r = true)
      (fun x => ∃ r, x = .removeFinalizer spec.id Name r) (applySpec env etcPath spec s).events := by
  rw [applySpec_teardown env etcPath spec s hp]
  apply Before.andThen_of_left
  · apply Before.of_free
    intro e he
    simp only [Out.mem_andThen_events] at he
    rcases he with he | ⟨_, he⟩
    · obtain ⟨r, rfl, _⟩ := unmountStep_events env _ _ s e he
      simp
    · rw [(removeStep_events env _ _).1] at he
      simp at he; subst he; simp
  · intro hok
    obtain ⟨h1, h2⟩ := (Out.andThen_err_eq_none _ _).mp hok
    refine ⟨.osRemove (env.join etcPath spec.id) _, ?_, _, rfl, (removeStep_events env _ _).2.1.mp h2⟩
    rw [Out.mem_andThen_events]
    right
    exact ⟨h1, by rw [(removeStep_events env _ _).1]; simp⟩

theorem teardown_removeFinalizer_after_unmount (env : EtcEnv W) (etcPath : String)
    (spec : EtcFileSpec) (s : EtcState W) (hp : spec.phase = .tearingDown)
    (hm : spec.id ∈ s.bindMounts) :
    Before (fun y => ∃ r, y = .unmount (env.join etcPath spec.id) r ∧ undone r = true)
      (fun x => ∃ r, x = .removeFinalizer spec.id Name r) (applySpec env etcPath spec s).events := by
  rw [applySpec_teardown env etcPath spec s hp]
  apply Before.andThen_of_left
  · apply Before.of_free
    intro e he
    simp only [Out.mem_andThen_events] at he
    rcases he with he | ⟨_, he⟩
    · obtain ⟨r, rfl, _⟩ := unmountStep_events env _ _ s e he
      simp
    · rw [(removeStep_events env _ _).1] at he
      simp at he; subst he; simp
  · intro hok
    obtain ⟨h1, _⟩ := (Out.andThen_err_eq_none _ _).mp hok
    obtain ⟨r, hr, hu⟩ := unmountStep_ok_mem env _ _ s hm h1
    exact ⟨_, (Out.mem_andThen_events _ _ _).mpr (Or.inl hr), r, rfl, hu⟩

theorem teardown_fatal (env : EtcEnv W) (etcPath : String) (spec : EtcFileSpec) (s : EtcState W)
    (hp : spec.phase = .tearingDown)
    (hF : ∃ e ∈ (applySpec env etcPath spec s).events, ∃ r, undone r = false ∧
      (e = .unmount (env.join etcPath spec.id) r ∨ e = .osRemove (env.join etcPath spec.id) r)) :
    (applySpec env etcPath spec s).err ≠ none ∧
    ∀ e ∈ (applySpec env etcPath spec s).events, ¬ ∃ r, e = .removeFinalizer spec.id Name r := by
  obtain ⟨e, he, r, hr, hcase⟩ := hF
  rw [applySpec_teardown env etcPath spec s hp] at he ⊢
  have hUfree : ∀ e ∈ (unmountStep env spec.id (env.join etcPath spec.id) s).events,
      ¬ ∃ r, e = .removeFinalizer spec.id Name r := by
    intro e he
    obtain ⟨r, rfl, _⟩ := unmountStep_events env _ _ s e he
    simp
  simp only [Out.mem_andThen_events] at he
  rcases he with (he | ⟨hU, he⟩) | ⟨hUR, he⟩
  · obtain ⟨r', hr', _, hiff⟩ := unmountStep_events env _ _ s e he
    have hrr : r' = r := by
      rcases hcase with h | h <;> rw [h] at hr' <;> simp at hr'
      exact hr'.symm
    subst hrr
    have hU : (unmountStep env spec.id (env.join etcPath spec.id) s).err ≠ none := by
      intro h
      rw [hiff.mp h] at hr
      cases hr
    rw [Out.andThen_of_err _ _ (by rw [Out.andThen_of_err _ _ hU]; exact hU),
      Out.andThen_of_err _ _ hU]
    exact ⟨hU, hUfree⟩
  · rw [(removeStep_events env _ _).1] at he
    simp at he
    have hrr : (env.osRemove (env.join etcPath spec.id)
        (unmountStep env spec.id (env.join etcPath spec.id) s).st.world).1 = r := by
      rcases hcase with h | h <;> rw [h] at he <;> simp at he
      exact he.symm
    have hR : (removeStep env (env.join etcPath spec.id)
        (unmountStep env spec.id (env.join etcPath spec.id) s).st).err ≠ none := by
      intro h
      rw [(removeStep_events env _ _).2.1, hrr, hr] at h
      cases h
    have hUR : ((unmountStep env spec.id (env.join etcPath spec.id) s).andThen
        (removeStep env (env.join etcPath spec.id))).err ≠ none := by
      rw [Out.andThen_err_of_ok _ _ hU]; exact hR
    rw [Out.andThen_of_err _ _ hUR]
    refine ⟨hUR, ?_⟩
    intro e' he'
    rw [Out.mem_andThen_events] at he'
    rcases he' with he' | ⟨_, he'⟩
    · exact hUfree e' he'
    · rw [(removeStep_events env _ _).1] at he'
      simp at he'; subst he'; simp
  · rw [(removeFinalizerStep_events env _ _).1] at he
    simp at he
    rcases hcase with h | h <;> rw [h] at he <;> simp at he

end EtcFileController

namespace EtcFileController

theorem isApplyOf_other {p' p : String} {id' id : ID} {e : Event}
    (h : e.isApplyOf p' id' = true) (hp : p' ≠ p) (hid : id' ≠ id) :
    (∀ r, e ≠ .unmount p r) ∧ (∀ r, e ≠ .osRemove p r) ∧ (∀ n r, e ≠ .removeFinalizer id n r) := by
  refine ⟨?_, ?_, ?_⟩
  · intro r he; subst he; simp [Event.isApplyOf] at h; exact hp h.symm
  · intro r he; subst he; simp [Event.isApplyOf] at h; exact hp h.symm
  · intro n r he; subst he; simp [Event.isApplyOf] at h; exact hid h.symm

theorem id_ne_of_path_ne (env : EtcEnv W) (etcPath : String) {x spec : EtcFileSpec}
    (h : env.join etcPath x.id ≠ env.join etcPath spec.id) : x.id ≠ spec.id :=
  fun hid => h (by rw [hid])

/-- Precedence in the second loop lifts to the whole pass when the first
loop and the cleanup make no `Q` call. -/
theorem pass_before (env : EtcEnv W) (etcPath : String) (s : EtcState W) (list : List EtcFileSpec)
    (h : (env.listSpecs s.world).1 = .ok list) (P Q : Event → Prop)
    (hQ : ∀ e, Q e → e.isTeardownCall = true)
    (hB : Before P Q (applied env etcPath list (afterList env s)).events) :
    Before P Q (pass env etcPath s).events := by
  obtain ⟨hev, _, _⟩ := pass_eq env etcPath s list h
  rw [hev]
  have hl1 : ∀ e ∈ Event.listSpecs (.ok list) :: (finalized env list (afterList env s)).events, ¬ Q e := by
    intro e he hq
    have := hQ e hq
    rcases List.mem_cons.mp he with rfl | he
    · simp [Event.isTeardownCall] at this
    · obtain ⟨id, r, rfl⟩ := addFinalizers_events env list _ e he
      simp [Event.isTeardownCall] at this
  have hc : ∀ e ∈ (cleanup env (applied env etcPath list (afterList env s)).st).events, ¬ Q e := by
    intro e he hq
    have h1 := (isCleanupCall_props ((cleanup_facts env _).2.2.1 e he)).2.2
    rw [hQ e hq] at h1
    cases h1
  rcases passOn_cases env etcPath list (afterList env s) with ⟨_, hp⟩ | ⟨_, _, he, _⟩ | ⟨_, _, he, _⟩
  · rw [hp]
    exact Before.of_free hl1
  · rw [he, ← List.cons_append]
    exact Before.append_left_free hl1 hB
  · rw [he, List.append_assoc, ← List.cons_append]
    exact Before.append_left_free hl1 (Before.append_right_free hB hc)

end EtcFileController

namespace EtcFileController

/-! ## C3: the touched-set and the orphan cleanup -/

theorem applyLoop_touched_mono (env : EtcEnv W) (etcPath : String) (xs : List EtcFileSpec)
    (x : ID) (s : EtcState W) (hx : x ∈ s.touchedIDs) :
    x ∈ (forEach (applySpec env etcPath) xs s).st.touchedIDs :=
  forEach_invariant (applySpec env etcPath) (fun t => x ∈ t.touchedIDs) xs
    (fun y _ t ht => (applySpec_touched env etcPath y t x).1 ht) s hx

theorem applyLoop_touched_sub (env : EtcEnv W) (etcPath : String) (xs : List EtcFileSpec)
    (x : ID) (s : EtcState W) :
    x ∈ (forEach (applySpec env etcPath) xs s).st.touchedIDs →
      x ∈ s.touchedIDs ∨ ∃ spec ∈ xs, spec.phase = .running ∧ spec.id = x :=
  forEach_invariant (applySpec env etcPath)
    (fun t => x ∈ t.touchedIDs → x ∈ s.touchedIDs ∨ ∃ spec ∈ xs, spec.phase = .running ∧ spec.id = x)
    xs
    (fun y hy t ht hin => by
      rcases (applySpec_touched env etcPath y t x).2 hin with h | ⟨h, hp⟩
      · exact ht h
      · exact Or.inr ⟨y, hy, hp, h.symm⟩) s Or.inl

theorem applyLoop_touched_mem (env : EtcEnv W) (etcPath : String) (xs : List EtcFileSpec) :
    ∀ s : EtcState W, (forEach (applySpec env etcPath) xs s).err = none →
      ∀ spec ∈ xs, spec.phase = .running →
        spec.id ∈ (forEach (applySpec env etcPath) xs s).st.touchedIDs := by
  induction xs with
  | nil => intro s _ spec hs; simp at hs
  | cons y ys ih =>
    intro s hok spec hs hp
    obtain ⟨hy, hrest⟩ := (forEach_err_cons _ y ys s).mp hok
    rw [forEach_cons, Out.andThen_st_of_ok _ _ hy]
    rcases List.mem_cons.mp hs with rfl | hs
    · apply applyLoop_touched_mono
      rw [(applySpec_running_ok env etcPath spec s hp hy).2]
      exact List.mem_cons_self _ _
    · exact ih _ hrest spec hs hp

/-- The trace of a pass that listed `list` and ends without error: the
listing, the finalizer loop, the second loop, then the status listing, the
destruction of the untouched statuses and the backoff reset. -/
theorem pass_ok_shape (env : EtcEnv W) (etcPath : String) (s : EtcState W)
    (list : List EtcFileSpec) (h : (env.listSpecs s.world).1 = .ok list)
    (hok : (pass env etcPath s).err = none) :
    (applied env etcPath list (afterList env s)).err = none ∧
    (pass env etcPath s).st.touchedIDs = (applied env etcPath list (afterList env s)).st.touchedIDs ∧
    ∃ statuses, (pass env etcPath s).events =
      .listSpecs (.ok list) :: ((finalized env list (afterList env s)).events ++
        (applied env etcPath list (afterList env s)).events ++
        (.listStatuses (.ok statuses) ::
          ((statuses.filter fun st =>
              decide (st.id ∉ (applied env etcPath list (afterList env s)).st.touchedIDs)).map
            fun st => .destroyStatus st.id none) ++ [.resetRestartBackoff])) := by
  obtain ⟨hev, herr, hst⟩ := pass_eq env etcPath s list h
  rw [herr] at hok
  rcases passOn_cases env etcPath list (afterList env s) with
    ⟨h1, hp⟩ | ⟨_, h2, _, herr', _⟩ | ⟨_, h2, he, herr', hst'⟩
  · rw [hp] at hok; exact absurd hok h1
  · rw [herr'] at hok; exact absurd hok h2
  · rw [herr'] at hok
    obtain ⟨statuses, _, hce⟩ := cleanup_ok env _ hok
    refine ⟨h2, by rw [hst, hst', (cleanup_facts env _).1], statuses, ?_⟩
    rw [hev, he, hce]

/-- C3: in a pass of `EtcFileController.Run` that listed `list` and ends
without error, the touched-set is exactly the set of ids of the listed
specs in phase Running; the pass lists the statuses once and its
`Destroy` calls are, in order, exactly the listed statuses whose id is not
in that set, each succeeding; no status with the id of a Running spec is
destroyed. -/
theorem touched_set_and_orphans (env : EtcEnv W) (etcPath : String) (s : EtcState W)
    (list : List EtcFileSpec) (h : (env.listSpecs s.world).1 = .ok list)
    (hok : (pass env etcPath s).err = none) :
    (∀ x, x ∈ (pass env etcPath s).st.touchedIDs ↔
      ∃ spec ∈ list, spec.phase = .running ∧ spec.id = x) ∧
    (∃ statuses, Event.listStatuses (.ok statuses) ∈ (pass env etcPath s).events ∧
      (pass env etcPath s).events.filterMap Event.destroyed =
        (statuses.filter fun st => decide (st.id ∉ (pass env etcPath s).st.touchedIDs)).map
          fun st => (st.id, none)) ∧
    (∀ spec ∈ list, spec.phase = .running →
      ∀ r, Event.destroyStatus spec.id r ∉ (pass env etcPath s).events) := by
  obtain ⟨h2, hT, statuses, hev⟩ := pass_ok_shape env etcPath s list h hok
  have htouched : ∀ x, x ∈ (pass env etcPath s).st.touchedIDs ↔
      ∃ spec ∈ list, spec.phase = .running ∧ spec.id = x := by
    intro x
    rw [hT]
    constructor
    · intro hx
      rcases applyLoop_touched_sub env etcPath list x _ hx with hx | hx
      · simp at hx
      · exact hx
    · rintro ⟨spec, hs, hp, rfl⟩
      exact applyLoop_touched_mem env etcPath list _ h2 spec hs hp
  have hL1 : (finalized env list (afterList env s)).events.filterMap Event.destroyed = [] := by
    rw [List.filterMap_eq_nil_iff]
    intro e he
    obtain ⟨id, r, rfl⟩ := addFinalizers_events env list _ e he
    rfl
  have hL2 : (applied env etcPath list (afterList env s)).events.filterMap Event.destroyed = [] := by
    rw [List.filterMap_eq_nil_iff]
    intro e he
    obtain ⟨spec, _, ha, _⟩ := applied_events env etcPath list _ e he
    cases e <;> simp [Event.isApplyOf] at ha <;> rfl
  refine ⟨htouched, ⟨statuses, ?_, ?_⟩, ?_⟩
  · rw [hev]
    simp
  · rw [hev, hT]
    simp only [List.filterMap_cons, List.filterMap_append, hL1, hL2, Event.destroyed,
      List.filterMap_nil, List.nil_append, List.append_nil, List.filterMap_map]
    rw [← List.filterMap_eq_map]
    rfl
  · intro spec hs hp r hmem
    have hin := applyLoop_touched_mem env etcPath list _ h2 spec hs hp
    rw [hev] at hmem
    simp only [List.mem_cons, reduceCtorEq, false_or, List.mem_append, List.mem_map,
      List.mem_filter, List.mem_singleton, or_false] at hmem
    rcases hmem with (hm | hm) | hm | hm
    · obtain ⟨id, r', hx⟩ := addFinalizers_events env list _ _ hm
      simp at hx
    · obtain ⟨sp, _, ha, _⟩ := applied_events env etcPath list _ _ hm
      simp [Event.isApplyOf] at ha
    · obtain ⟨st, ⟨_, hnot⟩, hx⟩ := hm
      simp only [Event.destroyStatus.injEq] at hx
      rw [hx.1] at hnot
      simp at hnot
      exact hnot hin
    · simp at hm

/-- Witness for C3: a pass in the reference world that lists the Running spec
`hosts`, its status and the status `resolv.conf` of no listed spec.  The
pass destroys `resolv.conf` and only it; the status `hosts` is upserted and
kept. -/
theorem touched_set_and_orphans_witness :
    (refEnv.listSpecs orphanStart.world).1 = .ok [hostsSpec] ∧
    (pass refEnv "/etc" orphanStart).err = none ∧
    (pass refEnv "/etc" orphanStart).st.touchedIDs = ["hosts"] ∧
    Event.listStatuses (.ok [⟨"hosts", "1"⟩, ⟨"resolv.conf", "1"⟩]) ∈
      (pass refEnv "/etc" orphanStart).events ∧
    (pass refEnv "/etc" orphanStart).events.filterMap Event.destroyed = [("resolv.conf", none)] ∧
    (pass refEnv "/etc" orphanStart).st.world.statuses = [⟨"hosts", "1"⟩] ∧
    ((∀ x, x ∈ (pass refEnv "/etc" orphanStart).st.touchedIDs ↔
        ∃ spec ∈ [hostsSpec], spec.phase = .running ∧ spec.id = x) ∧
      (∃ statuses, Event.listStatuses (.ok statuses) ∈ (pass refEnv "/etc" orphanStart).events ∧
        (pass refEnv "/etc" orphanStart).events.filterMap Event.destroyed =
          (statuses.filter fun st =>
              decide (st.id ∉ (pass refEnv "/etc" orphanStart).st.touchedIDs)).map
            fun st => (st.id, none)) ∧
      (∀ spec ∈ [hostsSpec], spec.phase = .running →
        ∀ r, Event.destroyStatus spec.id r ∉ (pass refEnv "/etc" orphanStart).events)) :=
  ⟨by decide, by decide, by decide, by decide, by decide, by decide,
   touched_set_and_orphans refEnv "/etc" orphanStart [hostsSpec] (by decide) (by decide)⟩

end EtcFileController

namespace EtcFileController

/-! ## What the pass after an apply removes -/

theorem pass_bindMounts_other (env : EtcEnv W) (etcPath : String) (s : EtcState W)
    (list : List EtcFileSpec) (id : ID) (h : (env.listSpecs s.world).1 = .ok list)
    (habs : ∀ spec ∈ list, spec.id ≠ id) :
    id ∈ (pass env etcPath s).st.bindMounts ↔ id ∈ s.bindMounts := by
  obtain ⟨_, _, hst⟩ := pass_eq env etcPath s list h
  have h1 : (finalized env list (afterList env s)).st.bindMounts = s.bindMounts := by
    rw [finalized, addFinalizers_bindMounts]; rfl
  have h2 : id ∈ (applied env etcPath list (afterList env s)).st.bindMounts ↔ id ∈ s.bindMounts := by
    rw [← h1]
    exact forEach_invariant (applySpec env etcPath)
      (fun t => id ∈ t.bindMounts ↔ id ∈ (finalized env list (afterList env s)).st.bindMounts) list
      (fun y hy t ht =>
        (applySpec_bindMounts_other env etcPath y t id (fun hid => habs y hy hid.symm)).trans ht)
      _ Iff.rfl
  rw [hst]
  rcases passOn_cases env etcPath list (afterList env s) with
    ⟨_, hp⟩ | ⟨_, _, _, _, hst'⟩ | ⟨_, _, _, _, hst'⟩
  · rw [hp, h1]
  · rw [hst']; exact h2
  · rw [hst', (cleanup_facts env _).2.1]; exact h2

/-- A pass that ends without error destroys every listed status whose id is
not the id of a listed spec in phase Running. -/
theorem pass_destroys_untouched (env : EtcEnv W) (etcPath : String) (s : EtcState W)
    (list : List EtcFileSpec) (id : ID) (h : (env.listSpecs s.world).1 = .ok list)
    (hok : (pass env etcPath s).err = none)
    (habs : ∀ spec ∈ list, spec.phase = .running → spec.id ≠ id)
    (statuses : List EtcFileStatus)
    (hl : Event.listStatuses (.ok statuses) ∈ (pass env etcPath s).events)
    (hst : ∃ st ∈ statuses, st.id = id) :
    Event.destroyStatus id none ∈ (pass env etcPath s).events := by
  obtain ⟨_, _, statuses', hev⟩ := pass_ok_shape env etcPath s list h hok
  have hsame : statuses = statuses' := by
    rw [hev] at hl
    simp only [List.mem_cons, reduceCtorEq, false_or, List.mem_append, List.mem_map,
      List.mem_singleton, or_false, and_false, exists_false] at hl
    rcases hl with (hm | hm) | hm
    · obtain ⟨id', r, hx⟩ := addFinalizers_events env list _ _ hm
      simp at hx
    · obtain ⟨sp, _, ha, _⟩ := applied_events env etcPath list _ _ hm
      simp [Event.isApplyOf] at ha
    · simpa using hm
  subst hsame
  obtain ⟨st, hmem, hid⟩ := hst
  have hnot : st.id ∉ (applied env etcPath list (afterList env s)).st.touchedIDs := by
    intro hx
    rcases applyLoop_touched_sub env etcPath list st.id _ hx with hx | ⟨spec, hs, hp, hx⟩
    · simp at hx
    · exact habs spec hs hp (hx.trans hid)
  rw [hev, ← hid]
  simp only [List.mem_cons, reduceCtorEq, false_or, List.mem_append, List.mem_map,
    List.mem_filter, List.mem_singleton, or_false]
  right
  left
  exact ⟨st, ⟨hmem, by simpa using hnot⟩, rfl⟩

/-- A pass in a state of the reference world in which an applied spec is gone
from the list while the controller still holds its finalizer (the resource
store removes a resource only once its finalizers are gone, so this state
is one the model has and the store does not produce).  The first pass
applies `hosts` (cache entry, bind mount, file, status).  The next pass
sees an empty spec list and ends without error; its only calls are the two
listings, the destruction of the status and the backoff reset.  The cache
entry, the bind mount and the file are still there. -/
theorem vanished_spec_keeps_mount_example :
    (pass refEnv "/etc" hostsStart).err = none ∧
    "hosts" ∈ hostsApplied.bindMounts ∧
    "/etc/hosts" ∈ hostsApplied.world.mounts ∧
    hostsApplied.world.statuses = [⟨"hosts", "1"⟩] ∧
    (pass refEnv "/etc" (withSpecs [] hostsApplied)).err = none ∧
    (pass refEnv "/etc" (withSpecs [] hostsApplied)).events =
      [.listSpecs (.ok []), .listStatuses (.ok [⟨"hosts", "1"⟩]), .destroyStatus "hosts" none,
       .resetRestartBackoff] ∧
    "hosts" ∈ (pass refEnv "/etc" (withSpecs [] hostsApplied)).st.bindMounts ∧
    "/etc/hosts" ∈ (pass refEnv "/etc" (withSpecs [] hostsApplied)).st.world.mounts ∧
    lookupFile "/etc/hosts" (pass refEnv "/etc" (withSpecs [] hostsApplied)).st.world.anonFiles =
      some ⟨[49, 50], 0o644⟩ := by
  decide

/-- What a pass does for an id that no listed spec has: it keeps the entry of
the id in the `bindMounts` cache as it is; when the pass ends without error
it destroys the status with that id, if listed; and it makes no unmount and
no `os.Remove` call for the path of the id, provided no listed spec has
that path. -/
theorem vanished_spec_status_only (env : EtcEnv W) (etcPath : String) (s : EtcState W)
    (list : List EtcFileSpec) (id : ID) (h : (env.listSpecs s.world).1 = .ok list)
    (habs : ∀ spec ∈ list, spec.id ≠ id) :
    (id ∈ (pass env etcPath s).st.bindMounts ↔ id ∈ s.bindMounts) ∧
    ((pass env etcPath s).err = none → ∀ statuses,
      Event.listStatuses (.ok statuses) ∈ (pass env etcPath s).events →
      (∃ st ∈ statuses, st.id = id) →
      Event.destroyStatus id none ∈ (pass env etcPath s).events) ∧
    ((∀ spec ∈ list, env.join etcPath spec.id ≠ env.join etcPath id) →
      ∀ r, Event.unmount (env.join etcPath id) r ∉ (pass env etcPath s).events ∧
        Event.osRemove (env.join etcPath id) r ∉ (pass env etcPath s).events) := by
  refine ⟨pass_bindMounts_other env etcPath s list id h habs, ?_, ?_⟩
  · intro hok statuses hl hst
    exact pass_destroys_untouched env etcPath s list id h hok (fun sp hs _ => habs sp hs)
      statuses hl hst
  · intro hpath r
    obtain ⟨hev, _, _⟩ := pass_eq env etcPath s list h
    have key : ∀ e, (e = Event.unmount (env.join etcPath id) r ∨
        e = Event.osRemove (env.join etcPath id) r) → e ∉ (pass env etcPath s).events := by
      intro e he hmem
      have hT : e.isTeardownCall = true := by rcases he with rfl | rfl <;> rfl
      have o2 : e ∉ (finalized env list (afterList env s)).events := by
        intro hin
        obtain ⟨id', r', hx⟩ := addFinalizers_events env list _ e hin
        rcases he with rfl | rfl <;> simp at hx
      have o3 : e ∉ (applied env etcPath list (afterList env s)).events := by
        intro hin
        obtain ⟨sp, hs, ha, _⟩ := applied_events env etcPath list _ e hin
        have ho := isApplyOf_other ha (hpath sp hs) (habs sp hs)
        rcases he with rfl | rfl
        · exact ho.1 _ rfl
        · exact ho.2.1 _ rfl
      have o4 : e ∉ (cleanup env (applied env etcPath list (afterList env s)).st).events := by
        intro hin
        have := (isCleanupCall_props ((cleanup_facts env _).2.2.1 e hin)).2.2
        rw [hT] at this
        cases this
      rw [hev] at hmem
      rcases List.mem_cons.mp hmem with hm | hm
      · rcases he with rfl | rfl <;> simp at hm
      · rcases passOn_cases env etcPath list (afterList env s) with
          ⟨_, hp'⟩ | ⟨_, _, he', _⟩ | ⟨_, _, he', _⟩
        · rw [hp'] at hm; exact o2 hm
        · rw [he'] at hm
          rcases List.mem_append.mp hm with hm | hm
          · exact o2 hm
          · exact o3 hm
        · rw [he'] at hm
          rcases List.mem_append.mp hm with hm | hm
          · rcases List.mem_append.mp hm with hm | hm
            · exact o2 hm
            · exact o3 hm
          · exact o4 hm
    exact ⟨key _ (Or.inl rfl), key _ (Or.inr rfl)⟩

/-- The pass with an empty spec list in the reference world keeps the cache
entry of `hosts`. -/
theorem vanished_spec_status_only_witness :
    (refEnv.listSpecs (withSpecs [] hostsApplied).world).1 = .ok [] ∧
    (∀ spec ∈ ([] : List EtcFileSpec), spec.id ≠ "hosts") ∧
    ("hosts" ∈ (pass refEnv "/etc" (withSpecs [] hostsApplied)).st.bindMounts ↔
      "hosts" ∈ (withSpecs [] hostsApplied).bindMounts) :=
  ⟨by decide, by decide,
   (vanished_spec_status_only refEnv "/etc" (withSpecs [] hostsApplied) [] "hosts" (by decide)
      (by decide)).1⟩

end EtcFileController

namespace EtcFileController

theorem teardown_ok_removeFinalizer (env : EtcEnv W) (etcPath : String) (spec : EtcFileSpec)
    (s : EtcState W) (hp : spec.phase = .tearingDown)
    (hok : (applySpec env etcPath spec s).err = none) :
    Event.removeFinalizer spec.id Name none ∈ (applySpec env etcPath spec s).events := by
  rw [applySpec_teardown env etcPath spec s hp] at hok ⊢
  obtain ⟨h12, h3⟩ := (Out.andThen_err_eq_none _ _).mp hok
  rw [Out.mem_andThen_events]
  right
  refine ⟨h12, ?_⟩
  rw [(removeFinalizerStep_events env _ _).1, ← (removeFinalizerStep_events env _ _).2.1.mp h3]
  simp

/-- C5, counterexample: in the reference world the first pass applies
`hosts` and leaves its status.  The next pass sees the spec in phase
TearingDown: it unmounts, removes the file, removes the finalizer and, in
the same pass, destroys the status, so no status is left when it ends.
The pass that follows has no status to destroy. -/
theorem teardown_pass_destroys_status_counterexample :
    hostsApplied.world.statuses = [⟨"hosts", "1"⟩] ∧
    (pass refEnv "/etc" hostsTeardownStart).err = none ∧
    (pass refEnv "/etc" hostsTeardownStart).events =
      [.listSpecs (.ok [hostsTearingDown]), .unmount "/etc/hosts" none,
       .osRemove "/etc/hosts" (some .notExist), .removeFinalizer "hosts" Name none,
       .listStatuses (.ok [⟨"hosts", "1"⟩]), .destroyStatus "hosts" none, .resetRestartBackoff] ∧
    (pass refEnv "/etc" hostsTeardownStart).st.world.statuses = [] ∧
    (pass refEnv "/etc" hostsTornDown).events =
      [.listSpecs (.ok []), .listStatuses (.ok []), .resetRestartBackoff] := by
  decide

end EtcFileController

/-! ## The reference world keeps what files hold -/

theorem lookupFile_refWrite_same (p : String) (c : Bytes) (m : FileMode)
    (fs : List (String × RefFile)) :
    ∃ m', lookupFile p (refWrite p c m fs) = some ⟨c, m'⟩ := by
  induction fs with
  | nil => exact ⟨m, by simp [refWrite, lookupFile]⟩
  | cons x rest ih =>
    obtain ⟨q, f⟩ := x
    by_cases h : q = p
    · exact ⟨f.mode, by simp [refWrite, lookupFile, h]⟩
    · obtain ⟨m', hm'⟩ := ih
      exact ⟨m', by simp [refWrite, lookupFile, h, hm']⟩

theorem lookupFile_refWrite_other (p q : String) (c : Bytes) (m : FileMode)
    (fs : List (String × RefFile)) (hq : q ≠ p) :
    lookupFile q (refWrite p c m fs) = lookupFile q fs := by
  induction fs with
  | nil => simp [refWrite, lookupFile, Ne.symm hq]
  | cons x rest ih =>
    obtain ⟨r, f⟩ := x
    by_cases h : r = p
    · subst h
      simp [refWrite, lookupFile, Ne.symm hq]
    · by_cases h' : r = q
      · subst h'
        simp [refWrite, lookupFile, h]
      · simp [refWrite, lookupFile, h, h', ih]

theorem lookupFile_append_of_some (q : String) (fs extra : List (String × RefFile)) (f : RefFile)
    (h : lookupFile q fs = some f) : lookupFile q (fs ++ extra) = some f := by
  induction fs with
  | nil => simp [lookupFile] at h
  | cons x rest ih =>
    obtain ⟨r, g⟩ := x
    by_cases hr : r = q
    · simp [lookupFile, hr] at h ⊢
      exact h
    · simp [lookupFile, hr] at h ⊢
      exact ih h

theorem refRead_refCreate (p q : String) (m : FileMode) (d : Bytes) (fs : List (String × RefFile))
    (h : refRead q fs = Res.ok d) : refRead q (refCreate p m fs) = Res.ok d := by
  unfold refCreate
  cases hp : lookupFile p fs with
  | some f => exact h
  | none =>
    simp only
    unfold refRead at h ⊢
    cases hq : lookupFile q fs with
    | none => simp [hq] at h
    | some g =>
      rw [lookupFile_append_of_some q fs _ g hq]
      simpa [hq] using h

/-- The reference world satisfies the laws the idempotence statement assumes. -/
theorem refEnv_readStable : ReadStable refEnv where
  write_read := by
    intro p c m w _
    obtain ⟨m', hm'⟩ := lookupFile_refWrite_same p c m w.anonFiles
    simp [Holds, refEnv, refFileEnv, refRead, hm']
  write_other := by
    intro p c m q d w hq h
    simp only [Holds, refEnv, refFileEnv, refRead] at h ⊢
    rw [lookupFile_refWrite_other p q c m w.anonFiles hq]
    exact h
  read := fun _ _ _ _ h => h
  setLabel := fun _ _ _ _ _ h => h
  mkdirAll := fun _ _ _ _ _ h => h
  openFile := by
    intro p m q d w h
    simp only [Holds, refEnv, refFileEnv] at h ⊢
    exact refRead_refCreate p q m d w.anonFiles h
  closeFile := fun _ _ _ _ h => h
  bindReadonly := fun _ _ _ _ _ h => h
  listSpecs := fun _ _ _ h => h
  addFinalizer := by
    intro i n q d w h
    simp only [Holds, refEnv, refFileEnv] at h ⊢
    split <;> exact h
  modifyStatus := fun _ _ _ _ _ h => h
  listStatuses := fun _ _ _ h => h
  destroyStatus := fun _ _ _ _ h => h
  resetRestartBackoff := fun _ _ _ h => h

namespace EtcFileController

/-! ## C6: a second pass over an unchanged list -/

theorem createBindMountFile_keeps (env : EtcEnv W) (laws : ReadStable env) (src dst : String)
    (mode : FileMode) (q : String) (d : Bytes) (w : W) (h : Holds env.toFileEnv q d w) :
    Holds env.toFileEnv q d (createBindMountFile env.toFileEnv src dst mode w).st := by
  have h1 := laws.mkdirAll (env.dir src) 0o755 q d w h
  have h2 := laws.openFile src mode q d _ h1
  have h3 := laws.closeFile src q d _ h2
  have h4 := laws.bindReadonly (env.join env.mountPoint src) dst q d _ h3
  simp only [createBindMountFile]
  split
  · exact h1
  · split
    · exact h2
    · split
      · exact h3
      · exact h4

theorem createStep_keeps (env : EtcEnv W) (laws : ReadStable env) (filename src dst : String)
    (mode : FileMode) (q : String) (d : Bytes) (s : EtcState W) (h : Holds env.toFileEnv q d s.world) :
    Holds env.toFileEnv q d (createStep env filename src dst mode s).st.world := by
  unfold createStep
  by_cases hm : filename ∈ s.bindMounts
  · simpa [hm] using h
  · simp only [hm, if_false]
    have := createBindMountFile_keeps env laws src dst mode q d s.world h
    split <;> exact this

theorem createStep_cached (env : EtcEnv W) (filename src dst : String) (mode : FileMode)
    (s : EtcState W) (hm : filename ∈ s.bindMounts) :
    createStep env filename src dst mode s = ⟨none, s, []⟩ := by
  simp [createStep, hm]

theorem UpdateFileFs_frame (env : EtcEnv W) (laws : ReadStable env) (p : String) (c : Bytes)
    (m : FileMode) (l : String) (q : String) (d : Bytes) (w : W) (hq : q ≠ p)
    (h : Holds env.toFileEnv q d w) :
    Holds env.toFileEnv q d (UpdateFileFs env.toFileEnv p c m l w).st := by
  have h1 := laws.read p q d w h
  simp only [UpdateFileFs]
  split
  · exact laws.setLabel p l q d _ h1
  · have h2 := laws.write_other p c m q d _ hq h1
    split
    · exact h2
    · exact laws.setLabel p l q d _ h2

theorem UpdateFileFs_establish (env : EtcEnv W) (laws : ReadStable env) (p : String) (c : Bytes)
    (m : FileMode) (l : String) (w : W)
    (hok : (UpdateFileFs env.toFileEnv p c m l w).err = none) :
    Holds env.toFileEnv p c (UpdateFileFs env.toFileEnv p c m l w).st := by
  simp only [UpdateFileFs] at hok ⊢
  split
  · rename_i hrd
    exact laws.setLabel p l p c _ (laws.read p p c w hrd)
  · rename_i hrd
    simp only [hrd, if_false] at hok
    cases hw : (env.xfsWriteFile p c m (env.xfsReadFile p w).2).1 with
    | some e => simp [hw] at hok
    | none =>
      simp only [hw]
      exact laws.setLabel p l p c _ (laws.write_read p c m _ hw)

theorem UpdateFileFs_stable (env : EtcEnv W) (laws : ReadStable env) (p : String) (c : Bytes)
    (m : FileMode) (l : String) (w : W) (hp : Holds env.toFileEnv p c w) :
    (∀ e ∈ (UpdateFileFs env.toFileEnv p c m l w).events,
      e.isCreateBindMount = false ∧ e.isWrite = false) ∧
    ∀ q d, Holds env.toFileEnv q d w → Holds env.toFileEnv q d (UpdateFileFs env.toFileEnv p c m l w).st := by
  rw [UpdateFileFs_same env.toFileEnv p c m l w hp]
  refine ⟨?_, ?_⟩
  · intro e he
    simp at he
    rcases he with rfl | rfl <;> simp [Event.isCreateBindMount, Event.isWrite]
  · intro q d h
    exact laws.setLabel p l q d _ (laws.read p q d w h)

theorem updateStep_facts (env : EtcEnv W) (src : String) (spec : EtcFileSpec) (s : EtcState W) :
    (updateStep env src spec s).st.world =
      (UpdateFileFs env.toFileEnv src spec.contents spec.mode spec.selinuxLabel s.world).st ∧
    ((updateStep env src spec s).err = none ↔
      (UpdateFileFs env.toFileEnv src spec.contents spec.mode spec.selinuxLabel s.world).err = none) := by
  simp [updateStep]

theorem statusStep_keeps (env : EtcEnv W) (laws : ReadStable env) (filename : String)
    (spec : EtcFileSpec) (q : String) (d : Bytes) (s : EtcState W)
    (h : Holds env.toFileEnv q d s.world) :
    Holds env.toFileEnv q d (statusStep env filename spec s).st.world := by
  have := laws.modifyStatus filename spec.version q d s.world h
  unfold statusStep
  cases hr : (env.modifyStatus filename spec.version s.world).1 <;> simp only [hr] <;> exact this

theorem addFinalizerStep_keeps (env : EtcEnv W) (laws : ReadStable env) (res : EtcFileSpec)
    (q : String) (d : Bytes) (s : EtcState W) (h : Holds env.toFileEnv q d s.world) :
    Holds env.toFileEnv q d (addFinalizerStep env res s).st.world := by
  unfold addFinalizerStep
  split
  · exact h
  · exact laws.addFinalizer res.id Name q d s.world h

theorem destroyStep_keeps (env : EtcEnv W) (laws : ReadStable env) (res : EtcFileStatus)
    (q : String) (d : Bytes) (s : EtcState W) (h : Holds env.toFileEnv q d s.world) :
    Holds env.toFileEnv q d (destroyStep env res s).st.world := by
  unfold destroyStep
  split
  · exact h
  · exact laws.destroyStatus res.id q d s.world h

theorem cleanup_keeps (env : EtcEnv W) (laws : ReadStable env) (q : String) (d : Bytes)
    (s : EtcState W) (h : Holds env.toFileEnv q d s.world) :
    Holds env.toFileEnv q d (cleanup env s).st.world := by
  have h0 := laws.listStatuses q d s.world h
  unfold cleanup
  cases hl : (env.listStatuses s.world).1 with
  | err e => simp only [hl]; exact h0
  | ok statuses =>
    simp only [hl]
    refine Out.andThen_st_rel
      (fun a b : EtcState W => Holds env.toFileEnv q d a.world → Holds env.toFileEnv q d b.world)
      (fun _ _ _ h₁ h₂ hh => h₂ (h₁ hh)) s _ _
      (Out.andThen_st_rel
        (fun a b : EtcState W => Holds env.toFileEnv q d a.world → Holds env.toFileEnv q d b.world)
        (fun _ _ _ h₁ h₂ hh => h₂ (h₁ hh)) s _ _ ?_ ?_) ?_ h
    · exact fun _ => h0
    · intro t ht
      exact forEach_invariant (destroyStep env) (fun u => Holds env.toFileEnv q d u.world) statuses
        (fun y _ u hu => destroyStep_keeps env laws y q d u hu) t ht
    · intro t ht
      exact laws.resetRestartBackoff q d t.world ht

end EtcFileController

/-- What holds of the calls of every iteration started in a state satisfying
an invariant of the iterations holds of all calls of the loop. -/
theorem forEach_events_inv {α σ : Type} (body : α → σ → Out σ) (I : σ → Prop) (P : Event → Prop)
    (xs : List α)
    (h : ∀ x ∈ xs, ∀ s, I s → I (body x s).st ∧ ∀ e ∈ (body x s).events, P e) :
    ∀ s, I s → ∀ e ∈ (forEach body xs s).events, P e := by
  induction xs with
  | nil => intro s _ e he; simp [forEach_nil] at he
  | cons x xs ih =>
    intro s hs e he
    rw [forEach_cons, Out.mem_andThen_events] at he
    obtain ⟨hI, hP⟩ := h x (List.mem_cons_self _ _) s hs
    rcases he with he | ⟨_, he⟩
    · exact hP e he
    · exact ih (fun y hy => h y (List.mem_cons_of_mem _ hy)) _ hI e he

namespace EtcFileController

theorem applySpec_running_frame (env : EtcEnv W) (laws : ReadStable env) (etcPath : String)
    (spec : EtcFileSpec) (s : EtcState W) (hp : spec.phase = .running) (q : String) (d : Bytes)
    (hq : q ≠ env.join etcPath spec.id) (h : Holds env.toFileEnv q d s.world) :
    Holds env.toFileEnv q d (applySpec env etcPath spec s).st.world := by
  rw [applySpec_running env etcPath spec s hp]
  refine Out.andThen_st_rel
    (fun a b : EtcState W => Holds env.toFileEnv q d a.world → Holds env.toFileEnv q d b.world)
    (fun _ _ _ h₁ h₂ hh => h₂ (h₁ hh)) s _ _
    (Out.andThen_st_rel
      (fun a b : EtcState W => Holds env.toFileEnv q d a.world → Holds env.toFileEnv q d b.world)
      (fun _ _ _ h₁ h₂ hh => h₂ (h₁ hh)) s _ _ ?_ ?_) ?_ h
  · exact createStep_keeps env laws _ _ _ _ q d s
  · intro t ht
    show Holds env.toFileEnv q d (updateStep env _ spec t).st.world
    rw [(updateStep_facts env _ spec t).1]
    exact UpdateFileFs_frame env laws _ _ _ _ q d t.world hq ht
  · intro t ht
    exact statusStep_keeps env laws _ spec q d t ht

theorem applySpec_running_establish (env : EtcEnv W) (laws : ReadStable env) (etcPath : String)
    (spec : EtcFileSpec) (s : EtcState W) (hp : spec.phase = .running)
    (hok : (applySpec env etcPath spec s).err = none) :
    Holds env.toFileEnv (env.join etcPath spec.id) spec.contents (applySpec env etcPath spec s).st.world := by
  rw [applySpec_running env etcPath spec s hp] at hok ⊢
  obtain ⟨h12, _⟩ := (Out.andThen_err_eq_none _ _).mp hok
  obtain ⟨h1, h2⟩ := (Out.andThen_err_eq_none _ _).mp h12
  rw [Out.andThen_st_of_ok _ _ h12, Out.andThen_st_of_ok _ _ h1]
  apply statusStep_keeps env laws
  rw [(updateStep_facts env _ spec _).1]
  exact UpdateFileFs_establish env laws _ _ _ _ _ ((updateStep_facts env _ spec _).2.mp h2)

theorem applySpec_running_stable (env : EtcEnv W) (laws : ReadStable env) (etcPath : String)
    (spec : EtcFileSpec) (s : EtcState W) (hp : spec.phase = .running)
    (hm : spec.id ∈ s.bindMounts)
    (hh : Holds env.toFileEnv (env.join etcPath spec.id) spec.contents s.world) :
    (∀ e ∈ (applySpec env etcPath spec s).events, e.isCreateBindMount = false ∧ e.isWrite = false) ∧
    ∀ q d, Holds env.toFileEnv q d s.world →
      Holds env.toFileEnv q d (applySpec env etcPath spec s).st.world := by
  rw [applySpec_running env etcPath spec s hp, createStep_cached env _ _ _ _ s hm]
  obtain ⟨hev, hkeep⟩ := UpdateFileFs_stable env laws _ _ spec.mode spec.selinuxLabel s.world hh
  have h0 : (Out.andThen (⟨none, s, []⟩ : Out (EtcState W))
      (updateStep env (env.join etcPath spec.id) spec)) =
      updateStep env (env.join etcPath spec.id) spec s := by
    simp [Out.andThen]
  rw [h0]
  refine ⟨?_, ?_⟩
  · intro e he
    rw [Out.mem_andThen_events] at he
    rcases he with he | ⟨_, he⟩
    · rw [(updateStep_st env _ spec s).2.2] at he
      exact hev e he
    · rw [(statusStep_events env _ _ _).1] at he
      simp at he; subst he
      simp [Event.isCreateBindMount, Event.isWrite]
  · intro q d hq
    refine Out.andThen_st_rel
      (fun a b : EtcState W => Holds env.toFileEnv q d a.world → Holds env.toFileEnv q d b.world)
      (fun _ _ _ h₁ h₂ hh => h₂ (h₁ hh)) s _ _ ?_ ?_ hq
    · intro hq'
      show Holds env.toFileEnv q d (updateStep env _ spec s).st.world
      rw [(updateStep_facts env _ spec s).1]
      exact hkeep q d hq'
    · intro t ht
      exact statusStep_keeps env laws _ spec q d t ht

/-- After a loop over Running specs with distinct paths that ends without
error, every listed file holds the contents of its spec and every listed
id is cached. -/
theorem applyLoop_establish (env : EtcEnv W) (laws : ReadStable env) (etcPath : String)
    (xs : List EtcFileSpec) (hrun : ∀ spec ∈ xs, spec.phase = .running)
    (hnd : (xs.map fun sp : EtcFileSpec => env.join etcPath sp.id).Nodup) :
    ∀ s : EtcState W, (forEach (applySpec env etcPath) xs s).err = none →
      ∀ spec ∈ xs,
        Holds env.toFileEnv (env.join etcPath spec.id) spec.contents
          (forEach (applySpec env etcPath) xs s).st.world ∧
        spec.id ∈ (forEach (applySpec env etcPath) xs s).st.bindMounts := by
  induction xs with
  | nil => intro s _ spec hs; simp at hs
  | cons y ys ih =>
    intro s hok spec hs
    obtain ⟨hy, hrest⟩ := (forEach_err_cons _ y ys s).mp hok
    have hnd' : (ys.map fun sp : EtcFileSpec => env.join etcPath sp.id).Nodup :=
      (List.nodup_cons.mp (by simpa using hnd)).2
    have hnot : env.join etcPath y.id ∉ ys.map fun sp : EtcFileSpec => env.join etcPath sp.id :=
      (List.nodup_cons.mp (by simpa using hnd)).1
    rw [forEach_cons, Out.andThen_st_of_ok _ _ hy]
    rcases List.mem_cons.mp hs with rfl | hs
    · have hp := hrun spec (List.mem_cons_self _ _)
      constructor
      · refine forEach_invariant (applySpec env etcPath)
          (fun t => Holds env.toFileEnv (env.join etcPath spec.id) spec.contents t.world) ys
          (fun z hz t ht => applySpec_running_frame env laws etcPath z t
            (hrun z (List.mem_cons_of_mem _ hz)) _ _
            (fun heq => hnot (List.mem_map.mpr ⟨z, hz, heq.symm⟩)) ht) _ ?_
        exact applySpec_running_establish env laws etcPath spec s hp hy
      · refine forEach_invariant (applySpec env etcPath) (fun t => spec.id ∈ t.bindMounts) ys
          (fun z hz t ht => applySpec_running_keeps env etcPath z t
            (hrun z (List.mem_cons_of_mem _ hz)) _ ht) _ ?_
        exact (applySpec_running_ok env etcPath spec s hp hy).1
    · exact ih (fun z hz => hrun z (List.mem_cons_of_mem _ hz)) hnd' _ hrest spec hs

/-- A loop over Running specs, started with every listed id cached and every
listed file holding the contents of its spec, creates no bind mount and
writes no file. -/
theorem applyLoop_stable (env : EtcEnv W) (laws : ReadStable env) (etcPath : String)
    (list : List EtcFileSpec) (hrun : ∀ spec ∈ list, spec.phase = .running) (s : EtcState W)
    (hinv : ∀ spec ∈ list, spec.id ∈ s.bindMounts ∧
      Holds env.toFileEnv (env.join etcPath spec.id) spec.contents s.world) :
    ∀ e ∈ (forEach (applySpec env etcPath) list s).events,
      e.isCreateBindMount = false ∧ e.isWrite = false := by
  refine forEach_events_inv (applySpec env etcPath)
    (fun t => ∀ spec ∈ list, spec.id ∈ t.bindMounts ∧
      Holds env.toFileEnv (env.join etcPath spec.id) spec.contents t.world)
    (fun e => e.isCreateBindMount = false ∧ e.isWrite = false) list ?_ s hinv
  intro x hx t ht
  obtain ⟨hev, hkeep⟩ := applySpec_running_stable env laws etcPath x t (hrun x hx) (ht x hx).1 (ht x hx).2
  refine ⟨fun spec hs => ⟨?_, hkeep _ _ (ht spec hs).2⟩, hev⟩
  exact applySpec_running_keeps env etcPath x t (hrun x hx) _ (ht spec hs).1

end EtcFileController

namespace EtcFileController

theorem pass_events_mem (env : EtcEnv W) (etcPath : String) (s : EtcState W)
    (list : List EtcFileSpec) (h : (env.listSpecs s.world).1 = .ok list) (e : Event)
    (he : e ∈ (pass env etcPath s).events) :
    e = .listSpecs (.ok list) ∨ e ∈ (finalized env list (afterList env s)).events ∨
    e ∈ (applied env etcPath list (afterList env s)).events ∨
    e ∈ (cleanup env (applied env etcPath list (afterList env s)).st).events := by
  rw [(pass_eq env etcPath s list h).1] at he
  rcases List.mem_cons.mp he with he | he
  · exact Or.inl he
  · right
    rcases passOn_cases env etcPath list (afterList env s) with
      ⟨_, hp⟩ | ⟨_, _, he', _⟩ | ⟨_, _, he', _⟩
    · rw [hp] at he; exact Or.inl he
    · rw [he'] at he
      rcases List.mem_append.mp he with he | he
      · exact Or.inl he
      · exact Or.inr (Or.inl he)
    · rw [he'] at he
      rcases List.mem_append.mp he with he | he
      · rcases List.mem_append.mp he with he | he
        · exact Or.inl he
        · exact Or.inr (Or.inl he)
      · exact Or.inr (Or.inr he)

/-- After a pass over Running specs with distinct paths that ends without
error, every listed id is cached and every listed file holds the contents
of its spec. -/
theorem pass_establishes (env : EtcEnv W) (laws : ReadStable env) (etcPath : String)
    (s : EtcState W) (list : List EtcFileSpec)
    (hrun : ∀ spec ∈ list, spec.phase = .running)
    (hnd : (specPaths env etcPath list).Nodup)
    (h : (env.listSpecs s.world).1 = .ok list) (hok : (pass env etcPath s).err = none) :
    ∀ spec ∈ list, spec.id ∈ (pass env etcPath s).st.bindMounts ∧
      Holds env.toFileEnv (env.join etcPath spec.id) spec.contents (pass env etcPath s).st.world := by
  obtain ⟨_, herr, hst⟩ := pass_eq env etcPath s list h
  rw [herr] at hok
  rcases passOn_cases env etcPath list (afterList env s) with
    ⟨h1, hp⟩ | ⟨_, h2, _, herr', _⟩ | ⟨_, h2, _, _, hst'⟩
  · rw [hp] at hok; exact absurd hok h1
  · rw [herr'] at hok; exact absurd hok h2
  · intro spec hs
    obtain ⟨hh, hm⟩ := applyLoop_establish env laws etcPath list hrun hnd _ h2 spec hs
    rw [hst, hst']
    exact ⟨by rw [(cleanup_facts env _).2.1]; exact hm, cleanup_keeps env laws _ _ _ hh⟩

/-- C6, amended: let a pass of `EtcFileController.Run` over a list of Running
specs with pairwise distinct paths end without error, and let the next pass of
the same controller (same `bindMounts` cache) see the same list with every
file of the anonymous filesystem holding what the first pass left.  Then
the second pass makes no call of `createBindMountFile` and no file write.
The world is any that satisfies `ReadStable`. -/
theorem second_pass_no_mount_no_write (env : EtcEnv W) (laws : ReadStable env) (etcPath : String)
    (s s2 : EtcState W) (list : List EtcFileSpec)
    (hrun : ∀ spec ∈ list, spec.phase = .running)
    (hnd : (specPaths env etcPath list).Nodup)
    (h1 : (env.listSpecs s.world).1 = .ok list) (hok : (pass env etcPath s).err = none)
    (hcache : s2.bindMounts = (pass env etcPath s).st.bindMounts)
    (hfs : ∀ p c, Holds env.toFileEnv p c (pass env etcPath s).st.world →
      Holds env.toFileEnv p c s2.world)
    (h2 : (env.listSpecs s2.world).1 = .ok list) :
    ∀ e ∈ (pass env etcPath s2).events, e.isCreateBindMount = false ∧ e.isWrite = false := by
  have hest := pass_establishes env laws etcPath s list hrun hnd h1 hok
  have hinv : ∀ spec ∈ list,
      spec.id ∈ ({ (finalized env list (afterList env s2)).st with touchedIDs := [] } :
        EtcState W).bindMounts ∧
      Holds env.toFileEnv (env.join etcPath spec.id) spec.contents
        ({ (finalized env list (afterList env s2)).st with touchedIDs := [] } : EtcState W).world := by
    intro spec hs
    constructor
    · show spec.id ∈ (finalized env list (afterList env s2)).st.bindMounts
      rw [finalized, addFinalizers_bindMounts]
      show spec.id ∈ s2.bindMounts
      rw [hcache]
      exact (hest spec hs).1
    · show Holds env.toFileEnv _ _ (finalized env list (afterList env s2)).st.world
      exact forEach_invariant (addFinalizerStep env)
        (fun t => Holds env.toFileEnv (env.join etcPath spec.id) spec.contents t.world) list
        (fun y _ t ht => addFinalizerStep_keeps env laws y _ _ t ht) _
        (laws.listSpecs _ _ _ (hfs _ _ (hest spec hs).2))
  intro e he
  rcases pass_events_mem env etcPath s2 list h2 e he with rfl | he | he | he
  · simp [Event.isCreateBindMount, Event.isWrite]
  · obtain ⟨id, r, rfl⟩ := addFinalizers_events env list _ e he
    simp [Event.isCreateBindMount, Event.isWrite]
  · exact applyLoop_stable env laws etcPath list hrun _ hinv e he
  · have := (cleanup_facts env _).2.2.1 e he
    cases e <;> simp [Event.isCleanupCall] at this <;> simp [Event.isCreateBindMount, Event.isWrite]

/-- Witness for C6 amended: two passes over the scenario in the reference
world. -/
theorem second_pass_no_mount_no_write_witness :
    (∀ spec ∈ [hostsSpec], spec.phase = .running) ∧
    (specPaths refEnv "/etc" [hostsSpec]).Nodup ∧
    (refEnv.listSpecs hostsStart.world).1 = .ok [hostsSpec] ∧
    (pass refEnv "/etc" hostsStart).err = none ∧
    (refEnv.listSpecs hostsApplied.world).1 = .ok [hostsSpec] ∧
    (pass refEnv "/etc" hostsStart).events =
      [.listSpecs (.ok [hostsSpec]), .addFinalizer "hosts" Name none,
       .mkdirAll "/etc" 0o755 none, .openFile "/etc/hosts" 0o644 none,
       .closeFile "/etc/hosts" none, .bindReadonly "/anon//etc/hosts" "/etc/hosts" none,
       .xfsReadFile "/etc/hosts" (.ok []), .xfsWriteFile "/etc/hosts" [49, 50] 0o644 none,
       .setLabel "/etc/hosts" "etc_t" none, .modifyStatus "hosts" "1" none,
       .listStatuses (.ok [⟨"hosts", "1"⟩]), .resetRestartBackoff] ∧
    (pass refEnv "/etc" hostsApplied).events =
      [.listSpecs (.ok [hostsSpec]), .addFinalizer "hosts" Name none,
       .xfsReadFile "/etc/hosts" (.ok [49, 50]), .setLabel "/etc/hosts" "etc_t" none,
       .modifyStatus "hosts" "1" none, .listStatuses (.ok [⟨"hosts", "1"⟩]),
       .resetRestartBackoff] ∧
    ∀ e ∈ (pass refEnv "/etc" hostsApplied).events,
      e.isCreateBindMount = false ∧ e.isWrite = false :=
  ⟨by decide, by decide, by decide, by decide, by decide, by decide, by decide,
   second_pass_no_mount_no_write refEnv refEnv_readStable "/etc" hostsStart hostsApplied
     [hostsSpec] (by decide) (by decide) (by decide) (by decide) rfl (fun _ _ hh => hh)
     (by decide)⟩

end EtcFileController

namespace KubernetesPullController

/-! ## `KubernetesPullController`: the affiliate cleanup -/

theorem affiliateDestroyStep_facts (env : PullEnv W) (ctrlName : String) (touchedIDs : List ID)
    (res : Affiliate) (s : PullState W) :
    (∀ e ∈ (destroyStep env ctrlName touchedIDs res s).events,
      ∃ r, e = .destroyAffiliate res.id r ∧ res.owner = ctrlName ∧ res.id ∉ touchedIDs) ∧
    ((destroyStep env ctrlName touchedIDs res s).err = none →
      (destroyStep env ctrlName touchedIDs res s).events =
        if res.owner = ctrlName ∧ res.id ∉ touchedIDs then [.destroyAffiliate res.id none] else []) := by
  unfold destroyStep
  by_cases ho : res.owner = ctrlName
  · by_cases hm : res.id ∈ touchedIDs
    · simp [ho, hm]
    · simp [ho, hm]
  · simp [ho]

theorem affiliateDestroyLoop_facts (env : PullEnv W) (ctrlName : String) (touchedIDs : List ID)
    (items : List Affiliate) :
    ∀ s : PullState W,
      (∀ e ∈ (forEach (destroyStep env ctrlName touchedIDs) items s).events,
        ∃ a r, a ∈ items ∧ e = .destroyAffiliate a.id r ∧ a.owner = ctrlName ∧ a.id ∉ touchedIDs) ∧
      ((forEach (destroyStep env ctrlName touchedIDs) items s).err = none →
        (forEach (destroyStep env ctrlName touchedIDs) items s).events =
          (items.filter fun a => decide (a.owner = ctrlName ∧ a.id ∉ touchedIDs)).map
            fun a => .destroyAffiliate a.id none) := by
  induction items with
  | nil => intro s; simp [forEach_nil]
  | cons a rest ih =>
    intro s
    obtain ⟨h3, h4⟩ := affiliateDestroyStep_facts env ctrlName touchedIDs a s
    obtain ⟨i3, i4⟩ := ih (destroyStep env ctrlName touchedIDs a s).st
    rw [forEach_cons]
    by_cases hok : (destroyStep env ctrlName touchedIDs a s).err = none
    · rw [Out.andThen_events_of_ok _ _ hok, Out.andThen_err_of_ok _ _ hok]
      refine ⟨?_, ?_⟩
      · intro e he
        rcases List.mem_append.mp he with he | he
        · obtain ⟨r, hr, ho, hn⟩ := h3 e he
          exact ⟨a, r, List.mem_cons_self _ _, hr, ho, hn⟩
        · obtain ⟨a', r, hm, hr, ho, hn⟩ := i3 e he
          exact ⟨a', r, List.mem_cons_of_mem _ hm, hr, ho, hn⟩
      · intro hrest
        rw [i4 hrest, h4 hok]
        by_cases hc : a.owner = ctrlName ∧ a.id ∉ touchedIDs
        · simp [List.filter_cons, hc]
        · rw [List.filter_cons]
          simp only [hc, if_false, decide_False, List.nil_append]
          rfl
    · rw [Out.andThen_of_err _ _ hok]
      refine ⟨?_, fun h => absurd h hok⟩
      intro e he
      obtain ⟨r, hr, ho, hn⟩ := h3 e he
      exact ⟨a, r, List.mem_cons_self _ _, hr, ho, hn⟩

theorem cleanupAffiliates_events (env : PullEnv W) (ctrlName : String) (touchedIDs : List ID)
    (s : PullState W) :
    ∀ e ∈ (cleanupAffiliates env ctrlName touchedIDs s).events, e.isAffiliateCleanup = true := by
  intro e he
  unfold cleanupAffiliates at he
  cases hl : (env.listAffiliates s.world).1 with
  | err x =>
    simp [hl] at he
    subst he; rfl
  | ok items =>
    simp only [hl] at he
    rw [Out.mem_andThen_events] at he
    rcases he with he | ⟨_, he⟩
    · simp at he; subst he; rfl
    · obtain ⟨a, r, _, hr, _⟩ := (affiliateDestroyLoop_facts env ctrlName touchedIDs items _).1 e he
      subst hr; rfl

/-- What the cleanup does when it ends without error: it lists the
Affiliates of the raw namespace and destroys, in order, exactly those
owned by the controller whose id is not in the touched-set. -/
theorem cleanupAffiliates_ok (env : PullEnv W) (ctrlName : String) (touchedIDs : List ID)
    (s : PullState W) (hok : (cleanupAffiliates env ctrlName touchedIDs s).err = none) :
    ∃ items, (env.listAffiliates s.world).1 = .ok items ∧
      (cleanupAffiliates env ctrlName touchedIDs s).events =
        .listAffiliates (.ok items) ::
          (items.filter fun a => decide (a.owner = ctrlName ∧ a.id ∉ touchedIDs)).map
            fun a => .destroyAffiliate a.id none := by
  unfold cleanupAffiliates at hok ⊢
  cases hl : (env.listAffiliates s.world).1 with
  | err x => simp [hl] at hok
  | ok items =>
    simp only [hl] at hok ⊢
    refine ⟨items, rfl, ?_⟩
    rw [Out.andThen_err_of_ok _ _ rfl] at hok
    rw [Out.andThen_events_of_ok _ _ rfl, (affiliateDestroyLoop_facts env ctrlName touchedIDs items _).2 hok]
    rfl

/-! ## C10: the registry is disabled -/

theorem pass_disabled (env : PullEnv W) (s : PullState W) (cfg : DiscoveryConfig)
    (hcfg : (env.getConfig s.world).1 = .ok cfg) (hdis : cfg.registryKubernetesEnabled = false) :
    (pass env s).events = .getConfig (.ok cfg) ::
      (cleanupAffiliates env Name [] { s with world := (env.getConfig s.world).2 }).events ∧
    (pass env s).err =
      (cleanupAffiliates env Name [] { s with world := (env.getConfig s.world).2 }).err ∧
    (pass env s).st =
      (cleanupAffiliates env Name [] { s with world := (env.getConfig s.world).2 }).st := by
  unfold pass
  simp only [hcfg, hdis, Bool.false_eq_true, if_false]
  refine ⟨?_, ?_, ?_⟩
  · rw [Out.andThen_events_of_ok _ _ rfl]; rfl
  · rw [Out.andThen_err_of_ok _ _ rfl]
  · rw [Out.andThen_st_of_ok _ _ rfl]

/-- C10: when the discovery config exists with `RegistryKubernetesEnabled`
false, the pass of `KubernetesPullController.Run` is the read of the config
followed by `cleanupAffiliates` with the empty touched-set, whose error it
returns; it writes no Affiliate, does not wait for the kubeconfig and
makes no call towards the Kubernetes registry; and when it ends without
error it has destroyed, in order, every listed Affiliate of the raw
namespace owned by this controller. -/
theorem disabled_registry_destroys_all (env : PullEnv W) (s : PullState W) (cfg : DiscoveryConfig)
    (hcfg : (env.getConfig s.world).1 = .ok cfg) (hdis : cfg.registryKubernetesEnabled = false) :
    (pass env s).events = .getConfig (.ok cfg) ::
      (cleanupAffiliates env Name [] { s with world := (env.getConfig s.world).2 }).events ∧
    (pass env s).err =
      (cleanupAffiliates env Name [] { s with world := (env.getConfig s.world).2 }).err ∧
    (∀ e ∈ (pass env s).events, e.isPullWork = false) ∧
    ((pass env s).err = none →
      ∃ items, Event.listAffiliates (.ok items) ∈ (pass env s).events ∧
        (pass env s).events.filterMap Event.destroyedAffiliate =
          (items.filter fun a => decide (a.owner = Name)).map fun a => (a.id, none)) := by
  obtain ⟨hev, herr, _⟩ := pass_disabled env s cfg hcfg hdis
  refine ⟨hev, herr, ?_, ?_⟩
  · intro e he
    rw [hev] at he
    rcases List.mem_cons.mp he with rfl | he
    · rfl
    · have := cleanupAffiliates_events env Name [] _ e he
      cases e <;> simp [Event.isAffiliateCleanup] at this <;> rfl
  · intro hok
    rw [herr] at hok
    obtain ⟨items, _, hce⟩ := cleanupAffiliates_ok env Name [] _ hok
    refine ⟨items, by rw [hev, hce]; simp, ?_⟩
    rw [hev, hce]
    simp only [List.filterMap_cons, Event.destroyedAffiliate, List.filterMap_map]
    rw [← List.filterMap_eq_map]
    simp only [List.not_mem_nil, not_false_eq_true, and_true]
    rfl

/-- Witness for C10: the pass over `disabledStart` in the reference world
destroys the Affiliate this controller wrote and leaves the other. -/
theorem disabled_registry_destroys_all_witness :
    (refPullEnv.getConfig disabledStart.world).1 = .ok ⟨false⟩ ∧
    (pass refPullEnv disabledStart).err = none ∧
    (pass refPullEnv disabledStart).st.world.affiliates =
      [⟨"service/n2", "cluster.DiscoveryServiceController", ⟨"n2", "b"⟩⟩] ∧
    ∀ e ∈ (pass refPullEnv disabledStart).events, e.isPullWork = false :=
  ⟨by decide, by decide, by decide,
   (disabled_registry_destroys_all refPullEnv disabledStart ⟨false⟩ (by decide) rfl).2.2.1⟩

end KubernetesPullController

/-! ## C9: `ResetRestartBackoff` at the end of a pass -/

theorem resetBetweenWakes_nil : ResetBetweenWakes [] := by
  intro pre k₁ mid k₂ post hl
  simp at hl

theorem resetBetweenWakes_cons (k : Wake) (P T : List Event)
    (hP : ∀ e ∈ P, ¬ e.isWake = true)
    (hreset : T ≠ [] → Event.resetRestartBackoff ∈ P) (hT : ResetBetweenWakes T) :
    ResetBetweenWakes (.wake k :: (P ++ T)) := by
  intro pre k₁ mid k₂ post hl
  cases pre with
  | nil =>
    simp only [List.nil_append, List.cons.injEq] at hl
    obtain ⟨m', hmid, hT'⟩ := prefix_of_free (Q := fun e => e.isWake = true) hP hl.2 rfl
    rw [hmid]
    exact List.mem_append_left _ (hreset (by rw [hT']; simp))
  | cons x pre' =>
    simp only [List.cons_append, List.cons.injEq] at hl
    obtain ⟨m', _, hT'⟩ := prefix_of_free (Q := fun e => e.isWake = true) hP hl.2 rfl
    exact hT m' k₁ mid k₂ post hT'

namespace EtcFileController

theorem pass_no_wake (env : EtcEnv W) (etcPath : String) (s : EtcState W) :
    ∀ e ∈ (pass env etcPath s).events, ¬ e.isWake = true := by
  intro e he
  cases hl : (env.listSpecs s.world).1 with
  | err x =>
    unfold pass at he
    simp [hl] at he
    subst he
    simp [Event.isWake]
  | ok list =>
    rcases pass_events_mem env etcPath s list hl e he with rfl | he | he | he
    · simp [Event.isWake]
    · obtain ⟨id, r, rfl⟩ := addFinalizers_events env list _ e he
      simp [Event.isWake]
    · obtain ⟨sp, _, ha, _⟩ := applied_events env etcPath list _ e he
      cases e <;> simp [Event.isApplyOf] at ha <;> simp [Event.isWake]
    · have := (cleanup_facts env _).2.2.1 e he
      cases e <;> simp [Event.isCleanupCall] at this <;> simp [Event.isWake]

theorem pass_ok_reset (env : EtcEnv W) (etcPath : String) (s : EtcState W)
    (hok : (pass env etcPath s).err = none) :
    Event.resetRestartBackoff ∈ (pass env etcPath s).events := by
  cases hl : (env.listSpecs s.world).1 with
  | err x =>
    unfold pass at hok
    simp [hl] at hok
  | ok list =>
    obtain ⟨hev, herr, _⟩ := pass_eq env etcPath s list hl
    rw [herr] at hok
    rcases passOn_cases env etcPath list (afterList env s) with
      ⟨h1, hp⟩ | ⟨_, h2, _, herr', _⟩ | ⟨_, _, he, herr', _⟩
    · rw [hp] at hok; exact absurd hok h1
    · rw [herr'] at hok; exact absurd hok h2
    · rw [herr'] at hok
      obtain ⟨statuses, _, hce⟩ := cleanup_ok env _ hok
      rw [hev, he, hce]
      simp

theorem run_resetBetweenWakes (env : EtcEnv W) (etcPath : String) (ws : List Wake) :
    ∀ s : EtcState W, ResetBetweenWakes (Run env etcPath ws s).events := by
  induction ws with
  | nil => intro s; exact resetBetweenWakes_nil
  | cons k ws ih =>
    intro s
    cases k with
    | done =>
      have := resetBetweenWakes_cons .done [] [] (by simp) (by simp) resetBetweenWakes_nil
      simpa [Run] using this
    | notify => simpa [Run] using ih s
    | event =>
      cases hok : (pass env etcPath s).err with
      | some e =>
        have := resetBetweenWakes_cons .event (pass env etcPath s).events []
          (pass_no_wake env etcPath s) (by simp) resetBetweenWakes_nil
        simpa [Run, hok] using this
      | none =>
        have := resetBetweenWakes_cons .event (pass env etcPath s).events
          (Run env etcPath ws (pass env etcPath s).st).events
          (pass_no_wake env etcPath s) (fun _ => pass_ok_reset env etcPath s hok) (ih _)
        simpa [Run, hok] using this

end EtcFileController

namespace KubernetesPullController

theorem pull_facts (env : PullEnv W) (nodename : String) (s : PullState W) :
    (pull env nodename s).err = none →
      (∃ l, Event.registryList nodename (.ok l) ∈ (pull env nodename s).events) ∧
      Event.resetRestartBackoff ∈ (pull env nodename s).events := by
  intro hok
  unfold pull at hok ⊢
  cases hl : (env.registryList nodename s.world).1 with
  | err x => simp [hl] at hok
  | ok specs =>
    simp only [hl] at hok ⊢
    obtain ⟨h12, _⟩ := (Out.andThen_err_eq_none _ _).mp hok
    obtain ⟨h1, _⟩ := (Out.andThen_err_eq_none _ _).mp h12
    rw [Out.andThen_events_of_ok _ _ h12, Out.andThen_events_of_ok _ _ h1,
      Out.andThen_events_of_ok _ _ rfl]
    exact ⟨⟨specs, by simp⟩, by simp⟩

theorem handles_events (env : PullEnv W) (s : PullState W) (r : Res String) :
    ∀ e ∈ ((((Out.andThen (⟨none, s, [.getNodename r]⟩ : Out (PullState W)) (ensureClient env)).andThen
        ensureRegistry).andThen (ensureWatch env))).events, e.isPullTail = false := by
  intro e he
  simp only [Out.mem_andThen_events] at he
  rcases he with ((he | ⟨_, he⟩) | ⟨_, he⟩) | ⟨_, he⟩
  · simp at he; subst he; rfl
  · unfold ensureClient at he
    split at he
    · simp at he
    · simp only at he
      split at he <;> (simp at he; subst he; rfl)
  · unfold ensureRegistry at he
    split at he
    · simp at he
    · simp at he; subst he; rfl
  · unfold ensureWatch at he
    split at he
    · simp at he
    · simp at he; subst he; rfl

/-- A pass either makes none of the two tail calls, or it reaches `pull`,
whose calls are calls of the pass and whose error the pass returns. -/
theorem pass_cases (env : PullEnv W) (s : PullState W) :
    (∀ e ∈ (pass env s).events, e.isPullTail = false) ∨
    ∃ nodename s', (pass env s).err = (pull env nodename s').err ∧
      ∀ e ∈ (pull env nodename s').events, e ∈ (pass env s).events := by
  cases hc : (env.getConfig s.world).1 with
  | err x =>
    left
    intro e he
    simp only [pass, hc] at he
    split at he <;> (simp at he; subst he; rfl)
  | ok cfg =>
    cases hen : cfg.registryKubernetesEnabled with
    | false =>
      left
      intro e he
      simp only [pass, hc, hen, Bool.false_eq_true, if_false] at he
      rw [Out.mem_andThen_events] at he
      rcases he with he | ⟨_, he⟩
      · simp at he; subst he; rfl
      · have := cleanupAffiliates_events env Name [] _ e he
        cases e <;> simp [Event.isAffiliateCleanup] at this <;> rfl
    | true =>
      simp only [pass, hc, hen, if_true]
      by_cases hw : (Out.andThen (⟨none, { s with world := (env.getConfig s.world).2 },
          [.getConfig (.ok cfg)]⟩ : Out (PullState W)) (waitStep env)).err = none
      · rw [Out.andThen_events_of_ok _ _ hw, Out.andThen_err_of_ok _ _ hw]
        have hpre : ∀ e ∈ (Out.andThen (⟨none, { s with world := (env.getConfig s.world).2 },
            [.getConfig (.ok cfg)]⟩ : Out (PullState W)) (waitStep env)).events,
            e.isPullTail = false := by
          intro e he
          rw [Out.mem_andThen_events] at he
          rcases he with he | ⟨_, he⟩
          · simp at he; subst he; rfl
          · simp [waitStep] at he; subst he; rfl
        generalize (Out.andThen (⟨none, { s with world := (env.getConfig s.world).2 },
            [.getConfig (.ok cfg)]⟩ : Out (PullState W)) (waitStep env)) = o at hpre ⊢
        cases hn : (env.getNodename o.st.world).1 with
        | err x =>
          left
          intro e he
          rcases List.mem_append.mp he with he | he
          · exact hpre e he
          · simp only [afterWait, hn] at he
            split at he <;> (simp at he; subst he; rfl)
        | ok nodename =>
          simp only [afterWait, hn]
          have hh := handles_events env { o.st with world := (env.getNodename o.st.world).2 }
            (.ok nodename)
          by_cases hx : ((((Out.andThen (⟨none, { o.st with world := (env.getNodename o.st.world).2 },
              [.getNodename (.ok nodename)]⟩ : Out (PullState W)) (ensureClient env)).andThen
              ensureRegistry).andThen (ensureWatch env))).err = none
          · right
            refine ⟨nodename, _, Out.andThen_err_of_ok _ _ hx, ?_⟩
            intro e he
            rw [Out.andThen_events_of_ok _ _ hx]
            exact List.mem_append_right _ (List.mem_append_right _ he)
          · left
            rw [Out.andThen_of_err _ _ hx]
            intro e he
            rcases List.mem_append.mp he with he | he
            · exact hpre e he
            · exact hh e he
      · left
        rw [Out.andThen_of_err _ _ hw]
        intro e he
        rw [Out.mem_andThen_events] at he
        rcases he with he | ⟨_, he⟩
        · simp at he; subst he; rfl
        · simp [waitStep] at he; subst he; rfl

end KubernetesPullController

/-- C9, counterexample: `KubernetesPullController.Run` is woken twice by an
event and then cancelled, in the reference world.  Without a discovery
config both passes end at the first `continue`; with the Kubernetes
registry disabled both passes end at the second `continue`, the first
having destroyed the Affiliate the controller owns.  In both runs `Run`
returns nil and no call of `ResetRestartBackoff` lies between the two
receptions. -/
theorem pull_pass_without_reset_counterexample :
    ((KubernetesPullController.Run refPullEnv [.event, .event, .done] unconfiguredStart).result =
        .returned none ∧
      (KubernetesPullController.Run refPullEnv [.event, .event, .done] unconfiguredStart).events =
        [.wake .event, .getConfig (.err .notFound), .wake .event, .getConfig (.err .notFound),
         .wake .done] ∧
      ¬ ResetBetweenWakes
        (KubernetesPullController.Run refPullEnv [.event, .event, .done] unconfiguredStart).events) ∧
    ((KubernetesPullController.Run refPullEnv [.event, .event, .done] disabledStart).result =
        .returned none ∧
      (KubernetesPullController.Run refPullEnv [.event, .event, .done] disabledStart).events =
        [.wake .event, .getConfig (.ok ⟨false⟩),
         .listAffiliates (.ok [⟨"k8s/n1", KubernetesPullController.Name, ⟨"n1", "a"⟩⟩,
            ⟨"service/n2", "cluster.DiscoveryServiceController", ⟨"n2", "b"⟩⟩]),
         .destroyAffiliate "k8s/n1" none,
         .wake .event, .getConfig (.ok ⟨false⟩),
         .listAffiliates (.ok [⟨"service/n2", "cluster.DiscoveryServiceController", ⟨"n2", "b"⟩⟩]),
         .wake .done] ∧
      ¬ ResetBetweenWakes
        (KubernetesPullController.Run refPullEnv [.event, .event, .done] disabledStart).events) := by
  refine ⟨⟨by decide, by decide, ?_⟩, ⟨by decide, by decide, ?_⟩⟩
  · intro h
    have := h [] .event [.getConfig (.err .notFound)] .event
      [.getConfig (.err .notFound), .wake .done] (by decide)
    exact absurd this (by decide)
  · intro h
    have := h [] .event
      [.getConfig (.ok ⟨false⟩),
       .listAffiliates (.ok [⟨"k8s/n1", KubernetesPullController.Name, ⟨"n1", "a"⟩⟩,
          ⟨"service/n2", "cluster.DiscoveryServiceController", ⟨"n2", "b"⟩⟩]),
       .destroyAffiliate "k8s/n1" none]
      .event
      [.getConfig (.ok ⟨false⟩),
       .listAffiliates (.ok [⟨"service/n2", "cluster.DiscoveryServiceController", ⟨"n2", "b"⟩⟩]),
       .wake .done]
      (by decide)
    exact absurd this (by decide)

/-- C9, amended: in every run of `EtcFileController.Run` a call of
`ResetRestartBackoff` lies between any two receptions at the top-of-pass
`select`, so every pass that does not make `Run` return calls it before
the next wait.  A pass of `KubernetesPullController.Run` that ends without
error calls `ResetRestartBackoff` exactly when it reached the registry
listing: the passes ended by `continue` go back to the wait without it. -/
theorem reset_backoff_at_end_of_pass (env : EtcEnv W) (etcPath : String) (ws : List Wake)
    (s : EtcState W) (penv : PullEnv W) (ps : PullState W) :
    ResetBetweenWakes (EtcFileController.Run env etcPath ws s).events ∧
    ((KubernetesPullController.pass penv ps).err = none →
      (Event.resetRestartBackoff ∈ (KubernetesPullController.pass penv ps).events ↔
        ∃ nodename l, Event.registryList nodename (.ok l) ∈
          (KubernetesPullController.pass penv ps).events)) := by
  refine ⟨EtcFileController.run_resetBetweenWakes env etcPath ws s, ?_⟩
  intro hok
  rcases KubernetesPullController.pass_cases penv ps with hfree | ⟨n, s', herr, hsub⟩
  · constructor
    · intro h
      have := hfree _ h
      simp [Event.isPullTail] at this
    · rintro ⟨n, l, h⟩
      have := hfree _ h
      simp [Event.isPullTail] at this
  · rw [herr] at hok
    obtain ⟨⟨l, hl⟩, hr⟩ := KubernetesPullController.pull_facts penv n s' hok
    exact ⟨fun _ => ⟨n, l, hsub _ hl⟩, fun _ => hsub _ hr⟩

namespace KubernetesPullController

/-! ## C11, C12: NotFound and cancellation in `KubernetesPullController.Run` -/

theorem run_event (env : PullEnv W) (s : PullState W) (ws : List Wake) :
    ((pass env s).err = none →
      (Run env (.event :: ws) s).result = (Run env ws (pass env s).st).result) ∧
    (∀ e, (pass env s).err = some e → (Run env (.event :: ws) s).result = .returned (some e)) := by
  constructor
  · intro h
    simp [Run, h]
  · intro e h
    simp [Run, h]

theorem pass_config_err (env : PullEnv W) (s : PullState W) (e : Err)
    (hc : (env.getConfig s.world).1 = .err e) :
    (pass env s).events = [.getConfig (.err e)] ∧
    (pass env s).err =
      if e.isNotFound then none else some (.wrap "error getting discovery config" e) := by
  simp only [pass, hc]
  split <;> simp

theorem pass_nodename_err (env : PullEnv W) (s : PullState W) (cfg : DiscoveryConfig) (e : Err)
    (hc : (env.getConfig s.world).1 = .ok cfg) (hen : cfg.registryKubernetesEnabled = true)
    (hw : (env.waitKubeconfig (env.getConfig s.world).2).1 = none)
    (hn : (env.getNodename (env.waitKubeconfig (env.getConfig s.world).2).2).1 = .err e) :
    (pass env s).events = [.getConfig (.ok cfg), .waitKubeconfig none, .getNodename (.err e)] ∧
    (pass env s).err = if e.isNotFound then none else some (.wrap "error getting nodename" e) := by
  simp only [pass, hc, hen, if_true]
  have h1 : (Out.andThen (⟨none, { s with world := (env.getConfig s.world).2 },
      [.getConfig (.ok cfg)]⟩ : Out (PullState W)) (waitStep env)).err = none := by
    rw [Out.andThen_err_of_ok _ _ rfl]
    simp [waitStep, hw]
  rw [Out.andThen_events_of_ok _ _ h1, Out.andThen_err_of_ok _ _ h1,
    Out.andThen_events_of_ok _ _ rfl, Out.andThen_st_of_ok _ _ rfl]
  simp only [waitStep, afterWait, hw, hn]
  split <;> simp

/-- C11: in `KubernetesPullController.Run`, when the read of the discovery
config returns an error `e`: if `e` is NotFound the pass ends without error
after that single call and `Run` goes on with the next wake-up; otherwise
`Run` returns the wrapped error.  The same holds of the read of the
nodename, reached when the config is found with the registry enabled and
the kubeconfig wait succeeded: on NotFound the calls of the pass are the
three reads and waits only, no Affiliate is written or destroyed, and `Run`
goes on; on any other error `Run` returns the wrapped error. -/
theorem notFound_skips_pass (env : PullEnv W) (s : PullState W) (ws : List Wake) (e : Err) :
    ((env.getConfig s.world).1 = .err e →
      (e.isNotFound = true →
        (pass env s).err = none ∧ (pass env s).events = [.getConfig (.err e)] ∧
        (Run env (.event :: ws) s).result = (Run env ws (pass env s).st).result) ∧
      (e.isNotFound = false →
        (Run env (.event :: ws) s).result =
          .returned (some (.wrap "error getting discovery config" e)))) ∧
    (∀ cfg, (env.getConfig s.world).1 = .ok cfg → cfg.registryKubernetesEnabled = true →
      (env.waitKubeconfig (env.getConfig s.world).2).1 = none →
      (env.getNodename (env.waitKubeconfig (env.getConfig s.world).2).2).1 = .err e →
      (e.isNotFound = true →
        (pass env s).err = none ∧
        (pass env s).events =
          [.getConfig (.ok cfg), .waitKubeconfig none, .getNodename (.err e)] ∧
        (Run env (.event :: ws) s).result = (Run env ws (pass env s).st).result) ∧
      (e.isNotFound = false →
        (Run env (.event :: ws) s).result = .returned (some (.wrap "error getting nodename" e)))) := by
  constructor
  · intro hc
    obtain ⟨hev, herr⟩ := pass_config_err env s e hc
    constructor
    · intro hnf
      rw [hnf, if_pos rfl] at herr
      exact ⟨herr, hev, (run_event env s ws).1 herr⟩
    · intro hnf
      rw [hnf] at herr
      exact (run_event env s ws).2 _ (by simpa using herr)
  · intro cfg hc hen hw hn
    obtain ⟨hev, herr⟩ := pass_nodename_err env s cfg e hc hen hw hn
    constructor
    · intro hnf
      rw [hnf, if_pos rfl] at herr
      exact ⟨herr, hev, (run_event env s ws).1 herr⟩
    · intro hnf
      rw [hnf] at herr
      exact (run_event env s ws).2 _ (by simpa using herr)

/-- An error of the kubeconfig wait is returned by `Run` as it is. -/
theorem run_returns_wait_error (env : PullEnv W) (s : PullState W) (ws : List Wake)
    (cfg : DiscoveryConfig) (e : Err)
    (hc : (env.getConfig s.world).1 = .ok cfg) (hen : cfg.registryKubernetesEnabled = true)
    (hw : (env.waitKubeconfig (env.getConfig s.world).2).1 = some e) :
    (Run env (.event :: ws) s).result = .returned (some e) := by
  apply (run_event env s ws).2
  simp only [pass, hc, hen, if_true]
  have h1 : (Out.andThen (⟨none, { s with world := (env.getConfig s.world).2 },
      [.getConfig (.ok cfg)]⟩ : Out (PullState W)) (waitStep env)).err = some e := by
    rw [Out.andThen_err_of_ok _ _ rfl]
    simp [waitStep, hw]
  rw [Out.andThen_of_err _ _ (by rw [h1]; simp)]
  exact h1

/-- C12, at the failing input: both controllers return nil when the context
is done at the top-of-pass select; but when the context is cancelled while
`KubernetesPullController.Run` waits for the kubelet kubeconfig, the wait
returns `context.Canceled` and `Run` returns that error, not nil. -/
theorem cancelled_kubeconfig_wait_returns_error :
    (EtcFileController.Run refEnv "/etc" [.done] hostsStart).result = .returned none ∧
    (Run refPullEnv [.done] enabledStart).result = .returned none ∧
    (Run cancelledWaitEnv [.event] enabledStart).result = .returned (some .canceled) ∧
    (Run cancelledWaitEnv [.event] enabledStart).events =
      [.wake .event, .getConfig (.ok ⟨true⟩), .waitKubeconfig (some .canceled)] := by
  decide

end KubernetesPullController

/-! ## C13, C14: `WaitForDevicesReady` -/

theorem restoreInputs_cases (env : SyncEnv W) (nextInputs : List Input) (w : W) :
    ((restoreInputs env nextInputs w).result = .returned none ∧
      (restoreInputs env nextInputs w).events = [.updateInputs nextInputs none, .queueReconcile]) ∨
    ∃ e, (restoreInputs env nextInputs w).result = .returned (some e) ∧
      (restoreInputs env nextInputs w).events = [.updateInputs nextInputs (some e)] := by
  simp only [restoreInputs]
  cases h : (env.updateInputs nextInputs w).1 with
  | none => left; simp
  | some e => right; exact ⟨e, by simp⟩

/-- How the loop of `WaitForDevicesReady` ends with an error: on `ctx.Done()`,
on a read error other than NotFound, or on a failing restore of the inputs. -/
theorem waitDevices_error (env : SyncEnv W) (nextInputs : List Input) (ws : List Wake) :
    ∀ (w : W) (e : Err), (waitDevices env nextInputs ws w).result = .returned (some e) →
      ∃ pre x, (waitDevices env nextInputs ws w).events = pre ++ [x] ∧
        ((x = .wake .done ∧ e = env.ctxErr) ∨
         (x = .getDevicesStatus (.err e) ∧ e.isNotFound = false) ∨
         x = .updateInputs nextInputs (some e)) := by
  induction ws with
  | nil => intro w e h; simp [waitDevices] at h
  | cons k ws ih =>
    intro w e h
    cases k with
    | done =>
      simp only [waitDevices, RunResult.returned.injEq, Option.some.injEq] at h
      exact ⟨[], .wake .done, by simp [waitDevices], Or.inl ⟨rfl, h.symm⟩⟩
    | notify =>
      simp only [waitDevices] at h ⊢
      exact ih w e h
    | event =>
      cases hr : (env.getDevicesStatus w).1 with
      | err x =>
        cases hnf : x.isNotFound with
        | true =>
          simp only [waitDevices, hr, hnf, if_true] at h ⊢
          obtain ⟨pre, y, hev, hy⟩ := ih _ e h
          exact ⟨.wake .event :: .getDevicesStatus (.err x) :: pre, y, by rw [hev]; simp, hy⟩
        | false =>
          simp only [waitDevices, hr, hnf, Bool.false_eq_true, if_false,
            RunResult.returned.injEq, Option.some.injEq] at h ⊢
          subst h
          exact ⟨[.wake .event], .getDevicesStatus (.err x), by simp, Or.inr (Or.inl ⟨rfl, hnf⟩)⟩
      | ok ready =>
        cases ready with
        | true =>
          simp only [waitDevices, hr, if_true] at h ⊢
          rcases restoreInputs_cases env nextInputs (env.getDevicesStatus w).2 with
            ⟨h1, _⟩ | ⟨e', h1, h2⟩
          · rw [h1] at h; simp at h
          · rw [h1] at h
            simp only [RunResult.returned.injEq, Option.some.injEq] at h
            subst h
            exact ⟨[.wake .event, .getDevicesStatus (.ok true)], .updateInputs nextInputs (some e'),
              by rw [h2]; simp, Or.inr (Or.inr rfl)⟩
        | false =>
          simp only [waitDevices, hr, Bool.false_eq_true, if_false] at h ⊢
          obtain ⟨pre, y, hev, hy⟩ := ih _ e h
          exact ⟨.wake .event :: .getDevicesStatus (.ok false) :: pre, y, by rw [hev]; simp, hy⟩

/-- C13, counterexample: in the reference world the helper is woken once and
the read of `DevicesStatus` fails with "connection refused"; with a failing
`UpdateInputs` the helper is not even woken.  In both runs the helper
returns a non-nil error though `ctx.Done()` was never received. -/
theorem waitForDevicesReady_error_without_cancel_counterexample :
    ((WaitForDevicesReady refSyncEnv nextInputsExample [.event] brokenReadWorld).result =
        .returned (some (.other "connection refused")) ∧
      (WaitForDevicesReady refSyncEnv nextInputsExample [.event] brokenReadWorld).events =
        [.updateInputs [refSyncEnv.devicesInput] none, .wake .event,
         .getDevicesStatus (.err (.other "connection refused"))] ∧
      Event.wake .done ∉
        (WaitForDevicesReady refSyncEnv nextInputsExample [.event] brokenReadWorld).events) ∧
    ((WaitForDevicesReady failingUpdateEnv nextInputsExample [.event] readyThirdWorld).result =
        .returned (some (.other "update failed")) ∧
      Event.wake .done ∉
        (WaitForDevicesReady failingUpdateEnv nextInputsExample [.event] readyThirdWorld).events) := by
  decide

/-- C13, amended: when `WaitForDevicesReady` returns a non-nil error `e`, its
last call is the cause: the initial `UpdateInputs` failed with `e` (and
nothing else was called), or `ctx.Done()` was received and `e` is
`ctx.Err()`, or the read of `DevicesStatus` failed with `e`, not a NotFound
error, or the restoring `UpdateInputs` failed with `e`. -/
theorem waitForDevicesReady_error_causes (env : SyncEnv W) (nextInputs : List Input)
    (ws : List Wake) (w : W) (e : Err)
    (h : (WaitForDevicesReady env nextInputs ws w).result = .returned (some e)) :
    (WaitForDevicesReady env nextInputs ws w).events = [.updateInputs [env.devicesInput] (some e)] ∨
    ∃ pre x, (WaitForDevicesReady env nextInputs ws w).events = pre ++ [x] ∧
      ((x = .wake .done ∧ e = env.ctxErr) ∨
       (x = .getDevicesStatus (.err e) ∧ e.isNotFound = false) ∨
       x = .updateInputs nextInputs (some e)) := by
  cases hu : (env.updateInputs [env.devicesInput] w).1 with
  | some x =>
    left
    simp only [WaitForDevicesReady, hu, RunResult.returned.injEq, Option.some.injEq] at h ⊢
    subst h
    rfl
  | none =>
    right
    simp only [WaitForDevicesReady, hu] at h ⊢
    obtain ⟨pre, y, hev, hy⟩ := waitDevices_error env nextInputs ws _ e h
    exact ⟨.updateInputs [env.devicesInput] none :: pre, y, by rw [hev]; simp, hy⟩

/-- Witness for C13 amended: the run with the failing read. -/
theorem waitForDevicesReady_error_causes_witness :
    (WaitForDevicesReady refSyncEnv nextInputsExample [.event] brokenReadWorld).result =
        .returned (some (.other "connection refused")) ∧
    ((WaitForDevicesReady refSyncEnv nextInputsExample [.event] brokenReadWorld).events =
        [.updateInputs [refSyncEnv.devicesInput] (some (.other "connection refused"))] ∨
      ∃ pre x, (WaitForDevicesReady refSyncEnv nextInputsExample [.event] brokenReadWorld).events =
          pre ++ [x] ∧
        ((x = .wake .done ∧ Err.other "connection refused" = refSyncEnv.ctxErr) ∨
         (x = .getDevicesStatus (.err (.other "connection refused")) ∧
            (Err.other "connection refused").isNotFound = false) ∨
         x = .updateInputs nextInputsExample (some (.other "connection refused")))) :=
  ⟨by decide,
   waitForDevicesReady_error_causes refSyncEnv nextInputsExample [.event] brokenReadWorld
     (.other "connection refused") (by decide)⟩

/-- The calls of the loop of `WaitForDevicesReady` when the helper returns
nil: receptions of an event each followed by a read that lets it keep
waiting, then a reception followed by a read that finds the devices ready,
the restore of the inputs and one `QueueReconcile`. -/
theorem waitDevices_ok (env : SyncEnv W) (nextInputs : List Input) (ws : List Wake) :
    ∀ w : W, (waitDevices env nextInputs ws w).result = .returned none →
      ∃ reads : List (Res Bool), (∀ r ∈ reads, notReady r = true) ∧
        (waitDevices env nextInputs ws w).events =
          reads.flatMap (fun r => [.wake .event, .getDevicesStatus r]) ++
            [.wake .event, .getDevicesStatus (.ok true), .updateInputs nextInputs none,
             .queueReconcile] := by
  induction ws with
  | nil => intro w h; simp [waitDevices] at h
  | cons k ws ih =>
    intro w h
    cases k with
    | done => simp [waitDevices] at h
    | notify =>
      simp only [waitDevices] at h ⊢
      exact ih w h
    | event =>
      cases hr : (env.getDevicesStatus w).1 with
      | err x =>
        cases hnf : x.isNotFound with
        | true =>
          simp only [waitDevices, hr, hnf, if_true] at h ⊢
          obtain ⟨reads, hreads, hev⟩ := ih _ h
          refine ⟨.err x :: reads, ?_, by rw [hev]; simp⟩
          intro r hmem
          rcases List.mem_cons.mp hmem with rfl | hmem
          · simpa [notReady] using hnf
          · exact hreads r hmem
        | false => simp [waitDevices, hr, hnf] at h
      | ok ready =>
        cases ready with
        | true =>
          simp only [waitDevices, hr, if_true] at h ⊢
          rcases restoreInputs_cases env nextInputs (env.getDevicesStatus w).2 with
            ⟨_, h2⟩ | ⟨e', h1, _⟩
          · exact ⟨[], by simp, by rw [h2]; simp⟩
          · rw [h1] at h; simp at h
        | false =>
          simp only [waitDevices, hr, Bool.false_eq_true, if_false] at h ⊢
          obtain ⟨reads, hreads, hev⟩ := ih _ h
          refine ⟨.ok false :: reads, ?_, by rw [hev]; simp⟩
          intro r hmem
          rcases List.mem_cons.mp hmem with rfl | hmem
          · rfl
          · exact hreads r hmem

/-- While every read lets the helper keep waiting, the loop does not return
nil, does not call `UpdateInputs` and does not queue a reconcile. -/
theorem waitDevices_waiting (env : SyncEnv W) (nextInputs : List Input) (ws : List Wake) :
    ∀ w : W, (∀ r, Event.getDevicesStatus r ∈ (waitDevices env nextInputs ws w).events →
        notReady r = true) →
      (waitDevices env nextInputs ws w).result ≠ .returned none ∧
      ∀ ev ∈ (waitDevices env nextInputs ws w).events,
        ev.isUpdateInputs = false ∧ ev ≠ .queueReconcile := by
  induction ws with
  | nil => intro w _; simp [waitDevices]
  | cons k ws ih =>
    intro w h
    cases k with
    | done => simp [waitDevices, Event.isUpdateInputs]
    | notify =>
      simp only [waitDevices] at h ⊢
      exact ih w h
    | event =>
      cases hr : (env.getDevicesStatus w).1 with
      | err x =>
        cases hnf : x.isNotFound with
        | true =>
          simp only [waitDevices, hr, hnf, if_true] at h ⊢
          obtain ⟨h1, h2⟩ := ih (env.getDevicesStatus w).2 (fun r hm => h r (by simp [hm]))
          refine ⟨h1, ?_⟩
          intro ev hev
          simp only [List.mem_cons] at hev
          rcases hev with rfl | rfl | hev
          · simp [Event.isUpdateInputs]
          · simp [Event.isUpdateInputs]
          · exact h2 ev hev
        | false => simp [waitDevices, hr, hnf, Event.isUpdateInputs]
      | ok ready =>
        cases ready with
        | true =>
          exfalso
          have := h (.ok true) (by simp [waitDevices, hr])
          simp [notReady] at this
        | false =>
          simp only [waitDevices, hr, Bool.false_eq_true, if_false] at h ⊢
          obtain ⟨h1, h2⟩ := ih (env.getDevicesStatus w).2 (fun r hm => h r (by simp [hm]))
          refine ⟨h1, ?_⟩
          intro ev hev
          simp only [List.mem_cons] at hev
          rcases hev with rfl | rfl | hev
          · simp [Event.isUpdateInputs]
          · simp [Event.isUpdateInputs]
          · exact h2 ev hev

/-- C14: when `WaitForDevicesReady(ctx, r, X)` returns nil, its calls are, in
order: `UpdateInputs` with the single weak input on `DevicesStatus`,
`DevicesID`; receptions of an event each followed by a get-by-id that
returns NotFound or `Ready=false`; a reception followed by a get-by-id that
returns `Ready=true`; `UpdateInputs(X)`; one `QueueReconcile`.  And while
every read returns NotFound or `Ready=false`, the helper does not return
nil, makes no `UpdateInputs` call after the first and queues no reconcile. -/
theorem waitForDevicesReady_trace (env : SyncEnv W) (nextInputs : List Input) (ws : List Wake)
    (w : W) :
    (env.devicesInput = ⟨env.NamespaceName, env.DevicesStatusType, some env.DevicesID, .weak⟩) ∧
    ((WaitForDevicesReady env nextInputs ws w).result = .returned none →
      ∃ reads : List (Res Bool), (∀ r ∈ reads, notReady r = true) ∧
        (WaitForDevicesReady env nextInputs ws w).events =
          .updateInputs [env.devicesInput] none ::
            (reads.flatMap (fun r => [.wake .event, .getDevicesStatus r]) ++
              [.wake .event, .getDevicesStatus (.ok true), .updateInputs nextInputs none,
               .queueReconcile])) ∧
    ((∀ r, Event.getDevicesStatus r ∈ (WaitForDevicesReady env nextInputs ws w).events →
        notReady r = true) →
      (WaitForDevicesReady env nextInputs ws w).result ≠ .returned none ∧
      ∃ r₀ rest, (WaitForDevicesReady env nextInputs ws w).events =
          .updateInputs [env.devicesInput] r₀ :: rest ∧
        ∀ ev ∈ rest, ev.isUpdateInputs = false ∧ ev ≠ .queueReconcile) := by
  refine ⟨rfl, ?_, ?_⟩
  · intro h
    cases hu : (env.updateInputs [env.devicesInput] w).1 with
    | some x => simp [WaitForDevicesReady, hu] at h
    | none =>
      simp only [WaitForDevicesReady, hu] at h ⊢
      obtain ⟨reads, hreads, hev⟩ := waitDevices_ok env nextInputs ws _ h
      exact ⟨reads, hreads, by rw [hev]⟩
  · intro h
    cases hu : (env.updateInputs [env.devicesInput] w).1 with
    | some x =>
      simp only [WaitForDevicesReady, hu]
      exact ⟨by simp, some x, [], rfl, by simp⟩
    | none =>
      simp only [WaitForDevicesReady, hu] at h ⊢
      obtain ⟨h1, h2⟩ := waitDevices_waiting env nextInputs ws
        (env.updateInputs [env.devicesInput] w).2 (fun r hm => h r (by simp [hm]))
      exact ⟨h1, none, _, rfl, h2⟩

/-- Witness for C14: the devices are found not ready, then missing, then
ready, in the reference world. -/
theorem waitForDevicesReady_trace_witness :
    (WaitForDevicesReady refSyncEnv nextInputsExample [.event, .event, .event] readyThirdWorld).result =
      .returned none ∧
    ∃ reads : List (Res Bool), (∀ r ∈ reads, notReady r = true) ∧
      (WaitForDevicesReady refSyncEnv nextInputsExample [.event, .event, .event]
          readyThirdWorld).events =
        .updateInputs [refSyncEnv.devicesInput] none ::
          (reads.flatMap (fun r => [.wake .event, .getDevicesStatus r]) ++
            [.wake .event, .getDevicesStatus (.ok true), .updateInputs nextInputsExample none,
             .queueReconcile]) :=
  ⟨by decide,
   (waitForDevicesReady_trace refSyncEnv nextInputsExample [.event, .event, .event]
      readyThirdWorld).2.1 (by decide)⟩

/-! ## C15, C16: `block.Size` -/

theorem parseTable_text (table : List (String × Nat)) (t : String) (p : Parsed)
    (h : parseTable table t = .ok p) : p.text = t := by
  unfold parseTable at h
  cases hl : table.lookup t with
  | none => simp [hl] at h
  | some v =>
    simp [hl] at h
    rw [← h]

/-- C15: if `UnmarshalText` of `t` into a zero `Size` returns nil, then `t` is
empty and the `Size` is still zero, or `t` contains `%` and was accepted
by `PercentageSize`, or `t` has no `%` and was accepted by `ByteSize`; and,
`PercentageSize` and `ByteSize` marshalling back the text they were
unmarshalled from, `MarshalText` on the result returns `t` without error.
For the empty text `Value()` is 0 and the marshalled text is empty. -/
theorem size_text_roundtrip {PS BS : Type} (c : SizeCodec PS BS)
    (hps : ∀ t p, c.psUnmarshalText t = .ok p → c.psMarshalText p = .ok t)
    (hbs : ∀ t b, c.bsUnmarshalText t = .ok b → c.bsMarshalText b = .ok t)
    (t : String) (s : Size PS BS) (h : Size.UnmarshalText c Size.zero t = (none, s)) :
    Size.MarshalText c s = .ok t ∧
    ((t = "" ∧ s = Size.zero) ∨
      ('%' ∈ t.data ∧ ∃ p, c.psUnmarshalText t = .ok p ∧ s = ⟨some p, none⟩) ∨
      ('%' ∉ t.data ∧ ∃ b, c.bsUnmarshalText t = .ok b ∧ s = ⟨none, some b⟩)) ∧
    (t = "" → Size.Value c s = 0 ∧ Size.MarshalText c s = .ok "") := by
  unfold Size.UnmarshalText at h
  by_cases ht : t = ""
  · simp only [ht, if_true, Prod.mk.injEq, true_and] at h
    subst h
    subst ht
    simp [Size.MarshalText, Size.Value, Size.zero]
  · simp only [ht, if_false] at h
    by_cases hp : '%' ∈ t.data
    · simp only [hp, if_true] at h
      cases hu : c.psUnmarshalText t with
      | err e => simp [hu] at h
      | ok p =>
        simp only [hu, Prod.mk.injEq, true_and] at h
        subst h
        refine ⟨?_, Or.inr (Or.inl ⟨hp, p, rfl, rfl⟩), fun h0 => absurd h0 ht⟩
        simp [Size.MarshalText, Size.zero, hps t p hu]
    · simp only [hp, if_false] at h
      cases hu : c.bsUnmarshalText t with
      | err e => simp [hu] at h
      | ok b =>
        simp only [hu, Prod.mk.injEq, true_and] at h
        subst h
        refine ⟨?_, Or.inr (Or.inr ⟨hp, b, rfl, rfl⟩), fun h0 => absurd h0 ht⟩
        simp [Size.MarshalText, Size.zero, hbs t b hu]

/-- Witness for C15: the text `2.5GiB` of `TestSizeUnmarshal` with the
reference codec. -/
theorem size_text_roundtrip_witness :
    Size.UnmarshalText tableCodec Size.zero "2.5GiB" = (none, ⟨none, some ⟨"2.5GiB", 2684354560⟩⟩) ∧
    Size.MarshalText tableCodec (⟨none, some ⟨"2.5GiB", 2684354560⟩⟩ : Size Parsed Parsed) =
      .ok "2.5GiB" :=
  ⟨by decide,
   (size_text_roundtrip tableCodec
      (fun t p h => by
        show Res.ok p.text = Res.ok t
        rw [parseTable_text _ t p h])
      (fun t b h => by
        show Res.ok b.text = Res.ok t
        rw [parseTable_text _ t b h])
      "2.5GiB" ⟨none, some ⟨"2.5GiB", 2684354560⟩⟩ (by decide)).1⟩

/-- C16, at the failing input: with the reference codec `MustSize("100%")`
returns a `Size` with only the percentage set; `UnmarshalText("1MiB")` on
it returns nil and leaves both components set, `Value()` being then the
byte value. -/
theorem size_both_components_set :
    MustSize tableCodec "100%" = .returned ⟨some ⟨"100%", 100⟩, none⟩ ∧
    Size.UnmarshalText tableCodec ⟨some ⟨"100%", 100⟩, none⟩ "1MiB" =
      (none, ⟨some ⟨"100%", 100⟩, some ⟨"1MiB", 1048576⟩⟩) ∧
    Size.Value tableCodec ⟨some ⟨"100%", 100⟩, some ⟨"1MiB", 1048576⟩⟩ = 1048576 := by
  decide

/-! ## C17, C20: `NewPartitionOptions` -/

/-- C17, counterexample: with the labels EFI, BIOS, BOOT, META, STATE,
EPHEMERAL, IMAGECACHE, the call for the label `UNKNOWN` panics, whether
`NewFormatOptions` knows the label or not; no error is returned. -/
theorem newPartitionOptions_panics_counterexample :
    NewPartitionOptions talosLabels (fun _ => some ()) "UNKNOWN" false exampleSizes =
      .panicked (.msg ("unknown partition label " ++ goQuote "UNKNOWN")) ∧
    NewPartitionOptions talosLabels (fun _ => (none : Option Unit)) "UNKNOWN" false exampleSizes =
      .panicked (.msg ("unknown format options for label " ++ goQuote "UNKNOWN")) := by
  decide

/-- C17, amended: `NewPartitionOptions` has no error result; for every label
for which `NewFormatOptions` returns nil, and for every label outside the
seven known ones, it panics, with a message that names the label. -/
theorem newPartitionOptions_invalid_label_panics {F : Type} (c : PartitionLabels)
    (NewFormatOptions : String → Option F) (label : String) (uki : Bool) (quirk : PartitionSizes)
    (h : NewFormatOptions label = none ∨ label ∉ c.all) :
    NewPartitionOptions c NewFormatOptions label uki quirk =
      .panicked (.msg
        (if (NewFormatOptions label).isNone then "unknown format options for label " ++ goQuote label
         else "unknown partition label " ++ goQuote label)) := by
  unfold NewPartitionOptions
  cases hf : NewFormatOptions label with
  | none => rfl
  | some f =>
    rcases h with h | h
    · rw [hf] at h; cases h
    · simp only [PartitionLabels.all, List.mem_cons, List.mem_singleton, not_or, List.not_mem_nil,
        or_false] at h
      obtain ⟨h1, h2, h3, h4, h5, h6, h7⟩ := h
      simp only [h1, h2, h3, h4, h5, h6, h7, if_false]
      rfl

/-- Witness for C17 amended. -/
theorem newPartitionOptions_invalid_label_panics_witness :
    ((fun _ => some ()) "UNKNOWN" = (none : Option Unit) ∨ "UNKNOWN" ∉ talosLabels.all) ∧
    NewPartitionOptions talosLabels (fun _ => some ()) "UNKNOWN" true exampleSizes =
      .panicked (.msg ("unknown partition label " ++ goQuote "UNKNOWN")) :=
  ⟨Or.inr (by decide),
   newPartitionOptions_invalid_label_panics talosLabels (fun _ => some ()) "UNKNOWN" true
     exampleSizes (Or.inr (by decide))⟩

/-- C20: for pairwise distinct labels and a label for which
`NewFormatOptions` is not nil, `NewPartitionOptions(label, uki, quirk)`
panics exactly when the label is none of the seven or `uki` is set and the
label is BIOS or BOOT; otherwise it returns options with the format
options of the label, `PartitionLabel = label`, the partition type
EFISystemPartition for EFI, BIOSBootPartition for BIOS and
LinuxFilesystemData for the others, the size UKIEFISize (with `uki`) or
GrubEFISize for EFI, GrubBIOSSize for BIOS, GrubBootSize for BOOT, METASize
for META, StateSize for STATE and 0 for EPHEMERAL and IMAGECACHE, and
`PartitionOpts` non-empty exactly for BIOS. -/
theorem newPartitionOptions_table {F : Type} (c : PartitionLabels)
    (NewFormatOptions : String → Option F) (label : String) (uki : Bool) (quirk : PartitionSizes)
    (f : F) (hd : c.all.Nodup) (hf : NewFormatOptions label = some f) :
    ((NewPartitionOptions c NewFormatOptions label uki quirk).isPanic = true ↔
      (label ∉ c.all ∨
        (uki = true ∧ (label = c.BIOSGrubPartitionLabel ∨ label = c.BootPartitionLabel)))) ∧
    ((NewPartitionOptions c NewFormatOptions label uki quirk).isPanic = false →
      ∃ o, NewPartitionOptions c NewFormatOptions label uki quirk = .returned o ∧
        o.FormatOptions = f ∧ o.PartitionLabel = label ∧
        o.PartitionType =
          (if label = c.EFIPartitionLabel then PartitionType.EFISystemPartition
           else if label = c.BIOSGrubPartitionLabel then PartitionType.BIOSBootPartition
           else PartitionType.LinuxFilesystemData) ∧
        o.Size =
          (if label = c.EFIPartitionLabel then (if uki then quirk.UKIEFISize else quirk.GrubEFISize)
           else if label = c.BIOSGrubPartitionLabel then quirk.GrubBIOSSize
           else if label = c.BootPartitionLabel then quirk.GrubBootSize
           else if label = c.MetaPartitionLabel then quirk.METASize
           else if label = c.StatePartitionLabel then quirk.StateSize
           else 0) ∧
        (o.PartitionOpts ≠ [] ↔ label = c.BIOSGrubPartitionLabel)) := by
  simp only [PartitionLabels.all, List.nodup_cons, List.mem_cons, List.mem_singleton, not_or,
    List.not_mem_nil, or_false, List.nodup_nil, and_true, not_false_eq_true] at hd
  obtain ⟨⟨e1, e2, e3, e4, e5, e6⟩, ⟨b1, b2, b3, b4, b5⟩, ⟨o1, o2, o3, o4⟩, ⟨m1, m2, m3⟩,
    ⟨s1, s2⟩, p1⟩ := hd
  simp only [NewPartitionOptions, hf, PartitionLabels.all, List.mem_cons, List.mem_singleton,
    List.not_mem_nil, or_false]
  by_cases h1 : label = c.EFIPartitionLabel
  · subst h1
    simp [Outcome.isPanic, e1, e2]
  · by_cases h2 : label = c.BIOSGrubPartitionLabel
    · subst h2
      cases uki <;> simp [Outcome.isPanic, h1]
    · by_cases h3 : label = c.BootPartitionLabel
      · subst h3
        cases uki <;> simp [Outcome.isPanic, h1, h2]
      · by_cases h4 : label = c.MetaPartitionLabel
        · subst h4
          simp [Outcome.isPanic, h1, h2, h3]
        · by_cases h5 : label = c.StatePartitionLabel
          · subst h5
            simp [Outcome.isPanic, h1, h2, h3, h4]
          · by_cases h6 : label = c.EphemeralPartitionLabel
            · subst h6
              simp [Outcome.isPanic, h1, h2, h3, h4, h5]
            · by_cases h7 : label = c.ImageCachePartitionLabel
              · subst h7
                simp [Outcome.isPanic, h1, h2, h3, h4, h5, h6]
              · simp [Outcome.isPanic, h1, h2, h3, h4, h5, h6, h7]

/-- Witness for C20: the BIOS partition without UKI. -/
theorem newPartitionOptions_table_witness :
    talosLabels.all.Nodup ∧
    ∃ o, NewPartitionOptions talosLabels (fun _ => some ()) "BIOS" false exampleSizes = .returned o ∧
      o.FormatOptions = () ∧ o.PartitionLabel = "BIOS" ∧
      o.PartitionType =
        (if "BIOS" = talosLabels.EFIPartitionLabel then PartitionType.EFISystemPartition
         else if "BIOS" = talosLabels.BIOSGrubPartitionLabel then PartitionType.BIOSBootPartition
         else PartitionType.LinuxFilesystemData) ∧
      o.Size =
        (if "BIOS" = talosLabels.EFIPartitionLabel then
          (if false then exampleSizes.UKIEFISize else exampleSizes.GrubEFISize)
         else if "BIOS" = talosLabels.BIOSGrubPartitionLabel then exampleSizes.GrubBIOSSize
         else if "BIOS" = talosLabels.BootPartitionLabel then exampleSizes.GrubBootSize
         else if "BIOS" = talosLabels.MetaPartitionLabel then exampleSizes.METASize
         else if "BIOS" = talosLabels.StatePartitionLabel then exampleSizes.StateSize
         else 0) ∧
      (o.PartitionOpts ≠ [] ↔ "BIOS" = talosLabels.BIOSGrubPartitionLabel) :=
  ⟨by decide,
   (newPartitionOptions_table talosLabels (fun _ => some ()) "BIOS" false exampleSizes ()
      (by decide) rfl).2 (by decide)⟩

/-! ## C18: `FS.Create` -/

theorem FS.Create_done (u : UnixConsts) (env : OpenTreeEnv W) (s : FsState W)
    (h : s.fs.createOnce = true) :
    FS.Create u env s = ⟨s.fs.mntfd, s.fs.createError, s, []⟩ := by
  simp [FS.Create, h]

theorem FS.CreateN_done (u : UnixConsts) (env : OpenTreeEnv W) (n : Nat) (s : FsState W)
    (h : s.fs.createOnce = true) :
    FS.CreateN u env n s = ⟨List.replicate n (s.fs.mntfd, s.fs.createError), s, []⟩ := by
  induction n with
  | zero => rfl
  | succ n ih => simp [FS.CreateN, FS.Create_done u env s h, ih, List.replicate_succ]

theorem FS.new_events (env : OpenTreeEnv W) (flags : Nat) (s : FsState W) :
    (FS.new env flags s).events =
      [.openTree s.fs.rootfd s.fs.root flags (env.openTree s.fs.rootfd s.fs.root flags s.world).1] := by
  cases hr : (env.openTree s.fs.rootfd s.fs.root flags s.world).1 <;> simp only [FS.new, hr]

theorem FS.Create_first (u : UnixConsts) (env : OpenTreeEnv W) (s : FsState W)
    (h : s.fs.createOnce = false) :
    (FS.Create u env s).st.fs.createOnce = true ∧
    (FS.Create u env s).st.fs.mntfd = (FS.Create u env s).fd ∧
    (FS.Create u env s).st.fs.createError = (FS.Create u env s).err ∧
    (FS.Create u env s).events =
      [.openTree s.fs.rootfd s.fs.root
        (if s.fs.root = "" then (u.OPEN_TREE_CLONE ||| u.OPEN_TREE_CLOEXEC) ||| u.AT_EMPTY_PATH
         else u.OPEN_TREE_CLONE ||| u.OPEN_TREE_CLOEXEC)
        (env.openTree s.fs.rootfd s.fs.root
          (if s.fs.root = "" then (u.OPEN_TREE_CLONE ||| u.OPEN_TREE_CLOEXEC) ||| u.AT_EMPTY_PATH
           else u.OPEN_TREE_CLONE ||| u.OPEN_TREE_CLOEXEC) s.world).1] := by
  simp [FS.Create, h, FS.new_events]

theorem FS.Create_first_result (u : UnixConsts) (env : OpenTreeEnv W) (s : FsState W)
    (h : s.fs.createOnce = false) :
    ((FS.Create u env s).fd, (FS.Create u env s).err) =
      match (env.openTree s.fs.rootfd s.fs.root
          (if s.fs.root = "" then (u.OPEN_TREE_CLONE ||| u.OPEN_TREE_CLOEXEC) ||| u.AT_EMPTY_PATH
           else u.OPEN_TREE_CLONE ||| u.OPEN_TREE_CLOEXEC) s.world).1 with
      | .ok fd => (fd, none)
      | .err e => (s.fs.mntfd, some (.wrap ("unix.OpenTree on " ++ goQuote s.fs.root ++ " failed") e)) := by
  cases hr : (env.openTree s.fs.rootfd s.fs.root
          (if s.fs.root = "" then (u.OPEN_TREE_CLONE ||| u.OPEN_TREE_CLOEXEC) ||| u.AT_EMPTY_PATH
           else u.OPEN_TREE_CLONE ||| u.OPEN_TREE_CLOEXEC) s.world).1 <;>
    simp only [FS.Create, h, FS.new, hr, Bool.false_eq_true, if_false]

/-- C18: on an `FS` whose `Once` has not run, a sequence of `n + 1` calls of
`Create` calls `unix.OpenTree` exactly once, in the first call, with the
flags `OPEN_TREE_CLONE|OPEN_TREE_CLOEXEC`, and `AT_EMPTY_PATH` added exactly
when the root path is empty; every call returns the pair of the first call,
which is the new descriptor and nil if `OpenTree` succeeded and the old
`mntfd` and the wrapped error if it failed. -/
theorem create_idempotent (u : UnixConsts) (env : OpenTreeEnv W) (s : FsState W) (n : Nat)
    (h : s.fs.createOnce = false) :
    (FS.CreateN u env (n + 1) s).events = (FS.Create u env s).events ∧
    (FS.Create u env s).events =
      [.openTree s.fs.rootfd s.fs.root
        (if s.fs.root = "" then (u.OPEN_TREE_CLONE ||| u.OPEN_TREE_CLOEXEC) ||| u.AT_EMPTY_PATH
         else u.OPEN_TREE_CLONE ||| u.OPEN_TREE_CLOEXEC)
        (env.openTree s.fs.rootfd s.fs.root
          (if s.fs.root = "" then (u.OPEN_TREE_CLONE ||| u.OPEN_TREE_CLOEXEC) ||| u.AT_EMPTY_PATH
           else u.OPEN_TREE_CLONE ||| u.OPEN_TREE_CLOEXEC) s.world).1] ∧
    (FS.CreateN u env (n + 1) s).results =
      List.replicate (n + 1) ((FS.Create u env s).fd, (FS.Create u env s).err) ∧
    ((FS.Create u env s).fd, (FS.Create u env s).err) =
      (match (env.openTree s.fs.rootfd s.fs.root
          (if s.fs.root = "" then (u.OPEN_TREE_CLONE ||| u.OPEN_TREE_CLOEXEC) ||| u.AT_EMPTY_PATH
           else u.OPEN_TREE_CLONE ||| u.OPEN_TREE_CLOEXEC) s.world).1 with
      | .ok fd => (fd, none)
      | .err e =>
        (s.fs.mntfd, some (.wrap ("unix.OpenTree on " ++ goQuote s.fs.root ++ " failed") e))) := by
  obtain ⟨h1, h2, h3, h4⟩ := FS.Create_first u env s h
  refine ⟨?_, h4, ?_, FS.Create_first_result u env s h⟩
  · simp [FS.CreateN, FS.CreateN_done u env n _ h1]
  · simp [FS.CreateN, FS.CreateN_done u env n _ h1, h2, h3, List.replicate_succ]

/-- Witness for C18: three calls on `NewFromPath("")` with a system call that
would return a new descriptor each time. -/
theorem create_idempotent_witness :
    (FS.CreateN linuxConsts countingOpenTree 3 ⟨NewFromPath linuxConsts "", 0⟩).events =
      [.openTree (-100) "" 0x81001 (.ok 3)] ∧
    (FS.CreateN linuxConsts countingOpenTree 3 ⟨NewFromPath linuxConsts "", 0⟩).results =
      [(3, none), (3, none), (3, none)] :=
  have h := create_idempotent linuxConsts countingOpenTree ⟨NewFromPath linuxConsts "", 0⟩ 2 rfl
  ⟨h.1.trans (by decide), h.2.2.1.trans (by decide)⟩

/-- The failing case of C18 on the reference system call: one `OpenTree`,
and each of the three calls returns the zero descriptor and the wrapped
error; with a path, `AT_EMPTY_PATH` is not among the flags. -/
theorem create_failure_example :
    (FS.CreateN linuxConsts failingOpenTree 3 ⟨NewFromPath linuxConsts "/usr", 0⟩).events =
      [.openTree (-100) "/usr" 0x80001 (.err (.other "ENOENT"))] ∧
    (FS.CreateN linuxConsts failingOpenTree 3 ⟨NewFromPath linuxConsts "/usr", 0⟩).results =
      List.replicate 3
        (0, some (.wrap ("unix.OpenTree on " ++ goQuote "/usr" ++ " failed") (.other "ENOENT"))) := by
  decide

/-! ## C19: the upserts of a pull pass -/

namespace KubernetesPullController

/-- The loop over the listed specs, when it ends without error: one upsert
per spec, in order, under the id `k8s/<NodeID>`, each id added to
`touchedIDs`. -/
theorem upsertLoop_ok (env : PullEnv W) (specs : List AffiliateSpec) :
    ∀ s : PullState W, (forEach (upsertStep env) specs s).err = none →
      (forEach (upsertStep env) specs s).events =
        specs.map (fun sp => Event.modifyAffiliate ("k8s/" ++ sp.nodeID) sp none) ∧
      (forEach (upsertStep env) specs s).st.touchedIDs =
        (specs.map fun sp => "k8s/" ++ sp.nodeID).reverse ++ s.touchedIDs := by
  induction specs with
  | nil => intro s _; simp [forEach_nil]
  | cons sp specs ih =>
    intro s hok
    rw [forEach_cons] at hok ⊢
    obtain ⟨h1, h2⟩ := (Out.andThen_err_eq_none _ _).mp hok
    have hr : (env.modifyAffiliate ("k8s/" ++ sp.nodeID) sp s.world).1 = none := by
      cases hm : (env.modifyAffiliate ("k8s/" ++ sp.nodeID) sp s.world).1 with
      | none => rfl
      | some e => simp [upsertStep, hm] at h1
    have hstep : upsertStep env sp s =
        ⟨none, { s with touchedIDs := ("k8s/" ++ sp.nodeID) :: s.touchedIDs,
                        world := (env.modifyAffiliate ("k8s/" ++ sp.nodeID) sp s.world).2 },
          [.modifyAffiliate ("k8s/" ++ sp.nodeID) sp none]⟩ := by
      simp only [upsertStep, hr]
    rw [Out.andThen_events_of_ok _ _ h1, Out.andThen_st_of_ok _ _ h1]
    obtain ⟨e1, e2⟩ := ih _ h2
    rw [e1, e2, hstep]
    simp

/-- The calls of lines 150-175 when they end without error. -/
theorem pull_ok_shape (env : PullEnv W) (nodename : String) (s : PullState W)
    (hok : (pull env nodename s).err = none) :
    ∃ specs s1, (env.registryList nodename s.world).1 = .ok specs ∧
      (pull env nodename s).events =
        Event.registryList nodename (.ok specs) ::
          ((specs.map fun sp => Event.modifyAffiliate ("k8s/" ++ sp.nodeID) sp none) ++
            ((cleanupAffiliates env Name s1.touchedIDs s1).events ++ [.resetRestartBackoff])) ∧
      s1.touchedIDs = (specs.map fun sp => "k8s/" ++ sp.nodeID).reverse ∧
      (cleanupAffiliates env Name s1.touchedIDs s1).err = none := by
  unfold pull at hok ⊢
  cases hl : (env.registryList nodename s.world).1 with
  | err x => simp [hl] at hok
  | ok specs =>
    simp only [hl] at hok ⊢
    obtain ⟨h12, _⟩ := (Out.andThen_err_eq_none _ _).mp hok
    obtain ⟨h1, hc⟩ := (Out.andThen_err_eq_none _ _).mp h12
    have hloop : (forEach (upsertStep env) specs
        { s with touchedIDs := [], world := (env.registryList nodename s.world).2 }).err = none := by
      rw [Out.andThen_err_of_ok _ _ rfl] at h1
      exact h1
    obtain ⟨e1, e2⟩ := upsertLoop_ok env specs _ hloop
    rw [Out.andThen_st_of_ok _ _ rfl] at hc
    refine ⟨specs, _, rfl, ?_, ?_, hc⟩
    · rw [Out.andThen_events_of_ok _ _ h12, Out.andThen_events_of_ok _ _ h1,
        Out.andThen_events_of_ok _ _ rfl, Out.andThen_st_of_ok _ _ rfl, e1]
      simp
    · rw [e2]; simp

/-- A pass either makes no registry listing, or it is a prefix of calls that
are none of those of lines 150-175, followed by `pull`. -/
theorem pass_pull_shape (env : PullEnv W) (s : PullState W) :
    (∀ e ∈ (pass env s).events, e.isPullTail = false) ∨
    ∃ nodename s' pre, (pass env s).err = (pull env nodename s').err ∧
      (pass env s).events = pre ++ (pull env nodename s').events ∧
      ∀ e ∈ pre, e.isPullLoop = false := by
  rcases pass_cases env s with h | _
  · exact Or.inl h
  · cases hc : (env.getConfig s.world).1 with
    | err x =>
      left
      intro e he
      simp only [pass, hc] at he
      split at he <;> (simp at he; subst he; rfl)
    | ok cfg =>
      cases hen : cfg.registryKubernetesEnabled with
      | false =>
        left
        intro e he
        simp only [pass, hc, hen, Bool.false_eq_true, if_false] at he
        rw [Out.mem_andThen_events] at he
        rcases he with he | ⟨_, he⟩
        · simp at he; subst he; rfl
        · have := cleanupAffiliates_events env Name [] _ e he
          cases e <;> simp [Event.isAffiliateCleanup] at this <;> rfl
      | true =>
        simp only [pass, hc, hen, if_true]
        by_cases hw : (Out.andThen (⟨none, { s with world := (env.getConfig s.world).2 },
            [.getConfig (.ok cfg)]⟩ : Out (PullState W)) (waitStep env)).err = none
        · rw [Out.andThen_events_of_ok _ _ hw, Out.andThen_err_of_ok _ _ hw]
          have hpre : ∀ e ∈ (Out.andThen (⟨none, { s with world := (env.getConfig s.world).2 },
              [.getConfig (.ok cfg)]⟩ : Out (PullState W)) (waitStep env)).events,
              e.isPullTail = false ∧ e.isPullLoop = false := by
            intro e he
            rw [Out.mem_andThen_events] at he
            rcases he with he | ⟨_, he⟩
            · simp at he; subst he; exact ⟨rfl, rfl⟩
            · simp [waitStep] at he; subst he; exact ⟨rfl, rfl⟩
          generalize (Out.andThen (⟨none, { s with world := (env.getConfig s.world).2 },
              [.getConfig (.ok cfg)]⟩ : Out (PullState W)) (waitStep env)) = o at hpre ⊢
          cases hn : (env.getNodename o.st.world).1 with
          | err x =>
            left
            intro e he
            rcases List.mem_append.mp he with he | he
            · exact (hpre e he).1
            · simp only [afterWait, hn] at he
              split at he <;> (simp at he; subst he; rfl)
          | ok nodename =>
            simp only [afterWait, hn]
            have hh := handles_events env { o.st with world := (env.getNodename o.st.world).2 }
              (.ok nodename)
            have hh2 : ∀ e ∈ ((((Out.andThen (⟨none,
                { o.st with world := (env.getNodename o.st.world).2 },
                [.getNodename (.ok nodename)]⟩ : Out (PullState W)) (ensureClient env)).andThen
                ensureRegistry).andThen (ensureWatch env))).events, e.isPullLoop = false := by
              intro e he
              simp only [Out.mem_andThen_events] at he
              rcases he with ((he | ⟨_, he⟩) | ⟨_, he⟩) | ⟨_, he⟩
              · simp at he; subst he; rfl
              · unfold ensureClient at he
                split at he
                · simp at he
                · simp only at he
                  split at he <;> (simp at he; subst he; rfl)
              · unfold ensureRegistry at he
                split at he
                · simp at he
                · simp at he; subst he; rfl
              · unfold ensureWatch at he
                split at he
                · simp at he
                · simp at he; subst he; rfl
            generalize ((((Out.andThen (⟨none, { o.st with world := (env.getNodename o.st.world).2 },
                [.getNodename (.ok nodename)]⟩ : Out (PullState W)) (ensureClient env)).andThen
                ensureRegistry).andThen (ensureWatch env))) = H at hh hh2 ⊢
            by_cases hx : H.err = none
            · right
              refine ⟨nodename, H.st, o.events ++ H.events, Out.andThen_err_of_ok _ _ hx, ?_, ?_⟩
              · rw [Out.andThen_events_of_ok _ _ hx, ← List.append_assoc]
              · intro e he
                rcases List.mem_append.mp he with he | he
                · exact (hpre e he).2
                · exact hh2 e he
            · left
              rw [Out.andThen_of_err _ _ hx]
              intro e he
              rcases List.mem_append.mp he with he | he
              · exact (hpre e he).1
              · exact hh e he
        · left
          rw [Out.andThen_of_err _ _ hw]
          intro e he
          rw [Out.mem_andThen_events] at he
          rcases he with he | ⟨_, he⟩
          · simp at he; subst he; rfl
          · simp [waitStep] at he; subst he; rfl

/-- C19: in a pass of `KubernetesPullController.Run` that ends without error
and in which the registry listing for `nodename` returned `specs`, the
calls are a prefix with none of the calls of lines 150-175, the listing, one
successful upsert per listed spec, in order, of the Affiliate with id
`k8s/<NodeID>` and the listed spec, then `cleanupAffiliates` with the current
`touchedIDs`, then the backoff reset; and `touchedIDs` has exactly the ids
`k8s/<NodeID>` of the listed specs. -/
theorem pass_upserts_k8s_ids (env : PullEnv W) (s : PullState W) (nodename : String)
    (specs : List AffiliateSpec) (hok : (pass env s).err = none)
    (hreach : Event.registryList nodename (.ok specs) ∈ (pass env s).events) :
    ∃ pre s1,
      (pass env s).events =
        pre ++ (Event.registryList nodename (.ok specs) ::
          ((specs.map fun sp => Event.modifyAffiliate ("k8s/" ++ sp.nodeID) sp none) ++
            ((cleanupAffiliates env Name s1.touchedIDs s1).events ++ [.resetRestartBackoff]))) ∧
      (∀ e ∈ pre, e.isPullLoop = false) ∧
      (cleanupAffiliates env Name s1.touchedIDs s1).err = none ∧
      (∀ id, id ∈ s1.touchedIDs ↔ ∃ sp ∈ specs, id = "k8s/" ++ sp.nodeID) := by
  rcases pass_pull_shape env s with h | ⟨n, s', pre, herr, hev, hpre⟩
  · have := h _ hreach
    simp [Event.isPullTail] at this
  · rw [herr] at hok
    obtain ⟨specs', s1, _, hpull, ht, hc⟩ := pull_ok_shape env n s' hok
    rw [hev, hpull] at hreach
    have hsame : n = nodename ∧ specs' = specs := by
      rcases List.mem_append.mp hreach with he | he
      · have := hpre _ he
        simp [Event.isPullLoop] at this
      · rcases List.mem_cons.mp he with he | he
        · injection he with e1 e2
          injection e2 with e3
          exact ⟨e1.symm, e3.symm⟩
        · rcases List.mem_append.mp he with he | he
          · simp at he
          · rcases List.mem_append.mp he with he | he
            · have := cleanupAffiliates_events env Name _ _ _ he
              simp [Event.isAffiliateCleanup] at this
            · simp at he
    obtain ⟨hn, hs⟩ := hsame
    subst hn; subst hs
    refine ⟨pre, s1, ?_, hpre, hc, ?_⟩
    · rw [hev, hpull]
    · intro id
      rw [ht]
      simp only [List.mem_reverse, List.mem_map]
      constructor
      · rintro ⟨sp, hsp, rfl⟩; exact ⟨sp, hsp, rfl⟩
      · rintro ⟨sp, hsp, rfl⟩; exact ⟨sp, hsp, rfl⟩

/-- Witness for C19: the first pass in a world whose registry lists the nodes
`n1` and `n3`. -/
theorem pass_upserts_k8s_ids_witness :
    (pass refPullEnv pullingStart).err = none ∧
    Event.registryList "node-1" (.ok [⟨"n1", "a2"⟩, ⟨"n3", "c"⟩]) ∈
      (pass refPullEnv pullingStart).events ∧
    ∃ pre s1,
      (pass refPullEnv pullingStart).events =
        pre ++ (Event.registryList "node-1" (.ok [⟨"n1", "a2"⟩, ⟨"n3", "c"⟩]) ::
          (([⟨"n1", "a2"⟩, ⟨"n3", "c"⟩].map
              fun sp : AffiliateSpec => Event.modifyAffiliate ("k8s/" ++ sp.nodeID) sp none) ++
            ((cleanupAffiliates refPullEnv Name s1.touchedIDs s1).events ++
              [.resetRestartBackoff]))) ∧
      (∀ e ∈ pre, e.isPullLoop = false) ∧
      (cleanupAffiliates refPullEnv Name s1.touchedIDs s1).err = none ∧
      (∀ id, id ∈ s1.touchedIDs ↔
        ∃ sp ∈ [(⟨"n1", "a2"⟩ : AffiliateSpec), ⟨"n3", "c"⟩], id = "k8s/" ++ sp.nodeID) :=
  ⟨by decide, by decide,
   pass_upserts_k8s_ids refPullEnv pullingStart "node-1" [⟨"n1", "a2"⟩, ⟨"n3", "c"⟩]
     (by decide) (by decide)⟩

/-- The trace of the witness pass of C19: both listed nodes are upserted
under `k8s/` ids and nothing is destroyed, the Affiliate `k8s/n1` being
touched and `service/n2` being owned by another controller. -/
theorem pulling_pass_trace :
    (pass refPullEnv pullingStart).events =
      [.getConfig (.ok ⟨true⟩), .waitKubeconfig none, .getNodename (.ok "node-1"),
       .newClient none, .newRegistry, .watch none,
       .registryList "node-1" (.ok [⟨"n1", "a2"⟩, ⟨"n3", "c"⟩]),
       .modifyAffiliate "k8s/n1" ⟨"n1", "a2"⟩ none, .modifyAffiliate "k8s/n3" ⟨"n3", "c"⟩ none,
       .listAffiliates (.ok [⟨"k8s/n3", Name, ⟨"n3", "c"⟩⟩, ⟨"k8s/n1", Name, ⟨"n1", "a2"⟩⟩,
         ⟨"service/n2", "cluster.DiscoveryServiceController", ⟨"n2", "b"⟩⟩]),
       .resetRestartBackoff] := by
  decide

end KubernetesPullController

/-! ## C21: the inputs after an error of `WaitForDevicesReady` -/

/-- The calls of the loop of `WaitForDevicesReady` when it ends with an error:
no `QueueReconcile`, and no `UpdateInputs` except, as the last call, the
restore that failed with that error. -/
theorem waitDevices_error_calls (env : SyncEnv W) (nextInputs : List Input) (ws : List Wake) :
    ∀ (w : W) (e : Err), (waitDevices env nextInputs ws w).result = .returned (some e) →
      Event.queueReconcile ∉ (waitDevices env nextInputs ws w).events ∧
      ((∀ x ∈ (waitDevices env nextInputs ws w).events, x.isUpdateInputs = false) ∨
       ∃ pre, (waitDevices env nextInputs ws w).events =
           pre ++ [.updateInputs nextInputs (some e)] ∧
         ∀ x ∈ pre, x.isUpdateInputs = false) := by
  induction ws with
  | nil => intro w e h; simp [waitDevices] at h
  | cons k ws ih =>
    intro w e h
    cases k with
    | done =>
      simp only [waitDevices]
      exact ⟨by simp, Or.inl (by intro x hx; simp at hx; subst hx; rfl)⟩
    | notify =>
      simp only [waitDevices] at h ⊢
      exact ih w e h
    | event =>
      cases hr : (env.getDevicesStatus w).1 with
      | err x =>
        cases hnf : x.isNotFound with
        | true =>
          simp only [waitDevices, hr, hnf, if_true] at h ⊢
          obtain ⟨hq, hu⟩ := ih _ e h
          refine ⟨by simpa using hq, ?_⟩
          rcases hu with hu | ⟨pre, hev, hpre⟩
          · left
            intro y hy
            rcases List.mem_cons.mp hy with hy | hy
            · subst hy; rfl
            · rcases List.mem_cons.mp hy with hy | hy
              · subst hy; rfl
              · exact hu y hy
          · right
            refine ⟨.wake .event :: .getDevicesStatus (.err x) :: pre, by rw [hev]; simp, ?_⟩
            intro y hy
            rcases List.mem_cons.mp hy with hy | hy
            · subst hy; rfl
            · rcases List.mem_cons.mp hy with hy | hy
              · subst hy; rfl
              · exact hpre y hy
        | false =>
          simp only [waitDevices, hr, hnf, Bool.false_eq_true, if_false]
          refine ⟨by simp, Or.inl ?_⟩
          intro y hy
          simp at hy
          rcases hy with hy | hy <;> (subst hy; rfl)
      | ok ready =>
        cases ready with
        | true =>
          simp only [waitDevices, hr, if_true] at h ⊢
          rcases restoreInputs_cases env nextInputs (env.getDevicesStatus w).2 with
            ⟨h1, _⟩ | ⟨e', h1, h2⟩
          · rw [h1] at h; simp at h
          · rw [h1] at h
            simp only [RunResult.returned.injEq, Option.some.injEq] at h
            subst h
            rw [h2]
            refine ⟨by simp, Or.inr ⟨[.wake .event, .getDevicesStatus (.ok true)], by simp, ?_⟩⟩
            intro y hy
            simp at hy
            rcases hy with hy | hy <;> (subst hy; rfl)
        | false =>
          simp only [waitDevices, hr, Bool.false_eq_true, if_false] at h ⊢
          obtain ⟨hq, hu⟩ := ih _ e h
          refine ⟨by simpa using hq, ?_⟩
          rcases hu with hu | ⟨pre, hev, hpre⟩
          · left
            intro y hy
            rcases List.mem_cons.mp hy with hy | hy
            · subst hy; rfl
            · rcases List.mem_cons.mp hy with hy | hy
              · subst hy; rfl
              · exact hu y hy
          · right
            refine ⟨.wake .event :: .getDevicesStatus (.ok false) :: pre, by rw [hev]; simp, ?_⟩
            intro y hy
            rcases List.mem_cons.mp hy with hy | hy
            · subst hy; rfl
            · rcases List.mem_cons.mp hy with hy | hy
              · subst hy; rfl
              · exact hpre y hy

/-- A run of the loop of `WaitForDevicesReady` without an `UpdateInputs` call
leaves the inputs of the runtime as they were, when reads do not change
them. -/
theorem waitDevices_inputs_kept (env : SyncEnv W) (nextInputs : List Input)
    (inputsOf : W → List Input)
    (hread : ∀ w, inputsOf (env.getDevicesStatus w).2 = inputsOf w) (ws : List Wake) :
    ∀ w : W, (∀ x ∈ (waitDevices env nextInputs ws w).events, x.isUpdateInputs = false) →
      inputsOf (waitDevices env nextInputs ws w).st = inputsOf w := by
  induction ws with
  | nil => intro w _; rfl
  | cons k ws ih =>
    intro w h
    cases k with
    | done => rfl
    | notify =>
      simp only [waitDevices] at h ⊢
      exact ih w h
    | event =>
      cases hr : (env.getDevicesStatus w).1 with
      | err x =>
        cases hnf : x.isNotFound with
        | true =>
          simp only [waitDevices, hr, hnf, if_true] at h ⊢
          rw [ih _ (fun y hy => h y (List.mem_cons_of_mem _ (List.mem_cons_of_mem _ hy))), hread]
        | false =>
          simp only [waitDevices, hr, hnf, Bool.false_eq_true, if_false]
          exact hread w
      | ok ready =>
        cases ready with
        | true =>
          exfalso
          simp only [waitDevices, hr, if_true] at h
          rcases restoreInputs_cases env nextInputs (env.getDevicesStatus w).2 with
            ⟨_, h2⟩ | ⟨e', _, h2⟩
          · have := h (.updateInputs nextInputs none) (by rw [h2]; simp)
            simp [Event.isUpdateInputs] at this
          · have := h (.updateInputs nextInputs (some e')) (by rw [h2]; simp)
            simp [Event.isUpdateInputs] at this
        | false =>
          simp only [waitDevices, hr, Bool.false_eq_true, if_false] at h ⊢
          rw [ih _ (fun y hy => h y (List.mem_cons_of_mem _ (List.mem_cons_of_mem _ hy))), hread]

/-- C21: when the initial `UpdateInputs` of `WaitForDevicesReady` succeeds and
the helper returns a non-nil error `e`, no call after the initial one is a
`QueueReconcile`, and either no call after the initial one is an
`UpdateInputs`, and then the inputs of the runtime are still the single
`DevicesStatus` input (for a runtime whose inputs are those of the last
successful `UpdateInputs` and are not changed by reads), or the last call is
the restoring `UpdateInputs(nextInputs)`, which failed with `e`, and no call
between the two is an `UpdateInputs`. -/
theorem waitForDevicesReady_error_keeps_inputs_narrowed (env : SyncEnv W)
    (nextInputs : List Input) (ws : List Wake) (w : W) (e : Err) (inputsOf : W → List Input)
    (hset : ∀ l w, (env.updateInputs l w).1 = none → inputsOf (env.updateInputs l w).2 = l)
    (hread : ∀ w, inputsOf (env.getDevicesStatus w).2 = inputsOf w)
    (hinit : (env.updateInputs [env.devicesInput] w).1 = none)
    (h : (WaitForDevicesReady env nextInputs ws w).result = .returned (some e)) :
    ∃ rest, (WaitForDevicesReady env nextInputs ws w).events =
        .updateInputs [env.devicesInput] none :: rest ∧
      Event.queueReconcile ∉ rest ∧
      (((∀ x ∈ rest, x.isUpdateInputs = false) ∧
          inputsOf (WaitForDevicesReady env nextInputs ws w).st = [env.devicesInput]) ∨
       ∃ pre, rest = pre ++ [.updateInputs nextInputs (some e)] ∧
         ∀ x ∈ pre, x.isUpdateInputs = false) := by
  simp only [WaitForDevicesReady, hinit] at h ⊢
  obtain ⟨hq, hu⟩ := waitDevices_error_calls env nextInputs ws _ e h
  refine ⟨_, rfl, hq, ?_⟩
  rcases hu with hu | hu
  · left
    refine ⟨hu, ?_⟩
    rw [waitDevices_inputs_kept env nextInputs inputsOf hread ws _ hu]
    exact hset _ w hinit
  · exact Or.inr hu

/-- Witness for C21: the run in which the first read of `DevicesStatus` fails
with "connection refused". -/
theorem waitForDevicesReady_error_keeps_inputs_narrowed_witness :
    (refSyncEnv.updateInputs [refSyncEnv.devicesInput] brokenReadWorld).1 = none ∧
    (WaitForDevicesReady refSyncEnv nextInputsExample [.event] brokenReadWorld).result =
      .returned (some (.other "connection refused")) ∧
    ∃ rest, (WaitForDevicesReady refSyncEnv nextInputsExample [.event] brokenReadWorld).events =
        .updateInputs [refSyncEnv.devicesInput] none :: rest ∧
      Event.queueReconcile ∉ rest ∧
      (((∀ x ∈ rest, x.isUpdateInputs = false) ∧
          (WaitForDevicesReady refSyncEnv nextInputsExample [.event] brokenReadWorld).st.inputs =
            [refSyncEnv.devicesInput]) ∨
       ∃ pre, rest = pre ++ [.updateInputs nextInputsExample (some (.other "connection refused"))] ∧
         ∀ x ∈ pre, x.isUpdateInputs = false) :=
  ⟨by decide, by decide,
   waitForDevicesReady_error_keeps_inputs_narrowed refSyncEnv nextInputsExample [.event]
     brokenReadWorld (.other "connection refused") SyncWorld.inputs
     (fun _ _ _ => rfl)
     (fun w => by cases hw : w.reads <;> simp [refSyncEnv, hw])
     (by decide) (by decide)⟩

/-- The three error runs of C21 in the reference world: a failing read, a
cancelled context, and a failing restore.  In the first two the inputs end
as the single `DevicesStatus` input and `UpdateInputs` is called once; in
the third the restore is the last call; no reconcile is queued in any. -/
theorem waitForDevicesReady_error_runs :
    ((WaitForDevicesReady refSyncEnv nextInputsExample [.event] brokenReadWorld).events =
        [.updateInputs [refSyncEnv.devicesInput] none, .wake .event,
         .getDevicesStatus (.err (.other "connection refused"))] ∧
      (WaitForDevicesReady refSyncEnv nextInputsExample [.event] brokenReadWorld).st.inputs =
        [refSyncEnv.devicesInput] ∧
      (WaitForDevicesReady refSyncEnv nextInputsExample [.event] brokenReadWorld).st.reconciles = 0) ∧
    ((WaitForDevicesReady refSyncEnv nextInputsExample [.event, .done] notReadyWorld).result =
        .returned (some .canceled) ∧
      (WaitForDevicesReady refSyncEnv nextInputsExample [.event, .done] notReadyWorld).events =
        [.updateInputs [refSyncEnv.devicesInput] none, .wake .event,
         .getDevicesStatus (.ok false), .wake .done] ∧
      (WaitForDevicesReady refSyncEnv nextInputsExample [.event, .done] notReadyWorld).st.inputs =
        [refSyncEnv.devicesInput] ∧
      (WaitForDevicesReady refSyncEnv nextInputsExample [.event, .done] notReadyWorld).st.reconciles
        = 0) ∧
    ((WaitForDevicesReady failingRestoreEnv nextInputsExample [.event, .event, .event]
          readyThirdWorld).result = .returned (some (.other "update failed")) ∧
      (WaitForDevicesReady failingRestoreEnv nextInputsExample [.event, .event, .event]
          readyThirdWorld).events =
        [.updateInputs [refSyncEnv.devicesInput] none, .wake .event,
         .getDevicesStatus (.ok false), .wake .event, .getDevicesStatus (.err .notFound),
         .wake .event, .getDevicesStatus (.ok true),
         .updateInputs nextInputsExample (some (.other "update failed"))] ∧
      (WaitForDevicesReady failingRestoreEnv nextInputsExample [.event, .event, .event]
          readyThirdWorld).st.reconciles = 0) := by
  decide

namespace EtcFileController

/-- C6, counterexample: the Running specs `a` and `./a` have distinct ids and
the same path `/etc/a`.  The first pass ends without error; the second pass
of the same controller, started in the state the first pass left and seeing
the same list, writes `/etc/a` twice, each spec finding the contents of the
other. -/
theorem second_pass_rewrites_colliding_paths_counterexample :
    (∀ spec ∈ collidingSpecs, spec.phase = .running) ∧
    (collidingSpecs.map fun spec => spec.id).Nodup ∧
    (cleanEnv.listSpecs collidingStart.world).1 = .ok collidingSpecs ∧
    (pass cleanEnv "/etc" collidingStart).err = none ∧
    (cleanEnv.listSpecs (pass cleanEnv "/etc" collidingStart).st.world).1 = .ok collidingSpecs ∧
    (pass cleanEnv "/etc" (pass cleanEnv "/etc" collidingStart).st).err = none ∧
    (pass cleanEnv "/etc" (pass cleanEnv "/etc" collidingStart).st).events.filter Event.isWrite =
      [.xfsWriteFile "/etc/a" [1] 0o644 none, .xfsWriteFile "/etc/a" [2] 0o644 none] := by
  decide

end EtcFileController

/-! ## Loops: composition of precedence, splitting of a loop -/

theorem Before.append {P Q : Event → Prop} {l₁ l₂ : List Event}
    (h₁ : Before P Q l₁) (h₂ : Before P Q l₂) : Before P Q (l₁ ++ l₂) := by
  intro pre x post hl hq
  rcases List.append_eq_append_iff.mp hl with ⟨a, hpre, ha⟩ | ⟨c, hpre, hc⟩
  · obtain ⟨y, hy, hp⟩ := h₂ a x post ha hq
    exact ⟨y, by rw [hpre]; exact List.mem_append_right _ hy, hp⟩
  · cases c with
    | nil =>
      obtain ⟨y, hy, hp⟩ := h₂ [] x post (by simpa using hc.symm) hq
      simp at hy
    | cons c cs =>
      simp at hc
      obtain ⟨hx, _⟩ := hc
      subst hx
      exact h₁ pre x cs hpre hq

/-- Precedence that holds within every iteration holds in the loop. -/
theorem forEach_before_local {α σ : Type} (body : α → σ → Out σ) (P Q : Event → Prop)
    (xs : List α) (h : ∀ x ∈ xs, ∀ s, Before P Q (body x s).events) :
    ∀ s, Before P Q (forEach body xs s).events := by
  induction xs with
  | nil => intro s; exact Before.of_free (by simp [forEach_nil])
  | cons x xs ih =>
    intro s
    rw [forEach_cons]
    by_cases hok : (body x s).err = none
    · rw [Out.andThen_events_of_ok _ _ hok]
      exact Before.append (h x (List.mem_cons_self _ _) s)
        (ih (fun y hy => h y (List.mem_cons_of_mem _ hy)) _)
    · rw [Out.andThen_of_err _ _ hok]
      exact h x (List.mem_cons_self _ _) s

/-- Precedence in a loop under a state invariant that an iteration may give
up only by making a `P` call. -/
theorem forEach_before_inv {α σ : Type} (body : α → σ → Out σ) (P Q : Event → Prop)
    (I : σ → Prop) (xs : List α)
    (h : ∀ x ∈ xs, ∀ s, I s → Before P Q (body x s).events ∧
      ((body x s).err = none → I (body x s).st ∨ ∃ y ∈ (body x s).events, P y)) :
    ∀ s, I s → Before P Q (forEach body xs s).events := by
  induction xs with
  | nil => intro s _; exact Before.of_free (by simp [forEach_nil])
  | cons x xs ih =>
    intro s hs
    rw [forEach_cons]
    obtain ⟨hB, hnext⟩ := h x (List.mem_cons_self _ _) s hs
    by_cases hok : (body x s).err = none
    · rw [Out.andThen_events_of_ok _ _ hok]
      rcases hnext hok with hI | hP
      · exact Before.append hB (ih (fun y hy => h y (List.mem_cons_of_mem _ hy)) _ hI)
      · exact Before.append_of_mem_left hB hP
    · rw [Out.andThen_of_err _ _ hok]
      exact hB

/-- In a loop that ends without error and visits `x`, a `P` call is made if
the iteration of `x` makes one under the invariant, and the invariant is
given up only by making one. -/
theorem forEach_ok_reaches {α σ : Type} (body : α → σ → Out σ) (P : Event → Prop)
    (I : σ → Prop) (xs : List α) (x : α)
    (hstep : ∀ y ∈ xs, ∀ s, I s → (body y s).err = none →
      I (body y s).st ∨ ∃ e ∈ (body y s).events, P e)
    (hx : ∀ s, I s → (body x s).err = none → ∃ e ∈ (body x s).events, P e) :
    ∀ s, I s → (forEach body xs s).err = none → x ∈ xs → ∃ e ∈ (forEach body xs s).events, P e := by
  induction xs with
  | nil => intro s _ _ hmem; simp at hmem
  | cons y ys ih =>
    intro s hs hok hmem
    obtain ⟨hy, hrest⟩ := (forEach_err_cons body y ys s).mp hok
    rw [forEach_cons, Out.andThen_events_of_ok _ _ hy]
    have hleft : (∃ e ∈ (body y s).events, P e) →
        ∃ e ∈ (body y s).events ++ (forEach body ys (body y s).st).events, P e := by
      rintro ⟨e, he, hp⟩
      exact ⟨e, List.mem_append_left _ he, hp⟩
    rcases List.mem_cons.mp hmem with rfl | hmem
    · exact hleft (hx s hs hy)
    · rcases hstep y (List.mem_cons_self _ _) s hs hy with hI | hP
      · obtain ⟨e, he, hp⟩ := ih (fun z hz => hstep z (List.mem_cons_of_mem _ hz)) _ hI hrest hmem
        exact ⟨e, List.mem_append_right _ he, hp⟩
      · exact hleft hP

theorem Out.andThen_assoc {σ : Type} (o : Out σ) (f g : σ → Out σ) :
    (o.andThen f).andThen g = o.andThen fun t => (f t).andThen g := by
  by_cases h1 : o.err = none
  · by_cases h2 : (f o.st).err = none
    · have h12 : (o.andThen f).err = none := by rw [Out.andThen_err_of_ok _ _ h1]; exact h2
      simp only [Out.andThen, h1, h2, List.append_assoc]
    · simp only [Out.andThen, h1]
      cases hf : (f o.st).err with
      | none => exact absurd hf h2
      | some e => simp [hf]
  · rw [Out.andThen_of_err _ _ h1, Out.andThen_of_err _ _ h1, Out.andThen_of_err _ _ h1]

/-- A loop over `xs ++ ys` is the loop over `xs` followed by the loop over
`ys`. -/
theorem forEach_append {α σ : Type} (body : α → σ → Out σ) (xs ys : List α) :
    ∀ s, forEach body (xs ++ ys) s = (forEach body xs s).andThen (forEach body ys) := by
  induction xs with
  | nil => intro s; simp [forEach_nil, Out.andThen]
  | cons x xs ih =>
    intro s
    rw [List.cons_append, forEach_cons, forEach_cons, Out.andThen_assoc]
    congr 1
    funext t
    exact ih t

namespace EtcFileController

/-! ## C1: the finalizer is removed only after the undo, for any list -/

/-- An iteration of the second loop makes no `RemoveFinalizer` call for `id`
unless its spec has that id and is in phase TearingDown. -/
theorem applySpec_no_removeFinalizer (env : EtcEnv W) (etcPath : String) (id : ID)
    (x : EtcFileSpec) (t : EtcState W) (hx : ¬ (x.id = id ∧ x.phase = .tearingDown)) :
    ∀ e ∈ (applySpec env etcPath x t).events, ¬ ∃ r, e = Event.removeFinalizer id Name r := by
  rintro e he ⟨r, rfl⟩
  have := applySpec_events env etcPath x t _ he
  simp [Event.isApplyOf, Event.isTeardownCall] at this
  exact hx ⟨this.1.symm, this.2⟩

theorem applySpec_before_remove (env : EtcEnv W) (etcPath : String) (id : ID)
    (x : EtcFileSpec) (t : EtcState W) :
    Before (fun y => ∃ r, y = .osRemove (env.join etcPath id) r ∧ undone r = true)
      (fun e => ∃ r, e = .removeFinalizer id Name r) (applySpec env etcPath x t).events := by
  by_cases hx : x.id = id ∧ x.phase = .tearingDown
  · obtain ⟨hid, hp⟩ := hx
    subst hid
    exact teardown_removeFinalizer_after_remove env etcPath x t hp
  · exact Before.of_free (applySpec_no_removeFinalizer env etcPath id x t hx)

theorem teardown_ok_unmount (env : EtcEnv W) (etcPath : String) (x : EtcFileSpec)
    (t : EtcState W) (hp : x.phase = .tearingDown) (hm : x.id ∈ t.bindMounts)
    (hok : (applySpec env etcPath x t).err = none) :
    ∃ y ∈ (applySpec env etcPath x t).events,
      ∃ r, y = Event.unmount (env.join etcPath x.id) r ∧ undone r = true := by
  rw [applySpec_teardown env etcPath x t hp] at hok ⊢
  obtain ⟨h12, _⟩ := (Out.andThen_err_eq_none _ _).mp hok
  obtain ⟨h1, _⟩ := (Out.andThen_err_eq_none _ _).mp h12
  obtain ⟨r, hr, hu⟩ := unmountStep_ok_mem env _ _ t hm h1
  refine ⟨_, ?_, r, rfl, hu⟩
  rw [Out.mem_andThen_events]
  left
  rw [Out.mem_andThen_events]
  exact Or.inl hr

theorem teardown_ok_remove (env : EtcEnv W) (etcPath : String) (x : EtcFileSpec)
    (t : EtcState W) (hp : x.phase = .tearingDown)
    (hok : (applySpec env etcPath x t).err = none) :
    ∃ y ∈ (applySpec env etcPath x t).events,
      ∃ r, y = Event.osRemove (env.join etcPath x.id) r ∧ undone r = true := by
  rw [applySpec_teardown env etcPath x t hp] at hok ⊢
  obtain ⟨h12, _⟩ := (Out.andThen_err_eq_none _ _).mp hok
  obtain ⟨h1, h2⟩ := (Out.andThen_err_eq_none _ _).mp h12
  refine ⟨.osRemove (env.join etcPath x.id) _, ?_, _, rfl, (removeStep_events env _ _).2.1.mp h2⟩
  rw [Out.mem_andThen_events]
  left
  rw [Out.mem_andThen_events]
  right
  exact ⟨h1, by rw [(removeStep_events env _ _).1]; simp⟩

/-- One iteration, started with `id` in the cache: a `RemoveFinalizer` call
for `id` comes after an unmount of its path that is undone, and an
iteration that ends without error keeps `id` cached or has made such an
unmount. -/
theorem applySpec_unmount_inv (env : EtcEnv W) (etcPath : String) (id : ID)
    (x : EtcFileSpec) (t : EtcState W) (hI : id ∈ t.bindMounts) :
    Before (fun y => ∃ r, y = .unmount (env.join etcPath id) r ∧ undone r = true)
      (fun e => ∃ r, e = .removeFinalizer id Name r) (applySpec env etcPath x t).events ∧
    ((applySpec env etcPath x t).err = none →
      id ∈ (applySpec env etcPath x t).st.bindMounts ∨
      ∃ y ∈ (applySpec env etcPath x t).events,
        ∃ r, y = Event.unmount (env.join etcPath id) r ∧ undone r = true) := by
  by_cases hid : x.id = id
  · subst hid
    cases hp : x.phase with
    | tearingDown =>
      exact ⟨teardown_removeFinalizer_after_unmount env etcPath x t hp hI,
        fun hok => Or.inr (teardown_ok_unmount env etcPath x t hp hI hok)⟩
    | running =>
      exact ⟨Before.of_free (applySpec_no_removeFinalizer env etcPath x.id x t
          (fun h => by rw [hp] at h; cases h.2)),
        fun _ => Or.inl (applySpec_running_keeps env etcPath x t hp x.id hI)⟩
  · exact ⟨Before.of_free (applySpec_no_removeFinalizer env etcPath id x t (fun h => hid h.1)),
      fun _ => Or.inl ((applySpec_bindMounts_other env etcPath x t id
        (fun h => hid h.symm)).mpr hI)⟩

/-- The trace of a pass whose finalizer loop ends without error and whose
second loop reaches the spec that follows `l1`: the listing, the finalizer
loop, the iterations of `l1`, the iteration of the spec, and what follows;
nothing follows when that iteration returns an error, which the pass then
returns. -/
theorem pass_reaches (env : EtcEnv W) (etcPath : String) (s : EtcState W)
    (l1 l2 : List EtcFileSpec) (spec : EtcFileSpec)
    (h : (env.listSpecs s.world).1 = .ok (l1 ++ spec :: l2))
    (hfin : (finalized env (l1 ++ spec :: l2) (afterList env s)).err = none)
    (hreach : (reached env etcPath (l1 ++ spec :: l2) l1 (afterList env s)).err = none) :
    (∃ post, (pass env etcPath s).events =
      .listSpecs (.ok (l1 ++ spec :: l2)) ::
        ((finalized env (l1 ++ spec :: l2) (afterList env s)).events ++
          (reached env etcPath (l1 ++ spec :: l2) l1 (afterList env s)).events ++
          (iteration env etcPath (l1 ++ spec :: l2) l1 spec (afterList env s)).events ++ post)) ∧
    ((iteration env etcPath (l1 ++ spec :: l2) l1 spec (afterList env s)).err ≠ none →
      (pass env etcPath s).err ≠ none ∧
      (pass env etcPath s).events =
        .listSpecs (.ok (l1 ++ spec :: l2)) ::
          ((finalized env (l1 ++ spec :: l2) (afterList env s)).events ++
            (reached env etcPath (l1 ++ spec :: l2) l1 (afterList env s)).events ++
            (iteration env etcPath (l1 ++ spec :: l2) l1 spec (afterList env s)).events)) := by
  obtain ⟨hev, herr, _⟩ := pass_eq env etcPath s _ h
  have happ : applied env etcPath (l1 ++ spec :: l2) (afterList env s) =
      (reached env etcPath (l1 ++ spec :: l2) l1 (afterList env s)).andThen fun t =>
        (applySpec env etcPath spec t).andThen (forEach (applySpec env etcPath) l2) := by
    unfold applied reached
    rw [forEach_append]
    rfl
  have hae : (applied env etcPath (l1 ++ spec :: l2) (afterList env s)).events =
      (reached env etcPath (l1 ++ spec :: l2) l1 (afterList env s)).events ++
        ((iteration env etcPath (l1 ++ spec :: l2) l1 spec (afterList env s)).andThen
          (forEach (applySpec env etcPath) l2)).events := by
    rw [happ, Out.andThen_events_of_ok _ _ hreach]
    rfl
  have haerr : (applied env etcPath (l1 ++ spec :: l2) (afterList env s)).err =
      ((iteration env etcPath (l1 ++ spec :: l2) l1 spec (afterList env s)).andThen
        (forEach (applySpec env etcPath) l2)).err := by
    rw [happ, Out.andThen_err_of_ok _ _ hreach]
    rfl
  constructor
  · rcases passOn_cases env etcPath (l1 ++ spec :: l2) (afterList env s) with
      ⟨h1, _⟩ | ⟨_, _, he, _, _⟩ | ⟨_, _, he, _, _⟩
    · exact absurd hfin h1
    · by_cases hit : (iteration env etcPath (l1 ++ spec :: l2) l1 spec (afterList env s)).err = none
      · refine ⟨(forEach (applySpec env etcPath) l2
          (iteration env etcPath (l1 ++ spec :: l2) l1 spec (afterList env s)).st).events, ?_⟩
        rw [hev, he, hae, Out.andThen_events_of_ok _ _ hit]
        simp [List.append_assoc]
      · refine ⟨[], ?_⟩
        rw [hev, he, hae, Out.andThen_of_err _ _ hit]
        simp [List.append_assoc]
    · by_cases hit : (iteration env etcPath (l1 ++ spec :: l2) l1 spec (afterList env s)).err = none
      · refine ⟨(forEach (applySpec env etcPath) l2
          (iteration env etcPath (l1 ++ spec :: l2) l1 spec (afterList env s)).st).events ++
          (cleanup env (applied env etcPath (l1 ++ spec :: l2) (afterList env s)).st).events, ?_⟩
        rw [hev, he, hae, Out.andThen_events_of_ok _ _ hit]
        simp [List.append_assoc]
      · refine ⟨(cleanup env (applied env etcPath (l1 ++ spec :: l2) (afterList env s)).st).events, ?_⟩
        rw [hev, he, hae, Out.andThen_of_err _ _ hit]
        simp [List.append_assoc]
  · intro hit
    have hne : (applied env etcPath (l1 ++ spec :: l2) (afterList env s)).err ≠ none := by
      rw [haerr, Out.andThen_of_err _ _ hit]
      exact hit
    rcases passOn_cases env etcPath (l1 ++ spec :: l2) (afterList env s) with
      ⟨h1, _⟩ | ⟨_, _, he, herr', _⟩ | ⟨_, h2, _⟩
    · exact absurd hfin h1
    · refine ⟨by rw [herr, herr']; exact hne, ?_⟩
      rw [hev, he, hae, Out.andThen_of_err _ _ hit]
      simp [List.append_assoc]
    · exact absurd h2 hne

end EtcFileController

namespace EtcFileController

/-- C1: in a pass of `EtcFileController.Run` that listed `l1 ++ spec :: l2`
with `spec` in phase TearingDown.  Every `RemoveFinalizer` call for the id
of the spec comes after an `os.Remove` of its file that succeeded or
reported "does not exist", and, when its bind mount is cached at the start
of the pass, after an unmount that did.  When the second loop reaches the
spec, the calls of its iteration are a segment of the trace of the pass; in
it `RemoveFinalizer` comes after such an `os.Remove` and, when the bind
mount is cached at that moment, after such an unmount; and if the unmount
or the removal of that iteration fails with another error, `Run` returns a
non-nil error, the pass ends with that iteration, the iteration makes no
`RemoveFinalizer` call, and no `RemoveFinalizer` call for the spec is made
in the whole pass when no earlier spec of the list has its id. -/
theorem removeFinalizer_only_after_undo (env : EtcEnv W) (etcPath : String) (s : EtcState W)
    (l1 l2 : List EtcFileSpec) (spec : EtcFileSpec)
    (h : (env.listSpecs s.world).1 = .ok (l1 ++ spec :: l2))
    (hp : spec.phase = .tearingDown) :
    Before (fun y => ∃ r, y = .osRemove (env.join etcPath spec.id) r ∧ undone r = true)
      (fun x => ∃ r, x = .removeFinalizer spec.id Name r) (pass env etcPath s).events ∧
    (spec.id ∈ s.bindMounts →
      Before (fun y => ∃ r, y = .unmount (env.join etcPath spec.id) r ∧ undone r = true)
        (fun x => ∃ r, x = .removeFinalizer spec.id Name r) (pass env etcPath s).events) ∧
    ((finalized env (l1 ++ spec :: l2) (afterList env s)).err = none →
      (reached env etcPath (l1 ++ spec :: l2) l1 (afterList env s)).err = none →
      (∃ post, (pass env etcPath s).events =
        .listSpecs (.ok (l1 ++ spec :: l2)) ::
          ((finalized env (l1 ++ spec :: l2) (afterList env s)).events ++
            (reached env etcPath (l1 ++ spec :: l2) l1 (afterList env s)).events ++
            (iteration env etcPath (l1 ++ spec :: l2) l1 spec (afterList env s)).events ++ post)) ∧
      Before (fun y => ∃ r, y = .osRemove (env.join etcPath spec.id) r ∧ undone r = true)
        (fun x => ∃ r, x = .removeFinalizer spec.id Name r)
        (iteration env etcPath (l1 ++ spec :: l2) l1 spec (afterList env s)).events ∧
      (spec.id ∈ (reached env etcPath (l1 ++ spec :: l2) l1 (afterList env s)).st.bindMounts →
        Before (fun y => ∃ r, y = .unmount (env.join etcPath spec.id) r ∧ undone r = true)
          (fun x => ∃ r, x = .removeFinalizer spec.id Name r)
          (iteration env etcPath (l1 ++ spec :: l2) l1 spec (afterList env s)).events) ∧
      (∀ r, undone r = false →
        (Event.unmount (env.join etcPath spec.id) r ∈
            (iteration env etcPath (l1 ++ spec :: l2) l1 spec (afterList env s)).events ∨
          Event.osRemove (env.join etcPath spec.id) r ∈
            (iteration env etcPath (l1 ++ spec :: l2) l1 spec (afterList env s)).events) →
        (∀ ws, ∃ e, (Run env etcPath (.event :: ws) s).result = .returned (some e)) ∧
        (pass env etcPath s).events =
          .listSpecs (.ok (l1 ++ spec :: l2)) ::
            ((finalized env (l1 ++ spec :: l2) (afterList env s)).events ++
              (reached env etcPath (l1 ++ spec :: l2) l1 (afterList env s)).events ++
              (iteration env etcPath (l1 ++ spec :: l2) l1 spec (afterList env s)).events) ∧
        (∀ r', Event.removeFinalizer spec.id Name r' ∉
          (iteration env etcPath (l1 ++ spec :: l2) l1 spec (afterList env s)).events) ∧
        (spec.id ∉ l1.map (fun x => x.id) →
          ∀ r', Event.removeFinalizer spec.id Name r' ∉ (pass env etcPath s).events))) := by
  have hQ : ∀ e, (∃ r, e = Event.removeFinalizer spec.id Name r) → e.isTeardownCall = true := by
    rintro e ⟨r, rfl⟩; rfl
  refine ⟨?_, ?_, ?_⟩
  · apply pass_before env etcPath s _ h _ _ hQ
    exact forEach_before_local _ _ _ _
      (fun x _ t => applySpec_before_remove env etcPath spec.id x t) _
  · intro hm
    apply pass_before env etcPath s _ h _ _ hQ
    refine forEach_before_inv _ _ _ (fun t => spec.id ∈ t.bindMounts) _
      (fun x _ t ht => applySpec_unmount_inv env etcPath spec.id x t ht) _ ?_
    show spec.id ∈ (finalized env (l1 ++ spec :: l2) (afterList env s)).st.bindMounts
    rw [finalized, addFinalizers_bindMounts]
    exact hm
  · intro hfin hreach
    obtain ⟨hpost, hfatal⟩ := pass_reaches env etcPath s l1 l2 spec h hfin hreach
    refine ⟨hpost, applySpec_before_remove env etcPath spec.id spec _,
      fun hm => teardown_removeFinalizer_after_unmount env etcPath spec _ hp hm, ?_⟩
    intro r hr hmem
    have hF : ∃ e ∈ (applySpec env etcPath spec
        (reached env etcPath (l1 ++ spec :: l2) l1 (afterList env s)).st).events,
        ∃ r, undone r = false ∧
          (e = .unmount (env.join etcPath spec.id) r ∨ e = .osRemove (env.join etcPath spec.id) r) := by
      rcases hmem with hmem | hmem
      · exact ⟨_, hmem, r, hr, Or.inl rfl⟩
      · exact ⟨_, hmem, r, hr, Or.inr rfl⟩
    obtain ⟨hiterr, hnoRF⟩ := teardown_fatal env etcPath spec _ hp hF
    obtain ⟨hperr, hpev⟩ := hfatal hiterr
    refine ⟨fun ws => run_returns_of_pass_err env etcPath s ws hperr, hpev,
      fun r' hm => hnoRF _ hm ⟨r', rfl⟩, ?_⟩
    intro hnot r' hm
    rw [hpev] at hm
    simp only [List.mem_cons, reduceCtorEq, false_or, List.mem_append] at hm
    rcases hm with (hm | hm) | hm
    · obtain ⟨id, r'', hx⟩ := addFinalizers_events env _ _ _ hm
      simp at hx
    · have hall := forEach_events_forall (applySpec env etcPath)
        (fun e => ∃ x ∈ l1, e.isApplyOf (env.join etcPath x.id) x.id = true) l1
        (fun x hx t e he => ⟨x, hx, (applySpec_events env etcPath x t e he).1⟩) _ _ hm
      obtain ⟨x, hx, ha⟩ := hall
      simp [Event.isApplyOf] at ha
      exact hnot (List.mem_map.mpr ⟨x, hx, ha.symm⟩)
    · exact hnoRF _ hm ⟨r', rfl⟩

/-- Witness for C1: the specs `a` and `./a`, applied to the same path
`/etc/a`, are both in phase TearingDown.  The iteration of `a` unmounts,
removes the file and removes the finalizer of `a`; the unmount of the
iteration of `./a` then fails with EINVAL: `Run` returns an error, the pass
ends there, and no `RemoveFinalizer` call is made for `./a`. -/
theorem removeFinalizer_only_after_undo_witness :
    (cleanEnv.listSpecs collidingTeardownStart.world).1 =
      .ok ([⟨"a", .tearingDown, "1", [1], 0o644, "etc_t"⟩] ++
        ⟨"./a", .tearingDown, "1", [2], 0o644, "etc_t"⟩ :: []) ∧
    (pass cleanEnv "/etc" collidingTeardownStart).events =
      [.listSpecs (.ok collidingTearingDown), .unmount "/etc/a" none,
       .osRemove "/etc/a" (some .notExist), .removeFinalizer "a" Name none,
       .unmount "/etc/a" (some (.other "EINVAL"))] ∧
    ((∀ ws, ∃ e, (Run cleanEnv "/etc" (.event :: ws) collidingTeardownStart).result =
        .returned (some e)) ∧
      (∀ r', Event.removeFinalizer "./a" Name r' ∉
        (pass cleanEnv "/etc" collidingTeardownStart).events)) :=
  have hC := (removeFinalizer_only_after_undo cleanEnv "/etc" collidingTeardownStart
    [⟨"a", .tearingDown, "1", [1], 0o644, "etc_t"⟩] []
    ⟨"./a", .tearingDown, "1", [2], 0o644, "etc_t"⟩ (by decide) (by decide)).2.2
    (by decide) (by decide)
  have hF := hC.2.2.2 (some (.other "EINVAL")) (by decide) (Or.inl (by decide))
  ⟨by decide, by decide, hF.1, hF.2.2.2 (by decide)⟩

/-- The fatal case of C1 for the removal of the file: in the reference world
with an `os.Remove` that fails with EBUSY, the teardown pass of `hosts`
unmounts, fails to remove the file and returns the error; it makes no
`RemoveFinalizer` call and the finalizer stays. -/
theorem teardown_remove_fails_example :
    (pass busyRemoveEnv "/etc" hostsTeardownStart).events =
      [.listSpecs (.ok [hostsTearingDown]), .unmount "/etc/hosts" none,
       .osRemove "/etc/hosts" (some (.other "EBUSY"))] ∧
    (pass busyRemoveEnv "/etc" hostsTeardownStart).err =
      some (.wrap "failed to remove" (.other "EBUSY")) ∧
    (pass busyRemoveEnv "/etc" hostsTeardownStart).st.world.finalizers = ["hosts"] ∧
    (Run busyRemoveEnv "/etc" [.event, .event] hostsTeardownStart).result =
      .returned (some (.wrap "failed to remove" (.other "EBUSY"))) := by
  decide

end EtcFileController

/-- In a loop that ends without error and visits `x`, a state property that
the iteration of `x` establishes and every iteration keeps holds at the
end. -/
theorem forEach_ok_establishes {α σ : Type} (body : α → σ → Out σ) (K : σ → Prop)
    (xs : List α) (x : α)
    (hkeep : ∀ y ∈ xs, ∀ s, K s → K (body y s).st)
    (hx : ∀ s, (body x s).err = none → K (body x s).st) :
    ∀ s, (forEach body xs s).err = none → x ∈ xs → K (forEach body xs s).st := by
  induction xs with
  | nil => intro s _ hmem; simp at hmem
  | cons y ys ih =>
    intro s hok hmem
    obtain ⟨hy, hrest⟩ := (forEach_err_cons body y ys s).mp hok
    rw [forEach_cons, Out.andThen_st_of_ok _ _ hy]
    by_cases hin : x ∈ ys
    · exact ih (fun z hz => hkeep z (List.mem_cons_of_mem _ hz)) _ hrest hin
    · have hxy : x = y := by
        rcases List.mem_cons.mp hmem with h | h
        · exact h
        · exact absurd h hin
      subst hxy
      exact forEach_invariant body K ys (fun z hz => hkeep z (List.mem_cons_of_mem _ hz)) _ (hx s hy)

namespace EtcFileController

/-! ## C5: the teardown pass -/

/-- A teardown iteration adds nothing to the cache, and drops the id of its
spec from it when it ends without error. -/
theorem teardown_bindMounts (env : EtcEnv W) (etcPath : String) (x : EtcFileSpec)
    (t : EtcState W) (hp : x.phase = .tearingDown) :
    (∀ id, id ∈ (applySpec env etcPath x t).st.bindMounts → id ∈ t.bindMounts) ∧
    ((applySpec env etcPath x t).err = none → x.id ∉ (applySpec env etcPath x t).st.bindMounts) := by
  rw [applySpec_teardown env etcPath x t hp]
  constructor
  · intro id
    refine Out.andThen_st_rel (fun a b => id ∈ b.bindMounts → id ∈ a.bindMounts)
      (fun _ _ _ h₁ h₂ h => h₁ (h₂ h)) t _ _
      (Out.andThen_st_rel (fun a b => id ∈ b.bindMounts → id ∈ a.bindMounts)
        (fun _ _ _ h₁ h₂ h => h₁ (h₂ h)) t _ _ ?_ ?_) ?_
    · exact (unmountStep_bindMounts env _ _ t id).1
    · intro u; rw [(removeStep_events env _ u).2.2.1]; exact fun hh => hh
    · intro u; rw [(removeFinalizerStep_events env _ u).2.2.1]; exact fun hh => hh
  · intro hok
    obtain ⟨h12, _⟩ := (Out.andThen_err_eq_none _ _).mp hok
    obtain ⟨h1, _⟩ := (Out.andThen_err_eq_none _ _).mp h12
    rw [Out.andThen_st_of_ok _ _ h12, Out.andThen_st_of_ok _ _ h1,
      (removeFinalizerStep_events env _ _).2.2.1, (removeStep_events env _ _).2.2.1]
    exact (unmountStep_bindMounts env _ _ t x.id).2.2 h1

/-- C5, amended: let a pass see a spec in phase TearingDown whose bind mount
is cached (the spec was applied by an earlier pass), no listed Running spec
having its id, and let the pass end without error.  Then the pass unmounts
its path and removes its file, each call succeeding or reporting "does not
exist", removes the finalizer after both, drops the id from the cache, and
in that same pass destroys the status with that id, if listed, every such
`Destroy` call coming after the finalizer removal. -/
theorem teardown_pass_destroys_status (env : EtcEnv W) (etcPath : String) (s : EtcState W)
    (list : List EtcFileSpec) (spec : EtcFileSpec)
    (h : (env.listSpecs s.world).1 = .ok list) (hok : (pass env etcPath s).err = none)
    (hspec : spec ∈ list) (hp : spec.phase = .tearingDown)
    (hm : spec.id ∈ s.bindMounts)
    (huniq : ∀ sp ∈ list, sp.phase = .running → sp.id ≠ spec.id) :
    (∃ r, Event.unmount (env.join etcPath spec.id) r ∈ (pass env etcPath s).events ∧
      undone r = true) ∧
    (∃ r, Event.osRemove (env.join etcPath spec.id) r ∈ (pass env etcPath s).events ∧
      undone r = true) ∧
    Event.removeFinalizer spec.id Name none ∈ (pass env etcPath s).events ∧
    Before (fun y => ∃ r, y = .unmount (env.join etcPath spec.id) r ∧ undone r = true)
      (fun x => ∃ r, x = .removeFinalizer spec.id Name r) (pass env etcPath s).events ∧
    Before (fun y => ∃ r, y = .osRemove (env.join etcPath spec.id) r ∧ undone r = true)
      (fun x => ∃ r, x = .removeFinalizer spec.id Name r) (pass env etcPath s).events ∧
    spec.id ∉ (pass env etcPath s).st.bindMounts ∧
    (∀ statuses, Event.listStatuses (.ok statuses) ∈ (pass env etcPath s).events →
      (∃ st ∈ statuses, st.id = spec.id) →
      Event.destroyStatus spec.id none ∈ (pass env etcPath s).events) ∧
    Before (fun y => y = .removeFinalizer spec.id Name none)
      (fun x => ∃ r, x = .destroyStatus spec.id r) (pass env etcPath s).events := by
  obtain ⟨hev, herr, hst⟩ := pass_eq env etcPath s list h
  have hok' := hok
  rw [herr] at hok'
  have hQ : ∀ e, (∃ r, e = Event.removeFinalizer spec.id Name r) → e.isTeardownCall = true := by
    rintro e ⟨r, rfl⟩; rfl
  have hI0 : spec.id ∈ ({ (finalized env list (afterList env s)).st with touchedIDs := [] } :
      EtcState W).bindMounts := by
    show spec.id ∈ (finalized env list (afterList env s)).st.bindMounts
    rw [finalized, addFinalizers_bindMounts]
    exact hm
  rcases passOn_cases env etcPath list (afterList env s) with
    ⟨h1, hp'⟩ | ⟨_, h2, _, herr', _⟩ | ⟨_, h2, he, _, hst'⟩
  · rw [hp'] at hok'; exact absurd hok' h1
  · rw [herr'] at hok'; exact absurd hok' h2
  · have hsub : ∀ e, e ∈ (applied env etcPath list (afterList env s)).events →
        e ∈ (pass env etcPath s).events := by
      intro e hin
      rw [hev, he]
      simp only [List.mem_cons, List.mem_append]
      exact Or.inr (Or.inl (Or.inr hin))
    obtain ⟨s', _, hs'ok, hvis⟩ :=
      forEach_ok_visits (applySpec env etcPath) (fun _ => True) list (fun _ _ _ _ => trivial) _
        trivial h2 spec hspec
    have hrf : Event.removeFinalizer spec.id Name none ∈
        (applied env etcPath list (afterList env s)).events :=
      hvis _ (teardown_ok_removeFinalizer env etcPath spec s' hp hs'ok)
    have hfree : ∀ e ∈ Event.listSpecs (.ok list) ::
        ((finalized env list (afterList env s)).events ++
          (applied env etcPath list (afterList env s)).events),
        ¬ ∃ r, e = Event.destroyStatus spec.id r := by
      rintro e he ⟨r, rfl⟩
      simp only [List.mem_cons, reduceCtorEq, false_or, List.mem_append] at he
      rcases he with he | he
      · obtain ⟨id', r', hx⟩ := addFinalizers_events env list _ _ he
        simp at hx
      · obtain ⟨sp, _, ha, _⟩ := applied_events env etcPath list _ _ he
        simp [Event.isApplyOf] at ha
    refine ⟨?_, ?_, hsub _ hrf, ?_, ?_, ?_, ?_, ?_⟩
    · obtain ⟨e, hin, r, rfl, hu⟩ := forEach_ok_reaches (applySpec env etcPath)
        (fun y => ∃ r, y = Event.unmount (env.join etcPath spec.id) r ∧ undone r = true)
        (fun t => spec.id ∈ t.bindMounts) list spec
        (fun y _ t ht => (applySpec_unmount_inv env etcPath spec.id y t ht).2)
        (fun t ht hto => teardown_ok_unmount env etcPath spec t hp ht hto) _ hI0 h2 hspec
      exact ⟨r, hsub _ hin, hu⟩
    · obtain ⟨e, hin, r, rfl, hu⟩ := teardown_ok_remove env etcPath spec s' hp hs'ok
      exact ⟨r, hsub _ (hvis _ hin), hu⟩
    · apply pass_before env etcPath s _ h _ _ hQ
      exact forEach_before_inv _ _ _ (fun t => spec.id ∈ t.bindMounts) _
        (fun x _ t ht => applySpec_unmount_inv env etcPath spec.id x t ht) _ hI0
    · apply pass_before env etcPath s _ h _ _ hQ
      exact forEach_before_local _ _ _ _
        (fun x _ t => applySpec_before_remove env etcPath spec.id x t) _
    · rw [hst, hst', (cleanup_facts env _).2.1]
      refine forEach_ok_establishes (applySpec env etcPath) (fun t => spec.id ∉ t.bindMounts)
        list spec ?_ (fun t hto => (teardown_bindMounts env etcPath spec t hp).2 hto) _ h2 hspec
      intro y hy t ht hin
      by_cases hid : y.id = spec.id
      · cases hyp : y.phase with
        | running => exact huniq y hy hyp hid
        | tearingDown => exact ht ((teardown_bindMounts env etcPath y t hyp).1 _ hin)
      · exact ht ((applySpec_bindMounts_other env etcPath y t spec.id
          (fun hh => hid hh.symm)).mp hin)
    · intro statuses hl hstl
      exact pass_destroys_untouched env etcPath s list spec.id h hok huniq statuses hl hstl
    · rw [hev, he, ← List.cons_append]
      refine Before.append_of_mem_left (Before.of_free hfree) ⟨_, ?_, rfl⟩
      simp only [List.mem_cons, List.mem_append]
      exact Or.inr (Or.inr hrf)

/-- Witness for C5 amended: the teardown pass of the scenario in the
reference world; its trace is the unmount, the removal of the file, the
finalizer removal and, after the status listing, the destruction of the
status. -/
theorem teardown_pass_destroys_status_witness :
    (refEnv.listSpecs hostsTeardownStart.world).1 = .ok [hostsTearingDown] ∧
    (pass refEnv "/etc" hostsTeardownStart).err = none ∧
    "hosts" ∈ hostsTeardownStart.bindMounts ∧
    (pass refEnv "/etc" hostsTeardownStart).events =
      [.listSpecs (.ok [hostsTearingDown]), .unmount "/etc/hosts" none,
       .osRemove "/etc/hosts" (some .notExist), .removeFinalizer "hosts" Name none,
       .listStatuses (.ok [⟨"hosts", "1"⟩]), .destroyStatus "hosts" none, .resetRestartBackoff] ∧
    ((∃ r, Event.unmount (refEnv.join "/etc" hostsTearingDown.id) r ∈
          (pass refEnv "/etc" hostsTeardownStart).events ∧ undone r = true) ∧
      (∃ r, Event.osRemove (refEnv.join "/etc" hostsTearingDown.id) r ∈
          (pass refEnv "/etc" hostsTeardownStart).events ∧ undone r = true) ∧
      Event.removeFinalizer hostsTearingDown.id Name none ∈
        (pass refEnv "/etc" hostsTeardownStart).events ∧
      hostsTearingDown.id ∉ (pass refEnv "/etc" hostsTeardownStart).st.bindMounts ∧
      Event.destroyStatus hostsTearingDown.id none ∈
        (pass refEnv "/etc" hostsTeardownStart).events) :=
  have hT := teardown_pass_destroys_status refEnv "/etc" hostsTeardownStart [hostsTearingDown]
    hostsTearingDown (by decide) (by decide) (by decide) (by decide) (by decide) (by decide)
  ⟨by decide, by decide, by decide, by decide, hT.1, hT.2.1, hT.2.2.1, hT.2.2.2.2.2.1,
    hT.2.2.2.2.2.2.1 [⟨"hosts", "1"⟩] (by decide) (by decide)⟩

end EtcFileController

end Talos
